import Mathlib

/-!
Verification development for the physical-view dependency engine of
`src/runtime/legion/legion_views.cc`.

The C++ code is shallowly embedded: each view's mutable fields become a
state record, each member function becomes a pure function from state to
state (plus its outputs), and the external collaborators that the file
only calls into (the region tree's `are_children_disjoint`, the dependence
table `check_dependence_type` from the utilities header, and the event
probe `has_triggered`) are passed in as an explicit context.  Pointer
identity of reference-counted `PhysicalUser` allocations is modelled by a
`uid` field drawn from an allocation counter carried in the state.
-/

set_option maxHeartbeats 1000000

namespace Legion

/-- Events are opaque completion handles; `0` plays the role of
`Event::NO_EVENT`, whose `exists()` test is false. -/
abbrev Event := Nat

/-- `FieldMask` is a bitset over the field space; we model it as a finite
set of field indices.  `&`, `|`, `-` become `∩`, `∪`, `\`; the `!mask`
emptiness test becomes `= ∅` and the `*` disjointness test becomes
`∩ = ∅`. -/
abbrev FieldMask := Finset Nat

/-- `ColorPoint` addresses a child inside a parent region node; `none`
models an invalid color (`is_valid()` false, as at the root call). -/
abbrev ColorPoint := Option Nat

/-- Privilege component of a `RegionUsage`. -/
inductive Privilege where
  | NO_ACCESS
  | READ_ONLY
  | READ_WRITE
  | WRITE_DISCARD
  | REDUCE
deriving DecidableEq, Repr

/-- Coherence component of a `RegionUsage`. -/
inductive Coherence where
  | EXCLUSIVE
  | ATOMIC
  | SIMULTANEOUS
  | RELAXED
deriving DecidableEq, Repr

/-- `RegionUsage`: privilege, coherence and reduction-op id. -/
structure RegionUsage where
  privilege : Privilege
  coherence : Coherence
  redop : Nat
deriving DecidableEq, Repr

def IS_READ_ONLY (u : RegionUsage) : Bool := u.privilege = Privilege.READ_ONLY

def IS_REDUCE (u : RegionUsage) : Bool := u.privilege = Privilege.REDUCE

def IS_WRITE (u : RegionUsage) : Bool :=
  u.privilege = Privilege.READ_WRITE || u.privilege = Privilege.WRITE_DISCARD

def IS_ATOMIC (u : RegionUsage) : Bool := u.coherence = Coherence.ATOMIC

/-- Result values of the dependence table. -/
inductive DependenceType where
  | NO_DEPENDENCE
  | ATOMIC_DEPENDENCE
  | SIMULTANEOUS_DEPENDENCE
  | TRUE_DEPENDENCE
  | ANTI_DEPENDENCE
deriving DecidableEq, Repr

/-- Field versions as recorded by the version tracker: an association of
field index to version id. -/
abbrev FieldVersions := List (Nat × Nat)

/-- Modelled from the spec: `PhysicalUser::same_versions` lives in the
repository outside `src/` (only its call sites are in `legion_views.cc`).
The spec describes it as testing "matching field-version ids on the
overlap"; a user that recorded no versions (the non-read-only case)
matches nothing. -/
def same_versions (uvs : Option FieldVersions) (overlap : FieldMask)
    (vs : FieldVersions) : Bool :=
  match uvs with
  | none => false
  | some uv =>
      decide (∀ f ∈ overlap, List.lookup f uv = List.lookup f vs ∧
                             (List.lookup f uv).isSome)

/-- `PhysicalUser`: immutable record of a prior user.  `versions` is
present only for read-only users (the WAR-skip case); `uid` models the
identity of the heap allocation (distinct `legion_new` calls give
distinct uids), which the C++ uses as map key and for deduplication. -/
structure PhysicalUser where
  usage : RegionUsage
  child : ColorPoint
  versions : Option FieldVersions
  uid : Nat
deriving DecidableEq, Repr

/-- The payload of a user that travels on the wire (everything except the
allocation identity): `pack_user` serializes exactly this. -/
def PhysicalUser.record (u : PhysicalUser) :
    RegionUsage × ColorPoint × Option FieldVersions :=
  (u.usage, u.child, u.versions)

/-- External collaborators of the dependency analyzers: the region node's
child-disjointness oracle, the dependence table from the utilities
header, and the best-effort completion probe on events. -/
structure ExternalCtx where
  are_children_disjoint : Nat → Nat → Bool
  check_dependence_type : RegionUsage → RegionUsage → DependenceType
  has_triggered : Event → Bool

/-! ### Association lists

The C++ `LegionMap` (an ordered `std::map`) is modelled by an association
list with unique keys; insertion updates in place or appends. -/

section Assoc

variable {α β : Type} [DecidableEq α]

/-- Lookup of the first binding of a key. -/
def lookupA : List (α × β) → α → Option β
  | [], _ => none
  | (k, v) :: rest, a => if k = a then some v else lookupA rest a

/-- `m[k] = v`: replace the first binding in place, or append. -/
def setA : List (α × β) → α → β → List (α × β)
  | [], a, b => [(a, b)]
  | (k, v) :: rest, a, b =>
      if k = a then (a, b) :: rest else (k, v) :: setA rest a b

/-- `m.erase(k)`: drop the first binding of a key. -/
def eraseA : List (α × β) → α → List (α × β)
  | [], _ => []
  | (k, v) :: rest, a => if k = a then rest else (k, v) :: eraseA rest a

@[simp] theorem lookupA_nil (a : α) : lookupA ([] : List (α × β)) a = none := rfl

@[simp] theorem lookupA_cons (k : α) (v : β) (rest : List (α × β)) (a : α) :
    lookupA ((k, v) :: rest) a = if k = a then some v else lookupA rest a := rfl

theorem lookupA_setA_self (l : List (α × β)) (a : α) (b : β) :
    lookupA (setA l a b) a = some b := by
  induction l with
  | nil => simp [setA]
  | cons hd tl ih =>
      obtain ⟨k, v⟩ := hd
      by_cases h : k = a
      · simp [setA, h]
      · simp [setA, h, ih]

theorem lookupA_setA_ne (l : List (α × β)) (a c : α) (b : β) (h : c ≠ a) :
    lookupA (setA l a b) c = lookupA l c := by
  induction l with
  | nil => simp [setA, lookupA, Ne.symm h]
  | cons hd tl ih =>
      obtain ⟨k, v⟩ := hd
      by_cases hk : k = a
      · subst hk
        simp [setA, lookupA, Ne.symm h]
      · simp [setA, hk, lookupA, ih]

theorem lookupA_not_mem_keys (l : List (α × β)) (a : α)
    (h : a ∉ l.map Prod.fst) : lookupA l a = none := by
  induction l with
  | nil => simp
  | cons hd tl ih =>
      obtain ⟨k, v⟩ := hd
      simp only [List.map_cons, List.mem_cons, not_or] at h
      simp [lookupA, Ne.symm h.1, ih h.2]

theorem lookupA_eraseA_self (l : List (α × β)) (a : α)
    (hnd : (l.map Prod.fst).Nodup) : lookupA (eraseA l a) a = none := by
  induction l with
  | nil => simp [eraseA]
  | cons hd tl ih =>
      obtain ⟨k, v⟩ := hd
      simp only [List.map_cons, List.nodup_cons] at hnd
      by_cases h : k = a
      · subst h
        simp only [eraseA, if_pos rfl]
        exact lookupA_not_mem_keys tl k hnd.1
      · simp [eraseA, h, ih hnd.2]

theorem lookupA_eraseA_ne (l : List (α × β)) (a c : α) (h : c ≠ a) :
    lookupA (eraseA l a) c = lookupA l c := by
  induction l with
  | nil => simp [eraseA]
  | cons hd tl ih =>
      obtain ⟨k, v⟩ := hd
      by_cases hk : k = a
      · subst hk
        simp [eraseA, lookupA, Ne.symm h]
      · simp [eraseA, hk, lookupA, ih]

end Assoc

/-! ### EventUsers

The compact per-event bucket: either a single `PhysicalUser` plus its
mask, or a map from users to masks, with a summary `user_mask`.  A
default-constructed bucket (as produced by `LegionMap::operator[]`) is
single with a null user and an empty mask. -/

structure EventUsers where
  single : Bool
  single_user : Option PhysicalUser
  multi_users : List (PhysicalUser × FieldMask)
  user_mask : FieldMask
deriving DecidableEq

/-- The default-constructed bucket. -/
def emptyEU : EventUsers :=
  { single := true, single_user := none, multi_users := [], user_mask := ∅ }

/-- The per-user contents of a bucket, single or multi. -/
def EventUsers.entries (eu : EventUsers) : List (PhysicalUser × FieldMask) :=
  if eu.single then
    match eu.single_user with
    | none => []
    | some u => [(u, eu.user_mask)]
  else eu.multi_users

/-- Union of a list of per-user masks. -/
def sumMasks (l : List (PhysicalUser × FieldMask)) : FieldMask :=
  l.foldr (fun p acc => p.2 ∪ acc) ∅

@[simp] theorem sumMasks_nil : sumMasks [] = ∅ := rfl

@[simp] theorem sumMasks_cons (p : PhysicalUser × FieldMask)
    (l : List (PhysicalUser × FieldMask)) :
    sumMasks (p :: l) = p.2 ∪ sumMasks l := rfl

theorem sumMasks_append (l₁ l₂ : List (PhysicalUser × FieldMask)) :
    sumMasks (l₁ ++ l₂) = sumMasks l₁ ∪ sumMasks l₂ := by
  induction l₁ with
  | nil => simp
  | cons hd tl ih => simp [ih, Finset.union_assoc]

/-- Claim-level well-formedness of a bucket: the summary mask is the
union of the per-user masks (in single form the user's mask is stored as
the summary itself, so the constraint there is that a null-user bucket
has an empty summary). -/
def EventUsers.maskWf (eu : EventUsers) : Prop :=
  eu.user_mask = sumMasks eu.entries

/-- Full structural well-formedness used by the induction: the mask
property plus uniqueness of the multi-map keys and emptiness of the
unused union arm. -/
def EventUsers.wf (eu : EventUsers) : Prop :=
  eu.maskWf ∧ (eu.multi_users.map Prod.fst).Nodup ∧
    (eu.single = true → eu.multi_users = [])

instance EventUsers.wfDecidable (eu : EventUsers) : Decidable eu.wf :=
  decidable_of_iff (eu.user_mask = sumMasks eu.entries ∧
    (eu.multi_users.map Prod.fst).Nodup ∧
    (eu.single = true → eu.multi_users = [])) Iff.rfl

theorem emptyEU_wf : emptyEU.wf := by
  refine ⟨?_, by simp [emptyEU], fun _ => rfl⟩
  simp [EventUsers.maskWf, emptyEU, EventUsers.entries]

/-- `MaterializedView::add_current_user` / `add_previous_user` /
`ReductionView::add_physical_user` all share this per-bucket insertion:
fill the single slot, promote single to multi on second insertion, or
insert into the multi map, unioning the summary mask. -/
def EventUsers.addUser (eu : EventUsers) (user : PhysicalUser)
    (user_mask : FieldMask) : EventUsers :=
  if eu.single then
    match eu.single_user with
    | none =>
        { eu with single_user := some user, user_mask := user_mask }
    | some su =>
        { single := false, single_user := none,
          multi_users := setA (setA [] su eu.user_mask) user user_mask,
          user_mask := eu.user_mask ∪ user_mask }
  else
    { eu with multi_users := setA eu.multi_users user user_mask,
              user_mask := eu.user_mask ∪ user_mask }

/-- The uids mentioned by a bucket. -/
def EventUsers.uids (eu : EventUsers) : List Nat :=
  eu.entries.map (fun p => p.1.uid)

/-- All uids in a bucket below a bound. -/
def EventUsers.uidsBelow (eu : EventUsers) (n : Nat) : Prop :=
  ∀ u ∈ eu.uids, u < n

theorem setA_keys_not_mem {β : Type} (l : List (PhysicalUser × β))
    (u : PhysicalUser) (b : β) (h : u ∉ l.map Prod.fst) :
    setA l u b = l ++ [(u, b)] := by
  induction l with
  | nil => rfl
  | cons hd tl ih =>
      obtain ⟨k, v⟩ := hd
      simp only [List.map_cons, List.mem_cons, not_or] at h
      simp [setA, Ne.symm h.1, ih h.2]

/-- Inserting a user whose uid is fresh for the bucket preserves
well-formedness, and extends the entry list by the new pair. -/
theorem EventUsers.addUser_entries_fresh (eu : EventUsers)
    (u : PhysicalUser) (m : FieldMask) (hwf : eu.wf)
    (hfresh : u.uid ∉ eu.uids) :
    (eu.addUser u m).entries = eu.entries ++ [(u, m)] ∧ (eu.addUser u m).wf := by
  obtain ⟨hmask, hnd, hsm⟩ := hwf
  by_cases hs : eu.single = true
  · cases hsu : eu.single_user with
    | none =>
        constructor
        · simp [EventUsers.addUser, EventUsers.entries, hs, hsu]
        · have hm0 : eu.user_mask = ∅ := by
            simpa [EventUsers.maskWf, EventUsers.entries, hs, hsu] using hmask
          refine ⟨?_, by simpa [EventUsers.addUser, hs, hsu] using hnd,
            by simp [EventUsers.addUser, hs, hsu, hsm hs]⟩
          simp [EventUsers.addUser, EventUsers.maskWf, EventUsers.entries, hs, hsu]
    | some su =>
        have hne : u ≠ su := by
          intro hh
          apply hfresh
          simp [EventUsers.uids, EventUsers.entries, hs, hsu, hh]
        have hset : setA (setA ([] : List (PhysicalUser × FieldMask)) su eu.user_mask) u m
            = [(su, eu.user_mask), (u, m)] := by
          simp [setA, Ne.symm hne]
        constructor
        · simp [EventUsers.addUser, EventUsers.entries, hs, hsu, hset]
        · refine ⟨?_, ?_, by simp [EventUsers.addUser, hs, hsu]⟩
          · simp [EventUsers.addUser, EventUsers.maskWf, EventUsers.entries, hs, hsu, hset]
          · simp [EventUsers.addUser, hs, hsu, hset, Ne.symm hne]
  · have hs2 : eu.single = false := by
      cases h : eu.single
      · rfl
      · exact absurd h hs
    have hmem : u ∉ eu.multi_users.map Prod.fst := by
      intro hh
      apply hfresh
      rcases List.mem_map.mp hh with ⟨p, hp, hpe⟩
      exact List.mem_map.mpr ⟨p, by simpa [EventUsers.entries, hs2] using hp, by rw [hpe]⟩
    have hset := setA_keys_not_mem eu.multi_users u m hmem
    constructor
    · simp [EventUsers.addUser, EventUsers.entries, hs2, hset]
    · refine ⟨?_, ?_, by simp [EventUsers.addUser, hs2]⟩
      · have : sumMasks (eu.multi_users ++ [(u, m)]) = sumMasks eu.multi_users ∪ m := by
          simp [sumMasks_append]
        simp only [EventUsers.addUser, hs2, Bool.false_eq_true, if_false,
          EventUsers.maskWf, EventUsers.entries, hset, this]
        rw [hmask]
        simp [EventUsers.entries, hs2]
      · simp only [EventUsers.addUser, hs2, Bool.false_eq_true, if_false, hset]
        rw [List.map_append]
        refine List.Nodup.append hnd (by simp) ?_
        intro x hx
        simp only [List.map_cons, List.map_nil, List.mem_singleton]
        intro hxe
        subst hxe
        exact hmem hx

/-- Merge one user into a user-to-mask map: union into the existing
binding, or insert a fresh one.  This is the `find`-then-update pattern
the C++ uses whenever user records flow between epoch maps. -/
def mergeUserInto (acc : List (PhysicalUser × FieldMask)) (u : PhysicalUser)
    (m : FieldMask) : List (PhysicalUser × FieldMask) :=
  match lookupA acc u with
  | none => setA acc u m
  | some pm => setA acc u (pm ∪ m)

/-- Record `m` against event `e` in a mask-keyed precondition map: union
into the existing binding or insert a fresh one (the
`preconditions.find` / `|=` pattern of the copy analyzers). -/
def addPre (pre : List (Event × FieldMask)) (e : Event) (m : FieldMask) :
    List (Event × FieldMask) :=
  match lookupA pre e with
  | none => setA pre e m
  | some pm => setA pre e (pm ∪ m)

/-- The placeholder used when a wire index fails to resolve (the C++
would fault; keeping the function total does not matter to any reachable
behavior because senders emit only in-range indices). -/
def dummyUser (uid : Nat) : PhysicalUser :=
  { usage := { privilege := Privilege.NO_ACCESS,
               coherence := Coherence.EXCLUSIVE, redop := 0 },
    child := none, versions := none, uid := uid }

namespace MaterializedView

/-- The mutable state of one materialized view that the user-epoch
algorithms touch: the two epoch tables, the set of events with a pending
deferred-collection task, and the allocation counter that models
`legion_new<PhysicalUser>` identities. -/
structure State where
  current_epoch_users : List (Event × EventUsers)
  previous_epoch_users : List (Event × EventUsers)
  outstanding_gc_events : Finset Event
  next_uid : Nat
deriving DecidableEq

/-- A freshly constructed view: both tables empty. -/
def emptyMV : State :=
  { current_epoch_users := [], previous_epoch_users := [],
    outstanding_gc_events := ∅, next_uid := 0 }

/-- `MaterializedView::add_current_user`. -/
def add_current_user (s : State) (user : PhysicalUser) (term_event : Event)
    (user_mask : FieldMask) : State :=
  let eu := (lookupA s.current_epoch_users term_event).getD emptyEU
  let tbl := setA s.current_epoch_users term_event (eu.addUser user user_mask)
  { s with current_epoch_users := tbl }

/-- `MaterializedView::add_previous_user`. -/
def add_previous_user (s : State) (user : PhysicalUser) (term_event : Event)
    (user_mask : FieldMask) : State :=
  let eu := (lookupA s.previous_epoch_users term_event).getD emptyEU
  let tbl := setA s.previous_epoch_users term_event (eu.addUser user user_mask)
  { s with previous_epoch_users := tbl }

/-- `MaterializedView::filter_local_users`: if the event has an
outstanding collection, drop it from both epoch tables (releasing the
references those entries held) and from the outstanding set; otherwise
do nothing. -/
def filter_local_users (s : State) (term_event : Event) : State :=
  if term_event ∈ s.outstanding_gc_events then
    { s with
      current_epoch_users := eraseA s.current_epoch_users term_event,
      previous_epoch_users := eraseA s.previous_epoch_users term_event,
      outstanding_gc_events := s.outstanding_gc_events.erase term_event }
  else s

/-- Per-bucket body of `MaterializedView::filter_previous_users`:
subtract the filter mask from the summary; delete the entry if the
summary empties, otherwise subtract per-user (multi form), delete
emptied users and collapse a one-entry map back to single form. -/
def filterPreviousBucket (eu : EventUsers) (f : FieldMask) : Option EventUsers :=
  let m2 := eu.user_mask \ f
  if m2 = ∅ then none
  else if eu.single then some { eu with user_mask := m2 }
  else
    let subtracted := eu.multi_users.map fun p => (p.1, p.2 \ f)
    let kept := subtracted.filter fun p => p.2 ≠ ∅
    if kept.length = eu.multi_users.length then
      some { eu with user_mask := m2, multi_users := subtracted }
    else if kept.length = 1 then
      match kept.head? with
      | some (u, m) =>
          some { single := true, single_user := some u, multi_users := [],
                 user_mask := m }
      | none => some { eu with user_mask := m2, multi_users := kept }
    else some { eu with user_mask := m2, multi_users := kept }

/-- `MaterializedView::filter_previous_users`. -/
def filter_previous_users (s : State)
    (fp : List (Event × FieldMask)) : State :=
  fp.foldl (fun st p =>
    match lookupA st.previous_epoch_users p.1 with
    | none => st
    | some eu =>
        match filterPreviousBucket eu p.2 with
        | none =>
            { st with previous_epoch_users := eraseA st.previous_epoch_users p.1 }
        | some eu2 =>
            { st with previous_epoch_users := setA st.previous_epoch_users p.1 eu2 }) s

/-- Per-bucket body of `MaterializedView::filter_current_users`, for a
current bucket with nonempty `summary_overlap`: returns the updated
previous bucket and the surviving current bucket (`none` when the event
is dropped from the current epoch). -/
def filterCurrentBucket (cur prev : EventUsers) (overlap : FieldMask) :
    EventUsers × Option EventUsers :=
  let curMask := cur.user_mask \ overlap
  if cur.single then
    match cur.single_user with
    | none => (prev, some { cur with user_mask := curMask })
    | some user =>
      let newCur : Option EventUsers :=
        if curMask = ∅ then none else some { cur with user_mask := curMask }
      if prev.single then
        match prev.single_user with
        | none =>
            ({ prev with single_user := some user, user_mask := overlap },
             newCur)
        | some pu =>
            if pu = user then
              ({ prev with user_mask := prev.user_mask ∪ overlap }, newCur)
            else
              ({ single := false, single_user := none,
                 multi_users := setA (setA [] pu prev.user_mask) user overlap,
                 user_mask := prev.user_mask ∪ overlap }, newCur)
      else
        ({ prev with multi_users := mergeUserInto prev.multi_users user overlap,
                     user_mask := prev.user_mask ∪ overlap }, newCur)
  else
    if curMask = ∅ then
      -- the whole multi set moves back to the previous epoch
      if prev.single then
        match prev.single_user with
        | none =>
            ({ single := false, single_user := none,
               multi_users := cur.multi_users,
               user_mask := prev.user_mask ∪ overlap }, none)
        | some pu =>
            ({ single := false, single_user := none,
               multi_users := mergeUserInto cur.multi_users pu prev.user_mask,
               user_mask := prev.user_mask ∪ overlap }, none)
      else
        let merged := cur.multi_users.foldl
          (fun acc p => mergeUserInto acc p.1 p.2) prev.multi_users
        ({ prev with multi_users := merged,
                     user_mask := prev.user_mask ∪ overlap }, none)
    else
      -- only the filtered fields of each user move back
      let moved := cur.multi_users.filterMap fun p =>
        if p.2 ∩ overlap = ∅ then none else some (p.1, p.2 ∩ overlap)
      let curKept := (cur.multi_users.map fun p => (p.1, p.2 \ overlap)).filter
        fun p => p.2 ≠ ∅
      let newCur : EventUsers :=
        if curKept.length ≠ cur.multi_users.length ∧ curKept.length = 1 then
          match curKept.head? with
          | some (u, m) =>
              { single := true, single_user := some u, multi_users := [],
                user_mask := m }
          | none => { cur with user_mask := curMask, multi_users := curKept }
        else { cur with user_mask := curMask, multi_users := curKept }
      if prev.single then
        let withPrev :=
          match prev.single_user with
          | none => moved
          | some pu => mergeUserInto moved pu prev.user_mask
        ({ single := false, single_user := none, multi_users := withPrev,
           user_mask := prev.user_mask ∪ overlap }, some newCur)
      else
        let merged := moved.foldl
          (fun acc p => mergeUserInto acc p.1 p.2) prev.multi_users
        ({ prev with multi_users := merged,
                     user_mask := prev.user_mask ∪ overlap }, some newCur)

/-- One current-epoch entry of `filter_current_users`: the accumulator
carries the rebuilt current table and the evolving previous table. -/
def fcuStep (ctx : ExternalCtx) (dominated : FieldMask)
    (acc : List (Event × EventUsers) × List (Event × EventUsers))
    (ce : Event × EventUsers) :
    List (Event × EventUsers) × List (Event × EventUsers) :=
  if ctx.has_triggered ce.1 then acc
  else
    let overlap := ce.2.user_mask ∩ dominated
    if overlap = ∅ then (acc.1 ++ [ce], acc.2)
    else
      let prevBucket := (lookupA acc.2 ce.1).getD emptyEU
      let pr := filterCurrentBucket ce.2 prevBucket overlap
      ((match pr.2 with
        | some b => acc.1 ++ [(ce.1, b)]
        | none => acc.1),
       setA acc.2 ce.1 pr.1)

/-- `MaterializedView::filter_current_users`: walk the current epoch;
already-triggered events are dropped outright; fields of `dominated` are
migrated to the previous epoch; events whose summary empties are erased
from the current epoch. -/
def filter_current_users (ctx : ExternalCtx) (s : State)
    (dominated : FieldMask) : State :=
  let res := s.current_epoch_users.foldl (fcuStep ctx dominated)
    ([], s.previous_epoch_users)
  { s with current_epoch_users := res.1, previous_epoch_users := res.2 }

/-! ### Task-path dependency analyzer -/

/-- Accumulator of the current-epoch pass on the task path. -/
structure TaskAcc where
  preconditions : Finset Event
  observed : FieldMask
  non_dominated : FieldMask
deriving DecidableEq

/-- `MaterializedView::find_current_preconditions` (task path, one prior
user).  Returns whether a dependence was recorded, together with the
updated accumulator. -/
def find_current_preconditions (ctx : ExternalCtx) (test_event : Event)
    (prev_user : PhysicalUser) (prev_mask : FieldMask)
    (next_user : RegionUsage) (next_mask : FieldMask)
    (child_color : ColorPoint) (acc : TaskAcc) : Bool × TaskAcc :=
  let overlap := prev_mask ∩ next_mask
  if overlap = ∅ then (false, acc)
  else
    let acc2 := { acc with observed := acc.observed ∪ overlap }
    let cut : Bool × TaskAcc :=
      (false, { acc2 with non_dominated := acc2.non_dominated ∪ overlap })
    let dep : Bool × TaskAcc :=
      match ctx.check_dependence_type prev_user.usage next_user with
      | DependenceType.NO_DEPENDENCE
      | DependenceType.ATOMIC_DEPENDENCE
      | DependenceType.SIMULTANEOUS_DEPENDENCE =>
          (false, { acc2 with non_dominated := acc2.non_dominated ∪ overlap })
      | DependenceType.TRUE_DEPENDENCE
      | DependenceType.ANTI_DEPENDENCE =>
          (true, { acc2 with preconditions := insert test_event acc2.preconditions })
    match child_color with
    | none => dep
    | some cc =>
        if prev_user.child = some cc then cut
        else
          match prev_user.child with
          | some pc => if ctx.are_children_disjoint cc pc then cut else dep
          | none => dep

/-- `MaterializedView::find_previous_preconditions` (task path, one
prior user). -/
def find_previous_preconditions (ctx : ExternalCtx) (test_event : Event)
    (prev_user : PhysicalUser) (prev_mask : FieldMask)
    (next_user : RegionUsage) (next_mask : FieldMask)
    (child_color : ColorPoint) (preconditions : Finset Event) :
    Bool × Finset Event :=
  let body : Bool × Finset Event :=
    let overlap := prev_mask ∩ next_mask
    if overlap = ∅ then (false, preconditions)
    else
      match ctx.check_dependence_type prev_user.usage next_user with
      | DependenceType.NO_DEPENDENCE
      | DependenceType.ATOMIC_DEPENDENCE
      | DependenceType.SIMULTANEOUS_DEPENDENCE => (false, preconditions)
      | DependenceType.TRUE_DEPENDENCE
      | DependenceType.ANTI_DEPENDENCE => (true, insert test_event preconditions)
  match child_color with
  | none => body
  | some cc =>
      if prev_user.child = some cc then (false, preconditions)
      else
        match prev_user.child with
        | some pc =>
            if ctx.are_children_disjoint cc pc then (false, preconditions)
            else body
        | none => body

/-- Inner loop over a multi-user bucket on the task path; stops at the
first user that records a dependence on the event. -/
def findCurrentMulti (ctx : ExternalCtx) (e : Event) (usage : RegionUsage)
    (user_mask : FieldMask) (child : ColorPoint) :
    List (PhysicalUser × FieldMask) → TaskAcc → TaskAcc
  | [], acc => acc
  | p :: rest, acc =>
      let r := find_current_preconditions ctx e p.1 p.2 usage user_mask child acc
      if r.1 then r.2 else findCurrentMulti ctx e usage user_mask child rest r.2

/-- Inner loop over a multi-user bucket of the previous epoch (task
path); stops at the first recorded dependence. -/
def findPreviousMulti (ctx : ExternalCtx) (e : Event) (usage : RegionUsage)
    (next_mask : FieldMask) (child : ColorPoint) :
    List (PhysicalUser × FieldMask) → Finset Event → Finset Event
  | [], pre => pre
  | p :: rest, pre =>
      let r := find_previous_preconditions ctx e p.1 p.2 usage next_mask child pre
      if r.1 then r.2 else findPreviousMulti ctx e usage next_mask child rest r.2

/-- One current-epoch entry of the task-path scan. -/
def curTaskStep (ctx : ExternalCtx) (usage : RegionUsage) (term_event : Event)
    (child : ColorPoint) (user_mask : FieldMask)
    (st : List Event × TaskAcc) (ce : Event × EventUsers) :
    List Event × TaskAcc :=
  if ctx.has_triggered ce.1 then (st.1 ++ [ce.1], st.2)
  else if ce.1 = term_event then st
  else if ce.1 ∈ st.2.preconditions then st
  else if ce.2.single then
    match ce.2.single_user with
    | some u =>
        (st.1, (find_current_preconditions ctx ce.1 u ce.2.user_mask usage
                  user_mask child st.2).2)
    | none => st
  else if ¬(user_mask ∩ ce.2.user_mask = ∅) then
    (st.1, findCurrentMulti ctx ce.1 usage user_mask child ce.2.multi_users st.2)
  else st

/-- Current-epoch pass of `MaterializedView::add_local_user`: collects
triggered (dead) events and the task accumulator. -/
def scanCurrentTask (ctx : ExternalCtx) (current : List (Event × EventUsers))
    (usage : RegionUsage) (term_event : Event) (child : ColorPoint)
    (user_mask : FieldMask) (pre0 : Finset Event) : List Event × TaskAcc :=
  current.foldl (curTaskStep ctx usage term_event child user_mask)
    ([], { preconditions := pre0, observed := ∅, non_dominated := ∅ })

/-- One previous-epoch entry of the task-path scan. -/
def prevTaskStep (ctx : ExternalCtx) (usage : RegionUsage) (term_event : Event)
    (child : ColorPoint) (non_dominated dominated : FieldMask)
    (st : List Event × List (Event × FieldMask) × Finset Event)
    (pe : Event × EventUsers) :
    List Event × List (Event × FieldMask) × Finset Event :=
  let skip_analysis := non_dominated = ∅
  if ctx.has_triggered pe.1 then (st.1 ++ [pe.1], st.2.1, st.2.2)
  else if pe.1 = term_event then st
  else if pe.1 ∈ st.2.2 then st
  else
    let dom_overlap := pe.2.user_mask ∩ dominated
    let fp2 := if dominated ≠ ∅ ∧ dom_overlap ≠ ∅ then
        st.2.1 ++ [(pe.1, dom_overlap)] else st.2.1
    if skip_analysis then (st.1, fp2, st.2.2)
    else if pe.2.single then
      match pe.2.single_user with
      | some u =>
          (st.1, fp2, (find_previous_preconditions ctx pe.1 u pe.2.user_mask
                         usage non_dominated child st.2.2).2)
      | none => (st.1, fp2, st.2.2)
    else if ¬(non_dominated ∩ pe.2.user_mask = ∅) then
      (st.1, fp2,
        findPreviousMulti ctx pe.1 usage non_dominated child pe.2.multi_users st.2.2)
    else (st.1, fp2, st.2.2)

/-- Previous-epoch pass of `MaterializedView::add_local_user`: extends
the dead list, builds the `filter_previous` map from the dominated
fields, and (unless the analysis is skipped) records dependences on the
non-dominated fields. -/
def scanPreviousTask (ctx : ExternalCtx) (previous : List (Event × EventUsers))
    (usage : RegionUsage) (term_event : Event) (child : ColorPoint)
    (non_dominated dominated : FieldMask) (dead0 : List Event)
    (pre0 : Finset Event) :
    List Event × List (Event × FieldMask) × Finset Event :=
  previous.foldl (prevTaskStep ctx usage term_event child non_dominated dominated)
    (dead0, [], pre0)

/-- `MaterializedView::add_local_user`: the full task-path pipeline —
current pass, domination, previous pass, dead/previous/current
filtering, and installation of the new user.  Returns the preconditions
set, the issue-collect flag and the new state. -/
def add_local_user (ctx : ExternalCtx) (s : State) (usage : RegionUsage)
    (term_event : Event) (base_user : Bool) (child_color : ColorPoint)
    (vi : FieldVersions) (user_mask : FieldMask) (pre0 : Finset Event) :
    Finset Event × Bool × State :=
  let scan1 := scanCurrentTask ctx s.current_epoch_users usage term_event
    child_color user_mask pre0
  let dominated := scan1.2.observed ∩ (user_mask \ scan1.2.non_dominated)
  let non_dominated2 := user_mask \ dominated
  let scan2 := scanPreviousTask ctx s.previous_epoch_users usage term_event
    child_color non_dominated2 dominated scan1.1 scan1.2.preconditions
  let dead := scan2.1
  let fp := scan2.2.1
  let pre := scan2.2.2
  let s1 := dead.foldl (fun st e => filter_local_users st e) s
  let s2 := if fp ≠ [] then filter_previous_users s1 fp else s1
  let s3 := if dominated ≠ ∅ then filter_current_users ctx s2 dominated else s2
  if term_event ≠ 0 then
    let vsn := if IS_READ_ONLY usage then some vi else none
    let new_user : PhysicalUser :=
      { usage := usage, child := child_color, versions := vsn, uid := s3.next_uid }
    let s4 := add_current_user { s3 with next_uid := s3.next_uid + 1 }
      new_user term_event user_mask
    if term_event ∈ s4.outstanding_gc_events then (pre, false, s4)
    else (pre, base_user,
      { s4 with outstanding_gc_events := insert term_event s4.outstanding_gc_events })
  else (pre, false, s3)

/-! ### Copy-path dependency analyzer -/

/-- Accumulator of the current-epoch pass on the copy path; the
preconditions are a mask-keyed event map. -/
structure CopyAcc where
  preconditions : List (Event × FieldMask)
  observed : FieldMask
  non_dominated : FieldMask
deriving DecidableEq

/-- `MaterializedView::find_current_copy_preconditions` (one prior
user): child cut-offs, reader/reducer cut-offs, the same-version WAR/WAW
skip, else record the dependence. -/
def find_current_copy_preconditions (ctx : ExternalCtx) (test_event : Event)
    (user : PhysicalUser) (user_mask : FieldMask) (redop : Nat)
    (reading : Bool) (copy_mask : FieldMask) (child_color : ColorPoint)
    (versions : Option FieldVersions) (acc : CopyAcc) : CopyAcc :=
  let overlap := copy_mask ∩ user_mask
  if overlap = ∅ then acc
  else
    let acc2 := { acc with observed := acc.observed ∪ overlap }
    let nd := { acc2 with non_dominated := acc2.non_dominated ∪ overlap }
    let record := { acc2 with preconditions := addPre acc2.preconditions test_event overlap }
    let dep : CopyAcc :=
      if reading ∧ IS_READ_ONLY user.usage then nd
      else if 0 < redop ∧ user.usage.redop = redop then nd
      else
        match versions with
        | some vs =>
            if ¬reading ∧ redop = 0 ∧ ¬IS_REDUCE user.usage ∧
                same_versions user.versions overlap vs then nd
            else record
        | none => record
    match child_color with
    | none => dep
    | some cc =>
        if user.child = some cc then nd
        else
          match user.child with
          | some pc => if ctx.are_children_disjoint cc pc then nd else dep
          | none => dep

/-- `MaterializedView::find_previous_copy_preconditions` (one prior
user). -/
def find_previous_copy_preconditions (ctx : ExternalCtx) (test_event : Event)
    (user : PhysicalUser) (user_mask : FieldMask) (redop : Nat)
    (reading : Bool) (copy_mask : FieldMask) (child_color : ColorPoint)
    (versions : Option FieldVersions) (pre : List (Event × FieldMask)) :
    List (Event × FieldMask) :=
  let body : List (Event × FieldMask) :=
    let overlap := user_mask ∩ copy_mask
    if overlap = ∅ then pre
    else if reading ∧ IS_READ_ONLY user.usage then pre
    else if 0 < redop ∧ user.usage.redop = redop then pre
    else
      match versions with
      | some vs =>
          if ¬reading ∧ redop = 0 ∧ ¬IS_REDUCE user.usage ∧
              same_versions user.versions overlap vs then pre
          else addPre pre test_event overlap
      | none => addPre pre test_event overlap
  match child_color with
  | none => body
  | some cc =>
      if user.child = some cc then pre
      else
        match user.child with
        | some pc => if ctx.are_children_disjoint cc pc then pre else body
        | none => body

/-- One current-epoch entry of the copy-path scan. -/
def curCopyStep (ctx : ExternalCtx) (redop : Nat) (reading : Bool)
    (copy_mask : FieldMask) (child : ColorPoint)
    (versions : Option FieldVersions)
    (st : List Event × CopyAcc) (ce : Event × EventUsers) :
    List Event × CopyAcc :=
  if ctx.has_triggered ce.1 then (st.1 ++ [ce.1], st.2)
  else if ce.2.single then
    match ce.2.single_user with
    | some u =>
        (st.1, find_current_copy_preconditions ctx ce.1 u ce.2.user_mask
                 redop reading copy_mask child versions st.2)
    | none => st
  else if ¬(copy_mask ∩ ce.2.user_mask = ∅) then
    (st.1, ce.2.multi_users.foldl (fun a p =>
      find_current_copy_preconditions ctx ce.1 p.1 p.2 redop reading
        copy_mask child versions a) st.2)
  else st

/-- Current-epoch pass of
`MaterializedView::find_local_copy_preconditions`. -/
def scanCurrentCopy (ctx : ExternalCtx) (current : List (Event × EventUsers))
    (redop : Nat) (reading : Bool) (copy_mask : FieldMask)
    (child : ColorPoint) (versions : Option FieldVersions)
    (pre0 : List (Event × FieldMask)) : List Event × CopyAcc :=
  current.foldl (curCopyStep ctx redop reading copy_mask child versions)
    ([], { preconditions := pre0, observed := ∅, non_dominated := ∅ })

/-- One previous-epoch entry of the copy-path scan. -/
def prevCopyStep (ctx : ExternalCtx) (redop : Nat) (reading : Bool)
    (child : ColorPoint) (versions : Option FieldVersions)
    (non_dominated dominated : FieldMask)
    (st : List Event × List (Event × FieldMask) × List (Event × FieldMask))
    (pe : Event × EventUsers) :
    List Event × List (Event × FieldMask) × List (Event × FieldMask) :=
  let skip_analysis := non_dominated = ∅
  if ctx.has_triggered pe.1 then (st.1 ++ [pe.1], st.2.1, st.2.2)
  else
    let dom_overlap := pe.2.user_mask ∩ dominated
    let fp2 := if dominated ≠ ∅ ∧ dom_overlap ≠ ∅ then
        st.2.1 ++ [(pe.1, dom_overlap)] else st.2.1
    if skip_analysis then (st.1, fp2, st.2.2)
    else if pe.2.single then
      match pe.2.single_user with
      | some u =>
          (st.1, fp2, find_previous_copy_preconditions ctx pe.1 u
            pe.2.user_mask redop reading non_dominated child versions st.2.2)
      | none => (st.1, fp2, st.2.2)
    else if ¬(non_dominated ∩ pe.2.user_mask = ∅) then
      (st.1, fp2, pe.2.multi_users.foldl (fun a p =>
        find_previous_copy_preconditions ctx pe.1 p.1 p.2 redop reading
          non_dominated child versions a) st.2.2)
    else (st.1, fp2, st.2.2)

/-- Previous-epoch pass of
`MaterializedView::find_local_copy_preconditions`. -/
def scanPreviousCopy (ctx : ExternalCtx) (previous : List (Event × EventUsers))
    (redop : Nat) (reading : Bool) (child : ColorPoint)
    (versions : Option FieldVersions) (non_dominated dominated : FieldMask)
    (dead0 : List Event) (pre0 : List (Event × FieldMask)) :
    List Event × List (Event × FieldMask) × List (Event × FieldMask) :=
  previous.foldl
    (prevCopyStep ctx redop reading child versions non_dominated dominated)
    (dead0, [], pre0)

/-- `MaterializedView::find_local_copy_preconditions`: the copy-path
pipeline.  Versions are consulted only at the bottom of the hierarchy
(invalid child color). -/
def find_local_copy_preconditions (ctx : ExternalCtx) (s : State)
    (redop : Nat) (reading : Bool) (copy_mask : FieldMask)
    (child_color : ColorPoint) (vi : FieldVersions)
    (pre0 : List (Event × FieldMask)) : List (Event × FieldMask) × State :=
  let versions : Option FieldVersions :=
    if child_color.isSome then none else some vi
  let scan1 := scanCurrentCopy ctx s.current_epoch_users redop reading
    copy_mask child_color versions pre0
  let dominated := scan1.2.observed ∩ (copy_mask \ scan1.2.non_dominated)
  let non_dominated2 := copy_mask \ dominated
  let scan2 := scanPreviousCopy ctx s.previous_epoch_users redop reading
    child_color versions non_dominated2 dominated scan1.1 scan1.2.preconditions
  let dead := scan2.1
  let fp := scan2.2.1
  let pre := scan2.2.2
  if dead ≠ [] ∨ fp ≠ [] ∨ dominated ≠ ∅ then
    let s1 := dead.foldl (fun st e => filter_local_users st e) s
    let s2 := if fp ≠ [] then filter_previous_users s1 fp else s1
    let s3 := if dominated ≠ ∅ then filter_current_users ctx s2 dominated else s2
    (pre, s3)
  else (pre, s)

/-- `MaterializedView::add_local_copy_user`. -/
def add_local_copy_user (s : State) (usage : RegionUsage) (copy_term : Event)
    (base_user : Bool) (child_color : ColorPoint) (vi : FieldVersions)
    (copy_mask : FieldMask) : Bool × State :=
  let vsn := if IS_READ_ONLY usage then some vi else none
  let user : PhysicalUser :=
    { usage := usage, child := child_color, versions := vsn, uid := s.next_uid }
  let s1 := add_current_user { s with next_uid := s.next_uid + 1 }
    user copy_term copy_mask
  let issue := base_user = true ∧ copy_term ∉ s.outstanding_gc_events
  (decide issue,
   { s1 with outstanding_gc_events := insert copy_term s1.outstanding_gc_events })

/-- `MaterializedView::add_copy_user` for a view at the top of its
hierarchy (no parent recursion). -/
def add_copy_user (s : State) (redop : Nat) (copy_term : Event)
    (vi : FieldVersions) (copy_mask : FieldMask) (reading : Bool) :
    Bool × State :=
  if copy_term ≠ 0 then
    let priv := if reading then Privilege.READ_ONLY
      else if 0 < redop then Privilege.REDUCE else Privilege.READ_WRITE
    let usage : RegionUsage :=
      { privilege := priv, coherence := Coherence.EXCLUSIVE, redop := redop }
    add_local_copy_user s usage copy_term true none vi copy_mask
  else (false, s)

/-- `MaterializedView::add_user` for a view at the top of its hierarchy:
seeds the wait set with the allocation manager's use event when it
exists, then runs the local analysis; the returned set is what
`merge_events` collapses into the returned event. -/
def add_user (ctx : ExternalCtx) (start_use_event : Event) (s : State)
    (usage : RegionUsage) (term_event : Event) (user_mask : FieldMask)
    (vi : FieldVersions) : Finset Event × Bool × State :=
  let wait0 : Finset Event :=
    if start_use_event ≠ 0 then {start_use_event} else ∅
  add_local_user ctx s usage term_event true none vi user_mask wait0

/-- `MaterializedView::find_copy_preconditions` for a view at the top of
its hierarchy: records the manager's use event over the whole copy mask,
then runs the local copy analysis. -/
def find_copy_preconditions (ctx : ExternalCtx) (start_use_event : Event)
    (s : State) (redop : Nat) (reading : Bool) (copy_mask : FieldMask)
    (vi : FieldVersions) (pre0 : List (Event × FieldMask)) :
    List (Event × FieldMask) × State :=
  let pre1 := if start_use_event ≠ 0 then addPre pre0 start_use_event copy_mask
    else pre0
  find_local_copy_preconditions ctx s redop reading copy_mask none vi pre1

/-! ### Remote update shipping (`send_view_updates` / `process_update`)

The wire form keeps the structure of the serialized bytes: a
deduplication table of user payloads, and per-event blocks that are
either a single `(index, mask)` pair or a negative count followed by
`|count| - 1` pairs. -/

/-- One per-event block of a materialized-view update. -/
inductive UpdateBlock where
  | single (index : Nat) (mask : FieldMask)
  | multi (count : Int) (entries : List (Nat × FieldMask))
deriving DecidableEq

/-- Wire form of a `MaterializedUpdate` message. -/
structure ViewUpdate where
  users : List (Nat × PhysicalUser)
  current : List (Event × UpdateBlock)
  previous : List (Event × UpdateBlock)
deriving DecidableEq

/-- One overlapping multi-map entry of a current-epoch bucket during
packing: count down, assign the next fresh table index, append the
index/restricted-mask pair. -/
def packCurStep (overlap : FieldMask)
    (st : List (PhysicalUser × Nat) × Int × List (Nat × FieldMask))
    (p : PhysicalUser × FieldMask) :
    List (PhysicalUser × Nat) × Int × List (Nat × FieldMask) :=
  let overlap2 := p.2 ∩ overlap
  if overlap2 = ∅ then st
  else
    let index := st.1.length
    (setA st.1 p.1 index, st.2.1 - 1, st.2.2 ++ [(index, overlap2)])

/-- One overlapping multi-map entry of a previous-epoch bucket during
packing: like the current case but the deduplication table is consulted
before a fresh index is assigned. -/
def packPrevStep (overlap : FieldMask)
    (st : List (PhysicalUser × Nat) × Int × List (Nat × FieldMask))
    (p : PhysicalUser × FieldMask) :
    List (PhysicalUser × Nat) × Int × List (Nat × FieldMask) :=
  let overlap2 := p.2 ∩ overlap
  if overlap2 = ∅ then st
  else
    match lookupA st.1 p.1 with
    | some i => (st.1, st.2.1 - 1, st.2.2 ++ [(i, overlap2)])
    | none =>
        let index := st.1.length
        (setA st.1 p.1 index, st.2.1 - 1, st.2.2 ++ [(index, overlap2)])

/-- Packing of one current-epoch bucket (overlap already nonempty): a
single user is indexed unconditionally (`needed_users[user] = size`);
a multi bucket counts down from -1 per overlapping user and collapses to
the single form when exactly one user overlapped (`count == -2`). -/
def packCurrentBucket (needed : List (PhysicalUser × Nat)) (eu : EventUsers)
    (overlap : FieldMask) : List (PhysicalUser × Nat) × UpdateBlock :=
  if eu.single then
    match eu.single_user with
    | some u =>
        let index := needed.length
        (setA needed u index, UpdateBlock.single index overlap)
    | none => (needed, UpdateBlock.single 0 ∅)
  else
    let r := eu.multi_users.foldl (packCurStep overlap) (needed, -1, [])
    if r.2.1 = -2 then
      match r.2.2.head? with
      | some q => (r.1, UpdateBlock.single q.1 q.2)
      | none => (r.1, UpdateBlock.multi r.2.1 r.2.2)
    else (r.1, UpdateBlock.multi r.2.1 r.2.2)

/-- Packing of one previous-epoch bucket: like the current case but the
deduplication table is consulted before assigning a fresh index. -/
def packPreviousBucket (needed : List (PhysicalUser × Nat)) (eu : EventUsers)
    (overlap : FieldMask) : List (PhysicalUser × Nat) × UpdateBlock :=
  if eu.single then
    match eu.single_user with
    | some u =>
        match lookupA needed u with
        | some i => (needed, UpdateBlock.single i overlap)
        | none =>
            let index := needed.length
            (setA needed u index, UpdateBlock.single index overlap)
    | none => (needed, UpdateBlock.single 0 ∅)
  else
    let r := eu.multi_users.foldl (packPrevStep overlap) (needed, -1, [])
    if r.2.1 = -2 then
      match r.2.2.head? with
      | some q => (r.1, UpdateBlock.single q.1 q.2)
      | none => (r.1, UpdateBlock.multi r.2.1 r.2.2)
    else (r.1, UpdateBlock.multi r.2.1 r.2.2)

/-- One current-epoch bucket of the sender's walk. -/
def sendCurStep (update_mask : FieldMask)
    (st : List (PhysicalUser × Nat) × List (Event × UpdateBlock))
    (ce : Event × EventUsers) :
    List (PhysicalUser × Nat) × List (Event × UpdateBlock) :=
  let overlap := ce.2.user_mask ∩ update_mask
  if overlap = ∅ then st
  else
    let r := packCurrentBucket st.1 ce.2 overlap
    (r.1, st.2 ++ [(ce.1, r.2)])

/-- One previous-epoch bucket of the sender's walk. -/
def sendPrevStep (update_mask : FieldMask)
    (st : List (PhysicalUser × Nat) × List (Event × UpdateBlock))
    (pe : Event × EventUsers) :
    List (PhysicalUser × Nat) × List (Event × UpdateBlock) :=
  let overlap := pe.2.user_mask ∩ update_mask
  if overlap = ∅ then st
  else
    let r := packPreviousBucket st.1 pe.2 overlap
    (r.1, st.2 ++ [(pe.1, r.2)])

/-- `MaterializedView::send_view_updates`: walk both epochs restricted
to the update mask, building the deduplication table and the blocks. -/
def send_view_updates (s : State) (update_mask : FieldMask) : ViewUpdate :=
  let c := s.current_epoch_users.foldl (sendCurStep update_mask) ([], [])
  let p := s.previous_epoch_users.foldl (sendPrevStep update_mask) (c.1, [])
  { users := p.1.map (fun q => (q.2, q.1)), current := c.2, previous := p.2 }

/-- Resolution of a wire index on the receiver: a freshly unpacked user
object (fresh uid) carrying the serialized payload. -/
def resolveUser (tbl : List (Nat × PhysicalUser)) (base : Nat) (i : Nat) :
    PhysicalUser :=
  match lookupA tbl i with
  | some u => { u with uid := base + i }
  | none => dummyUser (base + i)

/-- Receiver-side replay of one block through an epoch-table insertion
primitive: a non-negative leading index means one user; a negative count
`c` means `(-c) - 1` index/mask pairs.  The event is then added to
`outstanding_gc_events` (scheduling a GC defer when new). -/
def applyBlockWith (add : State → PhysicalUser → Event → FieldMask → State)
    (tbl : List (Nat × PhysicalUser)) (base : Nat) (s : State)
    (e : Event) (b : UpdateBlock) : State :=
  let s1 := match b with
    | UpdateBlock.single i m => add s (resolveUser tbl base i) e m
    | UpdateBlock.multi count ents =>
        let k := ((-count) - 1).toNat
        (ents.take k).foldl
          (fun st (p : Nat × FieldMask) => add st (resolveUser tbl base p.1) e p.2) s
  { s1 with outstanding_gc_events := insert e s1.outstanding_gc_events }

/-- `MaterializedView::process_update`. -/
def process_update (s : State) (upd : ViewUpdate) : State :=
  let base := s.next_uid
  let s0 := { s with next_uid := s.next_uid + upd.users.length }
  let s1 := upd.current.foldl
    (fun st p => applyBlockWith add_current_user upd.users base st p.1 p.2) s0
  upd.previous.foldl
    (fun st p => applyBlockWith add_previous_user upd.users base st p.1 p.2) s1

/-- Sanity of one block as the sender produces it: in-range indices, and
no index repeated within the block (each block entry came from a
distinct user allocation). -/
def BlockOk (n : Nat) : UpdateBlock → Prop
  | UpdateBlock.single i _ => i < n
  | UpdateBlock.multi c ents =>
      ((ents.take ((-c - 1).toNat)).map Prod.fst).Nodup ∧
      ∀ q ∈ ents.take ((-c - 1).toNat), q.1 < n

/-- Protocol sanity of a whole update. -/
def UpdateOk (upd : ViewUpdate) : Prop :=
  (∀ p ∈ upd.current, BlockOk upd.users.length p.2) ∧
  (∀ p ∈ upd.previous, BlockOk upd.users.length p.2) ∧
  (upd.current.map Prod.fst).Nodup ∧ (upd.previous.map Prod.fst).Nodup

/-- The per-bucket users and restricted masks that an update walk
visits. -/
def overlappingEntries (eu : EventUsers) (overlap : FieldMask) :
    List (PhysicalUser × FieldMask) :=
  if eu.single then
    match eu.single_user with
    | some u => [(u, overlap)]
    | none => []
  else
    eu.multi_users.filterMap fun p =>
      if p.2 ∩ overlap = ∅ then none else some (p.1, p.2 ∩ overlap)

/-- One current-epoch bucket of the local reference replay. -/
def localCurStep (update_mask : FieldMask) (st : State)
    (ce : Event × EventUsers) : State :=
  let overlap := ce.2.user_mask ∩ update_mask
  if overlap = ∅ then st
  else
    let st2 := (overlappingEntries ce.2 overlap).foldl
      (fun a p => add_current_user a p.1 ce.1 p.2) st
    { st2 with outstanding_gc_events := insert ce.1 st2.outstanding_gc_events }

/-- One previous-epoch bucket of the local reference replay. -/
def localPrevStep (update_mask : FieldMask) (st : State)
    (pe : Event × EventUsers) : State :=
  let overlap := pe.2.user_mask ∩ update_mask
  if overlap = ∅ then st
  else
    let st2 := (overlappingEntries pe.2 overlap).foldl
      (fun a p => add_previous_user a p.1 pe.1 p.2) st
    { st2 with outstanding_gc_events := insert pe.1 st2.outstanding_gc_events }

/-- The reference behavior the round-trip is compared against: apply
`add_current_user` / `add_previous_user` on a fresh view, with the same
users and masks (restricted to the update mask) that the update walk
visits, and the same gc bookkeeping. -/
def local_update_apply (s : State) (update_mask : FieldMask) : State :=
  let s1 := s.current_epoch_users.foldl (localCurStep update_mask) emptyMV
  s.previous_epoch_users.foldl (localPrevStep update_mask) s1

/-- The index/mask pairs a block instructs the receiver to replay: a
single block is one pair; a multi block is the `(-count) - 1` leading
pairs of its payload. -/
def decodeBlock : UpdateBlock → List (Nat × FieldMask)
  | UpdateBlock.single i m => [(i, m)]
  | UpdateBlock.multi c ents => ents.take ((-c - 1).toNat)

/-- Layout invariant of the sender's deduplication table: the entry at
position `k` carries index `k` (so indices are exactly `0..size-1` in
order, as produced by `index = needed_users.size()`). -/
def TableOk (needed : List (PhysicalUser × Nat)) : Prop :=
  needed.map Prod.snd = List.range needed.length

/-- One decoded wire entry matches one local user/mask pair through the
deduplication table. -/
def PairOk (T : List (PhysicalUser × Nat)) (q : Nat × FieldMask)
    (p : PhysicalUser × FieldMask) : Prop :=
  (p.1, q.1) ∈ T ∧ q.2 = p.2

/-- Rebuild a bucket by inserting a list of user/mask pairs in order
(the shared shape of both the receiver's replay and the local
reference). -/
def foldBucket (l : List (PhysicalUser × FieldMask)) : EventUsers :=
  l.foldl (fun b p => b.addUser p.1 p.2) emptyEU

end MaterializedView

namespace ReductionView

/-- The mutable state of one reduction view: the reducer and reader
tables, the outstanding-collection set, and the allocation counter. -/
structure State where
  reduction_users : List (Event × EventUsers)
  reading_users : List (Event × EventUsers)
  outstanding_gc_events : Finset Event
  next_uid : Nat
deriving DecidableEq

/-- A freshly constructed reduction view. -/
def emptyRV : State :=
  { reduction_users := [], reading_users := [],
    outstanding_gc_events := ∅, next_uid := 0 }

/-- `ReductionView::add_physical_user`: insert into the reader table or
the reducer table depending on the caller. -/
def add_physical_user (s : State) (user : PhysicalUser) (reading : Bool)
    (term_event : Event) (user_mask : FieldMask) : State :=
  if reading then
    let eu := (lookupA s.reading_users term_event).getD emptyEU
    let tbl := setA s.reading_users term_event (eu.addUser user user_mask)
    { s with reading_users := tbl }
  else
    let eu := (lookupA s.reduction_users term_event).getD emptyEU
    let tbl := setA s.reduction_users term_event (eu.addUser user user_mask)
    { s with reduction_users := tbl }

/-- `ReductionView::filter_local_users`. -/
def filter_local_users (s : State) (term_event : Event) : State :=
  if term_event ∈ s.outstanding_gc_events then
    { s with reduction_users := eraseA s.reduction_users term_event,
             reading_users := eraseA s.reading_users term_event,
             outstanding_gc_events := s.outstanding_gc_events.erase term_event }
  else s

/-- Per-user body of the `find_copy_preconditions` loops. -/
def rdInner (e : Event) (copy_mask : FieldMask)
    (pr : List (Event × FieldMask)) (p : PhysicalUser × FieldMask) :
    List (Event × FieldMask) :=
  let overlap := copy_mask ∩ p.2
  if overlap = ∅ then pr else addPre pr e overlap

/-- Per-bucket body of the `find_copy_preconditions` loops. -/
def rdStep (copy_mask : FieldMask) (pre : List (Event × FieldMask))
    (re : Event × EventUsers) : List (Event × FieldMask) :=
  if re.2.single then
    let overlap := copy_mask ∩ re.2.user_mask
    if overlap = ∅ then pre
    else addPre pre re.1 overlap
  else
    if ¬(copy_mask ∩ re.2.user_mask = ∅) then
      re.2.multi_users.foldl (rdInner re.1 copy_mask) pre
    else pre

/-- The per-table loop of `ReductionView::find_copy_preconditions`: the
source repeats this loop verbatim once for the reducer table and once
for the reader table, so it is factored here. -/
def record_dependences (table : List (Event × EventUsers))
    (copy_mask : FieldMask) (pre0 : List (Event × FieldMask)) :
    List (Event × FieldMask) :=
  table.foldl (rdStep copy_mask) pre0

/-- `ReductionView::find_copy_preconditions`: a reading caller depends
on the reducers, a reducing caller on the readers; the manager's use
event covers the whole mask.  The `redop` argument is carried but, as in
the source, never consulted. -/
def find_copy_preconditions (use_event : Event) (s : State) (redop : Nat)
    (reading : Bool) (copy_mask : FieldMask)
    (pre0 : List (Event × FieldMask)) : List (Event × FieldMask) :=
  let pre1 := if use_event ≠ 0 then addPre pre0 use_event copy_mask else pre0
  if reading then record_dependences s.reduction_users copy_mask pre1
  else record_dependences s.reading_users copy_mask pre1

/-- Per-bucket body of the `add_user` wait-set loops. -/
def cdStep (user_mask : FieldMask) (w : Finset Event)
    (re : Event × EventUsers) : Finset Event :=
  if re.2.single then
    if user_mask ∩ re.2.user_mask = ∅ then w else insert re.1 w
  else
    if ¬(user_mask ∩ re.2.user_mask = ∅) then
      if re.2.multi_users.any (fun p => ¬(user_mask ∩ p.2 = ∅)) then
        insert re.1 w
      else w
    else w

/-- The per-table wait-set loop of `ReductionView::add_user` (again
duplicated verbatim in the source for the two tables): insert the event
of every bucket with an overlapping user, stopping a multi-bucket scan
at the first overlap. -/
def collect_dependences (table : List (Event × EventUsers))
    (user_mask : FieldMask) (wait0 : Finset Event) : Finset Event :=
  table.foldl (cdStep user_mask) wait0

/-- `ReductionView::add_user`: a reducing caller waits on overlapping
readers, a reading caller on overlapping reducers; the new user is
installed in its own table; a newly tracked event asks for a GC defer.
The returned set is what `merge_events` collapses into the returned
event. -/
def add_user (use_event : Event) (s : State) (usage : RegionUsage)
    (term_event : Event) (user_mask : FieldMask) :
    Finset Event × Bool × State :=
  let reading := IS_READ_ONLY usage
  let wait0 : Finset Event := if use_event ≠ 0 then {use_event} else ∅
  let new_user : PhysicalUser :=
    { usage := usage, child := none, versions := none, uid := s.next_uid }
  let s0 := { s with next_uid := s.next_uid + 1 }
  let res : Finset Event × State :=
    if ¬reading then
      (collect_dependences s0.reading_users user_mask wait0,
       add_physical_user s0 new_user false term_event user_mask)
    else
      (collect_dependences s0.reduction_users user_mask wait0,
       add_physical_user s0 new_user true term_event user_mask)
  if term_event ∈ res.2.outstanding_gc_events then (res.1, false, res.2)
  else (res.1, true,
    { res.2 with outstanding_gc_events := insert term_event res.2.outstanding_gc_events })

/-- `ReductionView::add_copy_user`. -/
def add_copy_user (s : State) (redop : Nat) (copy_term : Event)
    (mask : FieldMask) (reading : Bool) : Bool × State :=
  if copy_term ≠ 0 then
    let usage : RegionUsage :=
      if reading then
        { privilege := Privilege.READ_ONLY, coherence := Coherence.EXCLUSIVE,
          redop := 0 }
      else
        { privilege := Privilege.REDUCE, coherence := Coherence.EXCLUSIVE,
          redop := redop }
    let user : PhysicalUser :=
      { usage := usage, child := none, versions := none, uid := s.next_uid }
    let s1 := add_physical_user { s with next_uid := s.next_uid + 1 }
      user reading copy_term mask
    if copy_term ∈ s.outstanding_gc_events then (false, s1)
    else (true,
      { s1 with outstanding_gc_events := insert copy_term s1.outstanding_gc_events })
  else (false, s)

/-- Wire form of a `ReductionUpdate`: the packed users of each table and
the per-event blocks (each block holds the per-user masks, and the
receiver consumes users from the packed list in order). -/
structure RVUpdate where
  red_users : List PhysicalUser
  read_users : List PhysicalUser
  red_blocks : List (Event × List FieldMask)
  read_blocks : List (Event × List FieldMask)
deriving DecidableEq

/-- Receiver-side resolution of the next packed user of a reduction
update: a freshly unpacked object (fresh uid) carrying the serialized
payload. -/
def rvUnpackUser (ulist : List PhysicalUser) (base k : Nat) : PhysicalUser :=
  match ulist.get? k with
  | some u0 => { u0 with uid := base + k }
  | none => dummyUser (base + k)

/-- One mask of one block of a reduction update: consume the next packed
user and install it. -/
def rvInnerStep (ulist : List PhysicalUser) (base : Nat) (reading : Bool)
    (e : Event) (st2 : State × Nat) (m : FieldMask) : State × Nat :=
  (add_physical_user st2.1 (rvUnpackUser ulist base st2.2) reading e m,
   st2.2 + 1)

/-- One block of a reduction update: replay each per-user mask, then
record the event in `outstanding_gc_events` (scheduling a GC defer when
new to the receiver). -/
def rvBlockStep (ulist : List PhysicalUser) (base : Nat) (reading : Bool)
    (st : State × Nat) (b : Event × List FieldMask) : State × Nat :=
  let inner := b.2.foldl (rvInnerStep ulist base reading b.1) st
  ({ inner.1 with
      outstanding_gc_events := insert b.1 inner.1.outstanding_gc_events },
   inner.2)

/-- `ReductionView::process_update`: unpack fresh user objects (fresh
uids on the receiver) and replay the per-event blocks through
`add_physical_user`. -/
def process_update (s : State) (upd : RVUpdate) : State :=
  let base := s.next_uid
  let s0 := { s with next_uid :=
    s.next_uid + upd.red_users.length + upd.read_users.length }
  let r1 := upd.red_blocks.foldl (rvBlockStep upd.red_users base false) (s0, 0)
  (upd.read_blocks.foldl
    (rvBlockStep upd.read_users (base + upd.red_users.length) true)
    (r1.1, 0)).1

/-- Protocol sanity of a reduction update: the blocks consume exactly
the packed users. -/
def RVUpdateOk (upd : RVUpdate) : Prop :=
  (upd.red_blocks.map (fun b => b.2.length)).sum = upd.red_users.length ∧
  (upd.read_blocks.map (fun b => b.2.length)).sum = upd.read_users.length

end ReductionView

namespace CompositeNode

/-- The reference-relevant shape of a composite node: the valid source
views with masks, the reduction views with masks, and the children.
Views are named by their ids; the reference counters are functions from
view id to a signed count so that unmatched removals are visible. -/
inductive Node where
  | mk (valid_views : List (Nat × FieldMask))
       (reduction_views : List (Nat × FieldMask))
       (children : List Node)

/-- Adjust one view's counter by a signed delta (one
`add_nested_*_ref` / `remove_nested_*_ref` call). -/
def bump (g : Nat → Int) (v : Nat) (d : Int) : Nat → Int :=
  fun x => if x = v then g x + d else g x

mutual

/-- `CompositeNode::notify_active` acting on the gc counters: one gc
reference per valid view, one per reduction view, then the children. -/
def notify_active : Node → (Nat → Int) → (Nat → Int)
  | Node.mk vs rvs cs, g =>
      let g1 := vs.foldl (fun acc p => bump acc p.1 1) g
      let g2 := rvs.foldl (fun acc p => bump acc p.1 1) g1
      notify_active_list cs g2

/-- Children traversal of `notify_active`. -/
def notify_active_list : List Node → (Nat → Int) → (Nat → Int)
  | [], g => g
  | c :: rest, g => notify_active_list rest (notify_active c g)

end

mutual

/-- `CompositeNode::notify_inactive` acting on the gc counters.  The
source iterates `valid_views.end() .. valid_views.end()` — an empty
range — so no gc reference is removed from the valid views; only the
reduction views are decremented, then the children are visited. -/
def notify_inactive : Node → (Nat → Int) → (Nat → Int)
  | Node.mk _vs rvs cs, g =>
      let g2 := rvs.foldl (fun acc p => bump acc p.1 (-1)) g
      notify_inactive_list cs g2

/-- Children traversal of `notify_inactive`. -/
def notify_inactive_list : List Node → (Nat → Int) → (Nat → Int)
  | [], g => g
  | c :: rest, g => notify_inactive_list rest (notify_inactive c g)

end

mutual

/-- `CompositeNode::notify_valid` acting on the valid counters. -/
def notify_valid : Node → (Nat → Int) → (Nat → Int)
  | Node.mk vs rvs cs, g =>
      let g1 := vs.foldl (fun acc p => bump acc p.1 1) g
      let g2 := rvs.foldl (fun acc p => bump acc p.1 1) g1
      notify_valid_list cs g2

/-- Children traversal of `notify_valid`. -/
def notify_valid_list : List Node → (Nat → Int) → (Nat → Int)
  | [], g => g
  | c :: rest, g => notify_valid_list rest (notify_valid c g)

end

mutual

/-- `CompositeNode::notify_invalid` acting on the valid counters.  The
source iterates `valid_views.end() .. valid_views.end()` (an empty
range) over the valid views, and on the reduction views it calls
`add_nested_valid_ref` — an addition, not a removal. -/
def notify_invalid : Node → (Nat → Int) → (Nat → Int)
  | Node.mk _vs rvs cs, g =>
      let g2 := rvs.foldl (fun acc p => bump acc p.1 1) g
      notify_invalid_list cs g2

/-- Children traversal of `notify_invalid`. -/
def notify_invalid_list : List Node → (Nat → Int) → (Nat → Int)
  | [], g => g
  | c :: rest, g => notify_invalid_list rest (notify_invalid c g)

end

end CompositeNode

/-! ### Observations, well-formedness and reachability -/

/-- The mask a bucket records for one user. -/
def EventUsers.entryMask (eu : EventUsers) (u : PhysicalUser) :
    Option FieldMask :=
  lookupA eu.entries u

/-- A bucket's contents up to equivalence of user records (allocation
identity erased): what the wire preserves. -/
def EventUsers.recordEntries (eu : EventUsers) :
    List ((RegionUsage × ColorPoint × Option FieldVersions) × FieldMask) :=
  eu.entries.map fun p => (p.1.record, p.2)

/-- Record-level contents of an optional bucket. -/
def optRecordEntries : Option EventUsers →
    List ((RegionUsage × ColorPoint × Option FieldVersions) × FieldMask)
  | none => []
  | some eu => eu.recordEntries

namespace MaterializedView

/-- View-level well-formedness of a materialized view: every bucket of
both epoch tables is well-formed with all uids below the allocation
counter, and the table keys are unique. -/
def StateWf (s : State) : Prop :=
  (∀ p ∈ s.current_epoch_users, p.2.wf ∧ p.2.uidsBelow s.next_uid) ∧
  (∀ p ∈ s.previous_epoch_users, p.2.wf ∧ p.2.uidsBelow s.next_uid) ∧
  (s.current_epoch_users.map Prod.fst).Nodup ∧
  (s.previous_epoch_users.map Prod.fst).Nodup

/-- States of a materialized view reachable from a fresh view by the
operations of the engine: task registration at the base of a hierarchy
or from a descendant's recursion (`add_user` / `add_local_user`), copy
registration (`add_copy_user` / `add_local_copy_user`), copy queries
(whose epoch-advance side effects mutate the state), GC firing
(`filter_local_users`, as run by `collect_users`), and remote updates
produced by the wire protocol. -/
inductive Reachable : State → Prop where
  | init : Reachable emptyMV
  | addUser (ctx : ExternalCtx) (use : Event) (usage : RegionUsage)
      (term : Event) (mask : FieldMask) (vi : FieldVersions) {s : State} :
      Reachable s → Reachable (add_user ctx use s usage term mask vi).2.2
  | addUserAbove (ctx : ExternalCtx) (usage : RegionUsage) (term : Event)
      (child : ColorPoint) (vi : FieldVersions) (mask : FieldMask)
      (pre0 : Finset Event) {s : State} :
      Reachable s →
      Reachable (add_local_user ctx s usage term false child vi mask pre0).2.2
  | addCopyUser (redop : Nat) (term : Event) (vi : FieldVersions)
      (mask : FieldMask) (reading : Bool) {s : State} :
      Reachable s → Reachable (add_copy_user s redop term vi mask reading).2
  | addCopyUserAbove (usage : RegionUsage) (term : Event)
      (child : ColorPoint) (vi : FieldVersions) (mask : FieldMask) {s : State} :
      Reachable s →
      Reachable (add_local_copy_user s usage term false child vi mask).2
  | findCopy (ctx : ExternalCtx) (redop : Nat) (reading : Bool)
      (mask : FieldMask) (child : ColorPoint) (vi : FieldVersions)
      (pre0 : List (Event × FieldMask)) {s : State} :
      Reachable s →
      Reachable (find_local_copy_preconditions ctx s redop reading mask child vi pre0).2
  | gcFire (e : Event) {s : State} :
      Reachable s → Reachable (filter_local_users s e)
  | remoteUpdate (upd : ViewUpdate) (hok : UpdateOk upd) {s : State} :
      Reachable s → Reachable (process_update s upd)

end MaterializedView

namespace ReductionView

/-- View-level well-formedness of a reduction view. -/
def StateWf (s : State) : Prop :=
  (∀ p ∈ s.reduction_users, p.2.wf ∧ p.2.uidsBelow s.next_uid) ∧
  (∀ p ∈ s.reading_users, p.2.wf ∧ p.2.uidsBelow s.next_uid) ∧
  (s.reduction_users.map Prod.fst).Nodup ∧
  (s.reading_users.map Prod.fst).Nodup

/-- States of a reduction view reachable from a fresh view.
`find_copy_preconditions` holds the lock only for reading and performs
no mutation, so it does not appear as a step. -/
inductive Reachable : State → Prop where
  | init : Reachable emptyRV
  | addUser (use : Event) (usage : RegionUsage) (term : Event)
      (mask : FieldMask) {s : State} :
      Reachable s → Reachable (add_user use s usage term mask).2.2
  | addCopyUser (redop : Nat) (term : Event) (mask : FieldMask)
      (reading : Bool) {s : State} :
      Reachable s → Reachable (add_copy_user s redop term mask reading).2
  | gcFire (e : Event) {s : State} :
      Reachable s → Reachable (filter_local_users s e)
  | remoteUpdate (upd : RVUpdate) (hok : RVUpdateOk upd) {s : State} :
      Reachable s → Reachable (process_update s upd)

end ReductionView

/-! ### Concrete fixtures used by the witnesses -/

/-- A trivial external context: no disjoint children, every pair of
usages in true dependence, no event triggered. -/
def trivialCtx : ExternalCtx :=
  { are_children_disjoint := fun _ _ => false,
    check_dependence_type := fun _ _ => DependenceType.TRUE_DEPENDENCE,
    has_triggered := fun _ => false }

/-- Read-write exclusive usage. -/
def rwExcl : RegionUsage :=
  { privilege := Privilege.READ_WRITE, coherence := Coherence.EXCLUSIVE,
    redop := 0 }

/-- Read-only exclusive usage. -/
def roExcl : RegionUsage :=
  { privilege := Privilege.READ_ONLY, coherence := Coherence.EXCLUSIVE,
    redop := 0 }

/-- Reduction usage with the given op. -/
def reduceUsage (r : Nat) : RegionUsage :=
  { privilege := Privilege.REDUCE, coherence := Coherence.EXCLUSIVE,
    redop := r }

/-- A single-user bucket. -/
def singleBucket (u : PhysicalUser) (m : FieldMask) : EventUsers :=
  { single := true, single_user := some u, multi_users := [], user_mask := m }

/-- A reduction view with one reducer (event 1) and one reader (event 2)
on field 0, used by witnesses. -/
def rvFixture : ReductionView.State :=
  { reduction_users := [(1, singleBucket
      { usage := reduceUsage 7, child := none, versions := none, uid := 0 } {0})],
    reading_users := [(2, singleBucket
      { usage := roExcl, child := none, versions := none, uid := 1 } {0})],
    outstanding_gc_events := {1, 2}, next_uid := 2 }

/-- A materialized view exercising the update wire format: one
single-user current bucket, and one two-user previous bucket sharing a
user with the current epoch (so the previous pass hits the
deduplication table). -/
def c7s : MaterializedView.State :=
  { current_epoch_users := [(3, singleBucket
      { usage := rwExcl, child := none, versions := none, uid := 0 } {0, 1})],
    previous_epoch_users := [(4,
      { single := false, single_user := none,
        multi_users :=
          [({ usage := rwExcl, child := none, versions := none, uid := 0 }, {0}),
           ({ usage := roExcl, child := none, versions := none, uid := 1 }, {0, 2})],
        user_mask := {0, 2} })],
    outstanding_gc_events := ∅, next_uid := 2 }

/-! ### Map and mask lemmas -/

section AssocLemmas

variable {α β : Type} [DecidableEq α]

theorem lookupA_isSome_of_mem (l : List (α × β)) (a : α)
    (h : a ∈ l.map Prod.fst) : (lookupA l a).isSome := by
  induction l with
  | nil => simp at h
  | cons hd tl ih =>
      obtain ⟨k, v⟩ := hd
      by_cases hk : k = a
      · simp [lookupA, hk]
      · simp only [List.map_cons, List.mem_cons] at h
        rcases h with h | h
        · exact absurd h.symm hk
        · simp [lookupA, hk, ih h]

theorem lookupA_none_iff (l : List (α × β)) (a : α) :
    lookupA l a = none ↔ a ∉ l.map Prod.fst := by
  constructor
  · intro h hmem
    have := lookupA_isSome_of_mem l a hmem
    rw [h] at this
    simp at this
  · exact lookupA_not_mem_keys l a

theorem setA_keys_present (l : List (α × β)) (a : α) (b : β)
    (h : a ∈ l.map Prod.fst) :
    (setA l a b).map Prod.fst = l.map Prod.fst := by
  induction l with
  | nil => simp at h
  | cons hd tl ih =>
      obtain ⟨k, v⟩ := hd
      by_cases hk : k = a
      · simp [setA, hk]
      · simp only [List.map_cons, List.mem_cons] at h
        rcases h with h | h
        · exact absurd h.symm hk
        · simp [setA, hk, ih h]

theorem setA_keys_absent (l : List (α × β)) (a : α) (b : β)
    (h : a ∉ l.map Prod.fst) :
    setA l a b = l ++ [(a, b)] := by
  induction l with
  | nil => rfl
  | cons hd tl ih =>
      obtain ⟨k, v⟩ := hd
      simp only [List.map_cons, List.mem_cons, not_or] at h
      simp [setA, Ne.symm h.1, ih h.2]

theorem mem_of_mem_eraseA (l : List (α × β)) (a : α) (p : α × β)
    (h : p ∈ eraseA l a) : p ∈ l := by
  induction l with
  | nil => simpa [eraseA] using h
  | cons hd tl ih =>
      obtain ⟨k, v⟩ := hd
      by_cases hk : k = a
      · simp only [eraseA, if_pos hk] at h
        exact List.mem_cons_of_mem _ h
      · simp only [eraseA, if_neg hk, List.mem_cons] at h
        rcases h with h | h
        · exact h ▸ List.mem_cons_self _ _
        · exact List.mem_cons_of_mem _ (ih h)

theorem eraseA_keys_sublist (l : List (α × β)) (a : α) :
    (eraseA l a).map Prod.fst |>.Sublist (l.map Prod.fst) := by
  induction l with
  | nil => simp [eraseA]
  | cons hd tl ih =>
      obtain ⟨k, v⟩ := hd
      by_cases hk : k = a
      · simp only [eraseA, if_pos hk, List.map_cons]
        exact (List.sublist_cons_self _ _).trans (List.Sublist.refl _)
      · simp only [eraseA, if_neg hk, List.map_cons]
        exact ih.cons₂ k

theorem eraseA_keys_nodup (l : List (α × β)) (a : α)
    (h : (l.map Prod.fst).Nodup) : ((eraseA l a).map Prod.fst).Nodup :=
  (eraseA_keys_sublist l a).nodup h

end AssocLemmas

section MaskLemmas

theorem sumMasks_setA_absent (l : List (PhysicalUser × FieldMask))
    (u : PhysicalUser) (m : FieldMask) (h : lookupA l u = none) :
    sumMasks (setA l u m) = sumMasks l ∪ m := by
  rw [setA_keys_absent l u m ((lookupA_none_iff l u).mp h), sumMasks_append]
  simp

theorem sumMasks_setA_present (l : List (PhysicalUser × FieldMask))
    (u : PhysicalUser) (pm m : FieldMask) (h : lookupA l u = some pm) :
    sumMasks (setA l u (pm ∪ m)) = sumMasks l ∪ m := by
  induction l with
  | nil => simp at h
  | cons hd tl ih =>
      obtain ⟨k, v⟩ := hd
      by_cases hk : k = u
      · subst hk
        rw [lookupA_cons, if_pos rfl] at h
        injection h with h
        subst h
        simp [setA, Finset.union_assoc, Finset.union_left_comm, Finset.union_comm]
      · simp only [lookupA_cons, if_neg hk] at h
        simp [setA, hk, ih h, Finset.union_assoc]

theorem mergeUserInto_sum (l : List (PhysicalUser × FieldMask))
    (u : PhysicalUser) (m : FieldMask) :
    sumMasks (mergeUserInto l u m) = sumMasks l ∪ m := by
  unfold mergeUserInto
  cases h : lookupA l u with
  | none => exact sumMasks_setA_absent l u m h
  | some pm => exact sumMasks_setA_present l u pm m h

theorem mergeUserInto_keys_nodup (l : List (PhysicalUser × FieldMask))
    (u : PhysicalUser) (m : FieldMask) (h : (l.map Prod.fst).Nodup) :
    ((mergeUserInto l u m).map Prod.fst).Nodup := by
  unfold mergeUserInto
  cases hl : lookupA l u with
  | none =>
      rw [setA_keys_absent l u m ((lookupA_none_iff l u).mp hl)]
      rw [List.map_append]
      refine List.Nodup.append h (by simp) ?_
      intro x hx
      simp only [List.map_cons, List.map_nil, List.mem_singleton]
      intro hxe
      exact ((lookupA_none_iff l u).mp hl) (hxe ▸ hx)
  | some pm =>
      have hmem : u ∈ l.map Prod.fst := by
        by_contra hc
        rw [(lookupA_none_iff l u).mpr hc] at hl
        exact Option.noConfusion hl
      rw [setA_keys_present l u _ hmem]
      exact h

theorem mergeUserInto_keys_subset (l : List (PhysicalUser × FieldMask))
    (u : PhysicalUser) (m : FieldMask) :
    ∀ x ∈ (mergeUserInto l u m).map Prod.fst, x ∈ l.map Prod.fst ∨ x = u := by
  intro x hx
  unfold mergeUserInto at hx
  cases hl : lookupA l u with
  | none =>
      rw [hl] at hx
      rw [setA_keys_absent l u m ((lookupA_none_iff l u).mp hl)] at hx
      rw [List.map_append] at hx
      rcases List.mem_append.mp hx with h | h
      · exact Or.inl h
      · simp only [List.map_cons, List.map_nil, List.mem_singleton] at h
        exact Or.inr h
  | some pm =>
      rw [hl] at hx
      have hmem : u ∈ l.map Prod.fst := by
        by_contra hc
        rw [(lookupA_none_iff l u).mpr hc] at hl
        exact Option.noConfusion hl
      rw [setA_keys_present l u _ hmem] at hx
      exact Or.inl hx

theorem foldl_mergeUserInto_sum (L : List (PhysicalUser × FieldMask))
    (acc : List (PhysicalUser × FieldMask)) :
    sumMasks (L.foldl (fun a p => mergeUserInto a p.1 p.2) acc) =
      sumMasks acc ∪ sumMasks L := by
  induction L generalizing acc with
  | nil => simp
  | cons hd tl ih =>
      simp only [List.foldl_cons, sumMasks_cons]
      rw [ih, mergeUserInto_sum, Finset.union_assoc]

theorem foldl_mergeUserInto_keys_nodup (L : List (PhysicalUser × FieldMask))
    (acc : List (PhysicalUser × FieldMask)) (h : (acc.map Prod.fst).Nodup) :
    ((L.foldl (fun a p => mergeUserInto a p.1 p.2) acc).map Prod.fst).Nodup := by
  induction L generalizing acc with
  | nil => simpa using h
  | cons hd tl ih =>
      simp only [List.foldl_cons]
      exact ih _ (mergeUserInto_keys_nodup _ _ _ h)

theorem claim1_helper_gate (ctx : ExternalCtx) (e : Event)
    (pu : PhysicalUser) (pm : FieldMask) (usage : RegionUsage)
    (nm : FieldMask) (child : ColorPoint) (acc : MaterializedView.TaskAcc)
    (pre : Finset Event) (hoverlap : ¬pm ∩ nm = ∅)
    (hcut : ∀ cc, child = some cc → pu.child ≠ some cc ∧
       ∀ pc, pu.child = some pc → ctx.are_children_disjoint cc pc = false) :
    (MaterializedView.find_current_preconditions ctx e pu pm usage nm child acc).2.preconditions =
      (match ctx.check_dependence_type pu.usage usage with
       | DependenceType.TRUE_DEPENDENCE => insert e acc.preconditions
       | DependenceType.ANTI_DEPENDENCE => insert e acc.preconditions
       | _ => acc.preconditions) ∧
    (MaterializedView.find_previous_preconditions ctx e pu pm usage nm child pre).2 =
      (match ctx.check_dependence_type pu.usage usage with
       | DependenceType.TRUE_DEPENDENCE => insert e pre
       | DependenceType.ANTI_DEPENDENCE => insert e pre
       | _ => pre) := by
  rcases child with _ | cc
  · cases hdt : ctx.check_dependence_type pu.usage usage <;>
      simp [MaterializedView.find_current_preconditions,
        MaterializedView.find_previous_preconditions, hoverlap, hdt]
  · obtain ⟨h1, h2⟩ := hcut cc rfl
    rcases hpc : pu.child with _ | pc
    · cases hdt : ctx.check_dependence_type pu.usage usage <;>
        simp [MaterializedView.find_current_preconditions,
          MaterializedView.find_previous_preconditions, hoverlap, hdt, hpc]
    · have hne2 : pc ≠ cc := by
        intro hh
        exact h1 (by rw [hpc, hh])
      have hd := h2 pc hpc
      cases hdt : ctx.check_dependence_type pu.usage usage <;>
        simp [MaterializedView.find_current_preconditions,
          MaterializedView.find_previous_preconditions, hoverlap, hdt, hpc,
          hne2, hd]

theorem foldl_mergeUserInto_keys_subset (L : List (PhysicalUser × FieldMask))
    (acc : List (PhysicalUser × FieldMask)) :
    ∀ x ∈ ((L.foldl (fun a p => mergeUserInto a p.1 p.2) acc).map Prod.fst),
      x ∈ acc.map Prod.fst ∨ x ∈ L.map Prod.fst := by
  induction L generalizing acc with
  | nil => intro x hx; exact Or.inl (by simpa using hx)
  | cons hd tl ih =>
      intro x hx
      simp only [List.foldl_cons] at hx
      rcases ih _ x hx with h | h
      · rcases mergeUserInto_keys_subset acc hd.1 hd.2 x h with h2 | h2
        · exact Or.inl h2
        · exact Or.inr (by simp [h2])
      · exact Or.inr (by simp [h])

end MaskLemmas

theorem addPre_absent_ne (pre : List (Event × FieldMask)) (e : Event)
    (m : FieldMask) (h : lookupA pre e = none) : addPre pre e m ≠ pre := by
  unfold addPre
  rw [h, setA_keys_absent pre e m ((lookupA_none_iff pre e).mp h)]
  intro hc
  have := congrArg List.length hc
  simp at this

theorem claim5_helper (ctx : ExternalCtx) (e : Event) (u : PhysicalUser)
    (um : FieldMask) (redop : Nat) (reading : Bool) (cm : FieldMask)
    (child : ColorPoint) (versions : Option FieldVersions)
    (acc : MaterializedView.CopyAcc) (pre : List (Event × FieldMask))
    (hoverlap : ¬cm ∩ um = ∅)
    (hcut : ∀ cc, child = some cc → u.child ≠ some cc ∧
       ∀ pc, u.child = some pc → ctx.are_children_disjoint cc pc = false)
    (hread : ¬(reading = true ∧ IS_READ_ONLY u.usage = true))
    (hred : ¬(0 < redop ∧ u.usage.redop = redop)) :
    ((∃ vs, versions = some vs ∧ reading = false ∧ redop = 0 ∧
        IS_REDUCE u.usage = false ∧
        same_versions u.versions (cm ∩ um) vs = true) →
      (MaterializedView.find_current_copy_preconditions ctx e u um redop
          reading cm child versions acc).preconditions = acc.preconditions ∧
      MaterializedView.find_previous_copy_preconditions ctx e u um redop
          reading cm child versions pre = pre) ∧
    ((¬∃ vs, versions = some vs ∧ reading = false ∧ redop = 0 ∧
        IS_REDUCE u.usage = false ∧
        same_versions u.versions (cm ∩ um) vs = true) →
      (MaterializedView.find_current_copy_preconditions ctx e u um redop
          reading cm child versions acc).preconditions =
        addPre acc.preconditions e (cm ∩ um) ∧
      MaterializedView.find_previous_copy_preconditions ctx e u um redop
          reading cm child versions pre = addPre pre e (um ∩ cm)) := by
  have hswap : um ∩ cm = cm ∩ um := Finset.inter_comm um cm
  have hoverlap2 : ¬um ∩ cm = ∅ := by rw [hswap]; exact hoverlap
  have hchild : ∀ r : MaterializedView.CopyAcc → Prop, True := fun _ => trivial
  constructor
  · rintro ⟨vs, hvs, hr, hrd, hnr, hsv⟩
    subst hvs hr hrd
    have hsv2 : same_versions u.versions (um ∩ cm) vs = true := by
      rw [hswap]; exact hsv
    have hnr2 : ¬IS_REDUCE u.usage = true := by simp [hnr]
    rcases child with _ | cc
    · constructor <;>
        simp [MaterializedView.find_current_copy_preconditions,
          MaterializedView.find_previous_copy_preconditions, hoverlap,
          hoverlap2, hsv, hsv2, hnr2]
    · obtain ⟨h1, h2⟩ := hcut cc rfl
      rcases hpc : u.child with _ | pc
      · constructor <;>
          simp [MaterializedView.find_current_copy_preconditions,
            MaterializedView.find_previous_copy_preconditions, hoverlap,
            hoverlap2, hsv, hsv2, hnr2, hpc]
      · have hne2 : pc ≠ cc := by
          intro hh
          exact h1 (by rw [hpc, hh])
        have hd := h2 pc hpc
        constructor <;>
          simp [MaterializedView.find_current_copy_preconditions,
            MaterializedView.find_previous_copy_preconditions, hoverlap,
            hoverlap2, hsv, hsv2, hnr2, hpc, hne2, hd]
  · intro hnv
    have hcond : ∀ vs, versions = some vs →
        ¬(reading = false ∧ redop = 0 ∧ IS_REDUCE u.usage = false ∧
          same_versions u.versions (cm ∩ um) vs = true) := by
      intro vs hvs hh
      exact hnv ⟨vs, hvs, hh.1, hh.2.1, hh.2.2.1, hh.2.2.2⟩
    have hcond2 : ∀ vs, versions = some vs →
        ¬(reading = false ∧ redop = 0 ∧ IS_REDUCE u.usage = false ∧
          same_versions u.versions (um ∩ cm) vs = true) := by
      intro vs hvs hh
      exact hcond vs hvs ⟨hh.1, hh.2.1, hh.2.2.1, by rw [← hswap]; exact hh.2.2.2⟩
    rcases child with _ | cc
    · cases hv : versions with
      | none =>
          constructor <;>
            simp [MaterializedView.find_current_copy_preconditions,
              MaterializedView.find_previous_copy_preconditions, hoverlap,
              hoverlap2, hread, hred, hv]
      | some vs =>
          constructor <;>
            simp [MaterializedView.find_current_copy_preconditions,
              MaterializedView.find_previous_copy_preconditions, hoverlap,
              hoverlap2, hread, hred, hv, hcond vs hv, hcond2 vs hv]
    · obtain ⟨h1, h2⟩ := hcut cc rfl
      have hstep : ∀ (P : Prop), True := fun _ => trivial
      rcases hpc : u.child with _ | pc
      · cases hv : versions with
        | none =>
            constructor <;>
              simp [MaterializedView.find_current_copy_preconditions,
                MaterializedView.find_previous_copy_preconditions, hoverlap,
                hoverlap2, hread, hred, hv, hpc]
        | some vs =>
            constructor <;>
              simp [MaterializedView.find_current_copy_preconditions,
                MaterializedView.find_previous_copy_preconditions, hoverlap,
                hoverlap2, hread, hred, hv, hpc, hcond vs hv, hcond2 vs hv]
      · have hne2 : pc ≠ cc := by
          intro hh
          exact h1 (by rw [hpc, hh])
        have hd := h2 pc hpc
        cases hv : versions with
        | none =>
            constructor <;>
              simp [MaterializedView.find_current_copy_preconditions,
                MaterializedView.find_previous_copy_preconditions, hoverlap,
                hoverlap2, hread, hred, hv, hpc, hne2, hd]
        | some vs =>
            constructor <;>
              simp [MaterializedView.find_current_copy_preconditions,
                MaterializedView.find_previous_copy_preconditions, hoverlap,
                hoverlap2, hread, hred, hv, hpc, hne2, hd, hcond vs hv,
                hcond2 vs hv]

theorem lookupA_addPre_self (pre : List (Event × FieldMask)) (e : Event)
    (m : FieldMask) :
    lookupA (addPre pre e m) e = some ((lookupA pre e).getD ∅ ∪ m) := by
  unfold addPre
  cases h : lookupA pre e with
  | none => rw [lookupA_setA_self]; simp
  | some pm => rw [lookupA_setA_self]; simp

theorem lookupA_addPre_ne (pre : List (Event × FieldMask)) (e x : Event)
    (m : FieldMask) (h : x ≠ e) :
    lookupA (addPre pre e m) x = lookupA pre x := by
  unfold addPre
  cases hl : lookupA pre e <;> exact lookupA_setA_ne pre e x _ h

theorem rdInner_foldl (e : Event) (m : FieldMask)
    (users : List (PhysicalUser × FieldMask)) :
    ∀ pre : List (Event × FieldMask),
      (m ∩ sumMasks users = ∅ →
        users.foldl (ReductionView.rdInner e m) pre = pre) ∧
      (¬(m ∩ sumMasks users = ∅) →
        lookupA (users.foldl (ReductionView.rdInner e m) pre) e =
          some ((lookupA pre e).getD ∅ ∪ m ∩ sumMasks users)) ∧
      (∀ x, x ≠ e →
        lookupA (users.foldl (ReductionView.rdInner e m) pre) x =
          lookupA pre x) := by
  induction users with
  | nil =>
      intro pre
      exact ⟨fun _ => rfl, fun h => absurd (by simp) h, fun x hx => rfl⟩
  | cons hd tl ih =>
      intro pre
      have hdist : m ∩ sumMasks (hd :: tl) = (m ∩ hd.2) ∪ (m ∩ sumMasks tl) := by
        rw [sumMasks_cons, Finset.inter_union_distrib_left]
      by_cases h0 : m ∩ hd.2 = ∅
      · have hstep : ReductionView.rdInner e m pre hd = pre := by
          simp [ReductionView.rdInner, h0]
        have hf : (hd :: tl).foldl (ReductionView.rdInner e m) pre =
            tl.foldl (ReductionView.rdInner e m) pre := by
          rw [List.foldl_cons, hstep]
        refine ⟨?_, ?_, ?_⟩
        · intro h
          rw [hf]
          exact (ih pre).1 (by
            rw [hdist, h0, Finset.empty_union] at h
            exact h)
        · intro h
          rw [hf, hdist, h0, Finset.empty_union]
          exact (ih pre).2.1 (by
            rw [hdist, h0, Finset.empty_union] at h
            exact h)
        · intro x hx
          rw [hf]
          exact (ih pre).2.2 x hx
      · have hstep : ReductionView.rdInner e m pre hd = addPre pre e (m ∩ hd.2) := by
          simp [ReductionView.rdInner, h0]
        have hf : (hd :: tl).foldl (ReductionView.rdInner e m) pre =
            tl.foldl (ReductionView.rdInner e m) (addPre pre e (m ∩ hd.2)) := by
          rw [List.foldl_cons, hstep]
        have hne : ¬m ∩ sumMasks (hd :: tl) = ∅ := by
          rw [hdist]
          intro hc
          exact h0 ((Finset.union_eq_empty.mp hc).1)
        refine ⟨fun h => absurd h hne, ?_, ?_⟩
        · intro _
          rw [hf]
          by_cases h1 : m ∩ sumMasks tl = ∅
          · rw [(ih _).1 h1, lookupA_addPre_self, hdist, h1, Finset.union_empty]
          · rw [(ih _).2.1 h1, lookupA_addPre_self, hdist]
            simp [Finset.union_assoc]
        · intro x hx
          rw [hf, (ih _).2.2 x hx, lookupA_addPre_ne pre e x _ hx]

theorem rdStep_lookup (m : FieldMask) (pre : List (Event × FieldMask))
    (e : Event) (eu : EventUsers) (hwf : eu.wf) :
    (m ∩ eu.user_mask = ∅ → ReductionView.rdStep m pre (e, eu) = pre) ∧
    (¬(m ∩ eu.user_mask = ∅) →
      lookupA (ReductionView.rdStep m pre (e, eu)) e =
        some ((lookupA pre e).getD ∅ ∪ m ∩ eu.user_mask)) ∧
    (∀ x, x ≠ e →
      lookupA (ReductionView.rdStep m pre (e, eu)) x = lookupA pre x) := by
  by_cases hs : eu.single = true
  · refine ⟨?_, ?_, ?_⟩
    · intro h
      simp [ReductionView.rdStep, hs, h]
    · intro h
      have heq : ReductionView.rdStep m pre (e, eu) =
          addPre pre e (m ∩ eu.user_mask) := by
        simp [ReductionView.rdStep, hs, h]
      rw [heq]
      exact lookupA_addPre_self pre e _
    · intro x hx
      by_cases h : m ∩ eu.user_mask = ∅
      · simp [ReductionView.rdStep, hs, h]
      · have heq : ReductionView.rdStep m pre (e, eu) =
            addPre pre e (m ∩ eu.user_mask) := by
          simp [ReductionView.rdStep, hs, h]
        rw [heq]
        exact lookupA_addPre_ne pre e x _ hx
  · have hs2 : eu.single = false := by simpa using hs
    have hsum : eu.user_mask = sumMasks eu.multi_users := by
      have h1 := hwf.1
      rw [EventUsers.maskWf] at h1
      rwa [EventUsers.entries, if_neg (by simp [hs2])] at h1
    refine ⟨?_, ?_, ?_⟩
    · intro h
      simp [ReductionView.rdStep, hs2, h]
    · intro h
      have heq : ReductionView.rdStep m pre (e, eu) =
          eu.multi_users.foldl (ReductionView.rdInner e m) pre := by
        simp [ReductionView.rdStep, hs2, h]
      rw [heq, (rdInner_foldl e m eu.multi_users pre).2.1
        (by rw [← hsum]; exact h), ← hsum]
    · intro x hx
      by_cases h : m ∩ eu.user_mask = ∅
      · simp [ReductionView.rdStep, hs2, h]
      · have heq : ReductionView.rdStep m pre (e, eu) =
            eu.multi_users.foldl (ReductionView.rdInner e m) pre := by
          simp [ReductionView.rdStep, hs2, h]
        rw [heq]
        exact (rdInner_foldl e m eu.multi_users pre).2.2 x hx

theorem record_dependences_lookup (m : FieldMask)
    (table : List (Event × EventUsers)) :
    (∀ p ∈ table, p.2.wf) → (table.map Prod.fst).Nodup →
    ∀ (pre0 : List (Event × FieldMask)) (x : Event),
      lookupA (ReductionView.record_dependences table m pre0) x =
        (lookupA table x).elim (lookupA pre0 x) (fun eu =>
          if m ∩ eu.user_mask = ∅ then lookupA pre0 x
          else some ((lookupA pre0 x).getD ∅ ∪ m ∩ eu.user_mask)) := by
  induction table with
  | nil =>
      intro _ _ pre0 x
      rfl
  | cons hd tl ih =>
      intro hwf hnd pre0 x
      obtain ⟨e, eu⟩ := hd
      have hwfe : eu.wf := hwf (e, eu) (by simp)
      have hwft : ∀ p ∈ tl, p.2.wf := fun p hp => hwf p (List.mem_cons_of_mem _ hp)
      simp only [List.map_cons, List.nodup_cons] at hnd
      have hrec : ReductionView.record_dependences ((e, eu) :: tl) m pre0 =
          ReductionView.record_dependences tl m
            (ReductionView.rdStep m pre0 (e, eu)) := rfl
      rw [hrec, ih hwft hnd.2 _ x]
      by_cases hx : x = e
      · subst hx
        have htl : lookupA tl x = none := lookupA_not_mem_keys tl x hnd.1
        rw [htl]
        simp only [Option.elim_none, lookupA_cons, eq_self_iff_true, if_true,
          Option.elim_some]
        by_cases hov : m ∩ eu.user_mask = ∅
        · rw [(rdStep_lookup m pre0 x eu hwfe).1 hov, if_pos hov]
        · rw [(rdStep_lookup m pre0 x eu hwfe).2.1 hov, if_neg hov]
      · have hstep : lookupA (ReductionView.rdStep m pre0 (e, eu)) x =
            lookupA pre0 x :=
          (rdStep_lookup m pre0 e eu hwfe).2.2 x hx
        have hxe : ¬e = x := fun hh => hx hh.symm
        simp only [lookupA_cons, if_neg hxe]
        cases htl : lookupA tl x with
        | none => simpa using hstep
        | some eu2 =>
            simp only [Option.elim_some]
            by_cases hov : m ∩ eu2.user_mask = ∅
            · rw [if_pos hov, if_pos hov, hstep]
            · rw [if_neg hov, if_neg hov, hstep]

theorem any_overlap_iff (mask : FieldMask)
    (users : List (PhysicalUser × FieldMask)) :
    (users.any fun p => ¬(mask ∩ p.2 = ∅)) = true ↔
      ¬(mask ∩ sumMasks users = ∅) := by
  induction users with
  | nil => simp
  | cons hd tl ih =>
      rw [sumMasks_cons, Finset.inter_union_distrib_left]
      simp only [List.any_cons, Bool.or_eq_true, ih, decide_eq_true_eq,
        Finset.union_eq_empty]
      tauto

theorem collect_dependences_mem (mask : FieldMask)
    (table : List (Event × EventUsers)) :
    (∀ p ∈ table, p.2.wf) →
    ∀ (w0 : Finset Event) (x : Event),
      x ∈ ReductionView.collect_dependences table mask w0 ↔
        x ∈ w0 ∨ ∃ p ∈ table, p.1 = x ∧ ¬(mask ∩ p.2.user_mask = ∅) := by
  induction table with
  | nil =>
      intro _ w0 x
      simp [ReductionView.collect_dependences]
  | cons hd tl ih =>
      intro hwf w0 x
      obtain ⟨e, eu⟩ := hd
      have hwfe : eu.wf := hwf (e, eu) (by simp)
      have hwft : ∀ p ∈ tl, p.2.wf := fun p hp => hwf p (List.mem_cons_of_mem _ hp)
      have hrec : ReductionView.collect_dependences ((e, eu) :: tl) mask w0 =
          ReductionView.collect_dependences tl mask
            (ReductionView.cdStep mask w0 (e, eu)) := rfl
      have hstep : ReductionView.cdStep mask w0 (e, eu) =
          if mask ∩ eu.user_mask = ∅ then w0 else insert e w0 := by
        by_cases hs : eu.single = true
        · simp [ReductionView.cdStep, hs]
        · have hs2 : eu.single = false := by simpa using hs
          have hsum : eu.user_mask = sumMasks eu.multi_users := by
            have h1 := hwfe.1
            rw [EventUsers.maskWf] at h1
            rwa [EventUsers.entries, if_neg (by simp [hs2])] at h1
          by_cases hov : mask ∩ eu.user_mask = ∅
          · simp [ReductionView.cdStep, hs2, hov]
          · have hany : (eu.multi_users.any fun p => ¬(mask ∩ p.2 = ∅)) = true :=
              (any_overlap_iff mask eu.multi_users).mpr
                (by rw [← hsum]; exact hov)
            simp only [ReductionView.cdStep, hs2, Bool.false_eq_true, if_false]
            rw [if_pos hov, if_pos hany, if_neg hov]
      rw [hrec, ih hwft _ x, hstep]
      by_cases hov : mask ∩ eu.user_mask = ∅
      · rw [if_pos hov]
        constructor
        · rintro (h | h)
          · exact Or.inl h
          · exact Or.inr (by
              obtain ⟨p, hp, hpx, hpov⟩ := h
              exact ⟨p, List.mem_cons_of_mem _ hp, hpx, hpov⟩)
        · rintro (h | ⟨p, hp, hpx, hpov⟩)
          · exact Or.inl h
          · rcases List.mem_cons.mp hp with h2 | h2
            · exact absurd (h2 ▸ hpov) (by
                rw [h2] at hpov
                exact fun _ => hpov hov)
            · exact Or.inr ⟨p, h2, hpx, hpov⟩
      · rw [if_neg hov]
        constructor
        · rintro (h | h)
          · rcases Finset.mem_insert.mp h with h2 | h2
            · exact Or.inr ⟨(e, eu), by simp, h2.symm, hov⟩
            · exact Or.inl h2
          · exact Or.inr (by
              obtain ⟨p, hp, hpx, hpov⟩ := h
              exact ⟨p, List.mem_cons_of_mem _ hp, hpx, hpov⟩)
        · rintro (h | ⟨p, hp, hpx, hpov⟩)
          · exact Or.inl (Finset.mem_insert_of_mem h)
          · rcases List.mem_cons.mp hp with h2 | h2
            · rw [h2] at hpx
              exact Or.inl (Finset.mem_insert.mpr (Or.inl hpx.symm))
            · exact Or.inr ⟨p, h2, hpx, hpov⟩

theorem foldl_preserves {α β : Type} (f : β → α → β) (P : β → Prop)
    (h : ∀ st a, P st → P (f st a)) (l : List α) (st : β) (h0 : P st) :
    P (l.foldl f st) := by
  induction l generalizing st with
  | nil => exact h0
  | cons hd tl ih => exact ih _ (h st hd h0)

/-- Pointwise mask inclusion between two precondition maps. -/
def preLe (p q : List (Event × FieldMask)) : Prop :=
  ∀ e, ((lookupA p e).getD ∅ : FieldMask) ⊆ (lookupA q e).getD ∅

theorem preLe_refl (p : List (Event × FieldMask)) : preLe p p :=
  fun _ => Finset.Subset.refl _

theorem preLe_trans {p q r : List (Event × FieldMask)} (h1 : preLe p q)
    (h2 : preLe q r) : preLe p r :=
  fun e => (h1 e).trans (h2 e)

theorem addPre_preLe (pre : List (Event × FieldMask)) (e : Event)
    (m : FieldMask) : preLe pre (addPre pre e m) := by
  intro x
  by_cases hx : x = e
  · subst hx
    rw [lookupA_addPre_self]
    exact Finset.subset_union_left
  · rw [lookupA_addPre_ne pre e x m hx]

theorem fccp_pre_mono (ctx : ExternalCtx) (e : Event) (u : PhysicalUser)
    (um : FieldMask) (redop : Nat) (reading : Bool) (cm : FieldMask)
    (child : ColorPoint) (versions : Option FieldVersions)
    (acc : MaterializedView.CopyAcc) :
    preLe acc.preconditions
      (MaterializedView.find_current_copy_preconditions ctx e u um redop
        reading cm child versions acc).preconditions := by
  have key : (MaterializedView.find_current_copy_preconditions ctx e u um redop
        reading cm child versions acc).preconditions = acc.preconditions ∨
      (MaterializedView.find_current_copy_preconditions ctx e u um redop
        reading cm child versions acc).preconditions =
        addPre acc.preconditions e (cm ∩ um) := by
    unfold MaterializedView.find_current_copy_preconditions
    dsimp only
    repeat' split
    all_goals first | exact Or.inl rfl | exact Or.inr rfl
  rcases key with h | h
  · rw [h]
    exact preLe_refl _
  · rw [h]
    exact addPre_preLe _ _ _

theorem fpcp_pre_mono (ctx : ExternalCtx) (e : Event) (u : PhysicalUser)
    (um : FieldMask) (redop : Nat) (reading : Bool) (cm : FieldMask)
    (child : ColorPoint) (versions : Option FieldVersions)
    (pre : List (Event × FieldMask)) :
    preLe pre
      (MaterializedView.find_previous_copy_preconditions ctx e u um redop
        reading cm child versions pre) := by
  have key : MaterializedView.find_previous_copy_preconditions ctx e u um redop
        reading cm child versions pre = pre ∨
      MaterializedView.find_previous_copy_preconditions ctx e u um redop
        reading cm child versions pre = addPre pre e (um ∩ cm) := by
    unfold MaterializedView.find_previous_copy_preconditions
    dsimp only
    repeat' split
    all_goals first | exact Or.inl rfl | exact Or.inr rfl
  rcases key with h | h
  · rw [h]
    exact preLe_refl _
  · rw [h]
    exact addPre_preLe _ _ _

theorem curCopyStep_pre_mono (ctx : ExternalCtx) (redop : Nat)
    (reading : Bool) (copy_mask : FieldMask) (child : ColorPoint)
    (versions : Option FieldVersions) (st : List Event × MaterializedView.CopyAcc)
    (ce : Event × EventUsers) :
    preLe st.2.preconditions
      (MaterializedView.curCopyStep ctx redop reading copy_mask child versions
        st ce).2.preconditions := by
  unfold MaterializedView.curCopyStep
  try dsimp only
  repeat' split
  all_goals try dsimp only
  all_goals
    first
      | exact preLe_refl _
      | exact fccp_pre_mono _ _ _ _ _ _ _ _ _ _
      | exact foldl_preserves _ (fun a => preLe st.2.preconditions a.preconditions)
          (fun a p hp => preLe_trans hp (fccp_pre_mono _ _ _ _ _ _ _ _ _ _))
          ce.2.multi_users st.2 (preLe_refl _)

theorem prevCopyStep_pre_mono (ctx : ExternalCtx) (redop : Nat)
    (reading : Bool) (child : ColorPoint) (versions : Option FieldVersions)
    (non_dominated dominated : FieldMask)
    (st : List Event × List (Event × FieldMask) × List (Event × FieldMask))
    (pe : Event × EventUsers) :
    preLe st.2.2
      (MaterializedView.prevCopyStep ctx redop reading child versions
        non_dominated dominated st pe).2.2 := by
  unfold MaterializedView.prevCopyStep
  try dsimp only
  repeat' split
  all_goals try dsimp only
  all_goals
    first
      | exact preLe_refl _
      | exact fpcp_pre_mono _ _ _ _ _ _ _ _ _ _
      | exact foldl_preserves _ (fun a => preLe st.2.2 a)
          (fun a p hp => preLe_trans hp (fpcp_pre_mono _ _ _ _ _ _ _ _ _ _))
          pe.2.multi_users st.2.2 (preLe_refl _)

theorem find_local_copy_pre_mono (ctx : ExternalCtx)
    (s : MaterializedView.State) (redop : Nat) (reading : Bool)
    (copy_mask : FieldMask) (child : ColorPoint) (vi : FieldVersions)
    (pre0 : List (Event × FieldMask)) :
    preLe pre0 (MaterializedView.find_local_copy_preconditions ctx s redop
      reading copy_mask child vi pre0).1 := by
  have h1 : ∀ versions,
      preLe pre0 (MaterializedView.scanCurrentCopy ctx s.current_epoch_users
        redop reading copy_mask child versions pre0).2.preconditions := by
    intro versions
    unfold MaterializedView.scanCurrentCopy
    refine foldl_preserves
      (MaterializedView.curCopyStep ctx redop reading copy_mask child versions)
      (fun st => preLe pre0 st.2.preconditions)
      ?_ s.current_epoch_users
      ([], { preconditions := pre0, observed := ∅, non_dominated := ∅ })
      (preLe_refl _)
    intro st a hst
    exact preLe_trans hst (curCopyStep_pre_mono ctx redop reading copy_mask
      child versions st a)
  have h2 : ∀ versions nd dd dead0 pre1,
      preLe pre1 (MaterializedView.scanPreviousCopy ctx s.previous_epoch_users
        redop reading child versions nd dd dead0 pre1).2.2 := by
    intro versions nd dd dead0 pre1
    unfold MaterializedView.scanPreviousCopy
    refine foldl_preserves
      (MaterializedView.prevCopyStep ctx redop reading child versions nd dd)
      (fun st => preLe pre1 st.2.2)
      ?_ s.previous_epoch_users (dead0, [], pre1) (preLe_refl _)
    intro st a hst
    exact preLe_trans hst (prevCopyStep_pre_mono ctx redop reading child
      versions nd dd st a)
  unfold MaterializedView.find_local_copy_preconditions
  dsimp only
  repeat' split
  all_goals try dsimp only
  all_goals exact preLe_trans (h1 _) (h2 _ _ _ _ _)

theorem cdStep_mono (mask : FieldMask) (w : Finset Event)
    (re : Event × EventUsers) : w ⊆ ReductionView.cdStep mask w re := by
  unfold ReductionView.cdStep
  split_ifs <;> first | exact Finset.Subset.refl _ | exact Finset.subset_insert _ _

theorem collect_dependences_mono (tbl : List (Event × EventUsers))
    (mask : FieldMask) (w0 : Finset Event) :
    w0 ⊆ ReductionView.collect_dependences tbl mask w0 := by
  refine foldl_preserves _ (fun w => w0 ⊆ w) ?_ tbl w0 (Finset.Subset.refl _)
  intro w a hw
  exact hw.trans (cdStep_mono mask w a)

theorem rdStep_pre_mono (m : FieldMask) (pre : List (Event × FieldMask))
    (re : Event × EventUsers) : preLe pre (ReductionView.rdStep m pre re) := by
  have hinner : ∀ (e : Event) (a : List (Event × FieldMask))
      (p : PhysicalUser × FieldMask), preLe a (ReductionView.rdInner e m a p) := by
    intro e a p
    unfold ReductionView.rdInner
    try dsimp only
    repeat' split
    all_goals first | exact preLe_refl _ | exact addPre_preLe _ _ _
  unfold ReductionView.rdStep
  try dsimp only
  repeat' split
  all_goals
    first
      | exact preLe_refl _
      | exact addPre_preLe _ _ _
      | exact foldl_preserves (ReductionView.rdInner re.1 m)
          (fun a => preLe pre a)
          (fun a p hp => preLe_trans hp (hinner re.1 a p))
          re.2.multi_users pre (preLe_refl _)

theorem record_dependences_pre_mono (tbl : List (Event × EventUsers))
    (m : FieldMask) (pre0 : List (Event × FieldMask)) :
    preLe pre0 (ReductionView.record_dependences tbl m pre0) := by
  refine foldl_preserves _ (fun a => preLe pre0 a) ?_ tbl pre0 (preLe_refl _)
  intro a p hp
  exact preLe_trans hp (rdStep_pre_mono m a p)

theorem fcp_pre_mono (ctx : ExternalCtx) (e : Event) (pu : PhysicalUser)
    (pm : FieldMask) (usage : RegionUsage) (nm : FieldMask)
    (child : ColorPoint) (acc : MaterializedView.TaskAcc) :
    acc.preconditions ⊆
      (MaterializedView.find_current_preconditions ctx e pu pm usage nm child
        acc).2.preconditions := by
  unfold MaterializedView.find_current_preconditions
  try dsimp only
  repeat' split
  all_goals
    first
      | exact Finset.Subset.refl _
      | exact Finset.subset_insert _ _

theorem fpp_pre_mono (ctx : ExternalCtx) (e : Event) (pu : PhysicalUser)
    (pm : FieldMask) (usage : RegionUsage) (nm : FieldMask)
    (child : ColorPoint) (pre : Finset Event) :
    pre ⊆ (MaterializedView.find_previous_preconditions ctx e pu pm usage nm
      child pre).2 := by
  unfold MaterializedView.find_previous_preconditions
  try dsimp only
  repeat' split
  all_goals
    first
      | exact Finset.Subset.refl _
      | exact Finset.subset_insert _ _

theorem findCurrentMulti_pre_mono (ctx : ExternalCtx) (e : Event)
    (usage : RegionUsage) (user_mask : FieldMask) (child : ColorPoint)
    (users : List (PhysicalUser × FieldMask)) :
    ∀ acc : MaterializedView.TaskAcc,
      acc.preconditions ⊆
        (MaterializedView.findCurrentMulti ctx e usage user_mask child users
          acc).preconditions := by
  induction users with
  | nil => intro acc; exact Finset.Subset.refl _
  | cons hd tl ih =>
      intro acc
      unfold MaterializedView.findCurrentMulti
      dsimp only
      split
      · exact fcp_pre_mono ctx e hd.1 hd.2 usage user_mask child acc
      · exact (fcp_pre_mono ctx e hd.1 hd.2 usage user_mask child acc).trans (ih _)

theorem findPreviousMulti_pre_mono (ctx : ExternalCtx) (e : Event)
    (usage : RegionUsage) (nm : FieldMask) (child : ColorPoint)
    (users : List (PhysicalUser × FieldMask)) :
    ∀ pre : Finset Event,
      pre ⊆ MaterializedView.findPreviousMulti ctx e usage nm child users pre := by
  induction users with
  | nil => intro pre; exact Finset.Subset.refl _
  | cons hd tl ih =>
      intro pre
      unfold MaterializedView.findPreviousMulti
      dsimp only
      split
      · exact fpp_pre_mono ctx e hd.1 hd.2 usage nm child pre
      · exact (fpp_pre_mono ctx e hd.1 hd.2 usage nm child pre).trans (ih _)

theorem add_local_user_pre_mono (ctx : ExternalCtx)
    (s : MaterializedView.State) (usage : RegionUsage) (term_event : Event)
    (base_user : Bool) (child : ColorPoint) (vi : FieldVersions)
    (user_mask : FieldMask) (pre0 : Finset Event) :
    pre0 ⊆ (MaterializedView.add_local_user ctx s usage term_event base_user
      child vi user_mask pre0).1 := by
  have h1 : pre0 ⊆ (MaterializedView.scanCurrentTask ctx s.current_epoch_users
      usage term_event child user_mask pre0).2.preconditions := by
    unfold MaterializedView.scanCurrentTask
    refine foldl_preserves
      (MaterializedView.curTaskStep ctx usage term_event child user_mask)
      (fun st => pre0 ⊆ st.2.preconditions)
      ?_ s.current_epoch_users
      ([], { preconditions := pre0, observed := ∅, non_dominated := ∅ })
      (Finset.Subset.refl _)
    intro st a hst
    refine hst.trans ?_
    unfold MaterializedView.curTaskStep
    try dsimp only
    repeat' split
    all_goals try dsimp only
    all_goals
      first
        | exact Finset.Subset.refl _
        | exact fcp_pre_mono _ _ _ _ _ _ _ _
        | exact findCurrentMulti_pre_mono ctx a.1 usage user_mask child
            a.2.multi_users st.2
  have h2 : ∀ (nd dd : FieldMask) (dead0 : List Event) (pre1 : Finset Event),
      pre1 ⊆ (MaterializedView.scanPreviousTask ctx s.previous_epoch_users
        usage term_event child nd dd dead0 pre1).2.2 := by
    intro nd dd dead0 pre1
    unfold MaterializedView.scanPreviousTask
    refine foldl_preserves
      (MaterializedView.prevTaskStep ctx usage term_event child nd dd)
      (fun st => pre1 ⊆ st.2.2)
      ?_ s.previous_epoch_users (dead0, [], pre1) (Finset.Subset.refl _)
    intro st a hst
    refine hst.trans ?_
    unfold MaterializedView.prevTaskStep
    try dsimp only
    repeat' split
    all_goals try dsimp only
    all_goals
      first
        | exact Finset.Subset.refl _
        | exact fpp_pre_mono _ _ _ _ _ _ _ _
        | exact findPreviousMulti_pre_mono ctx a.1 usage nd child
            a.2.multi_users st.2.2
  unfold MaterializedView.add_local_user
  dsimp only
  repeat' split
  all_goals try dsimp only
  all_goals exact Finset.Subset.trans h1 (h2 _ _ _ _)

theorem prevTaskStep_skip_pre (ctx : ExternalCtx) (usage : RegionUsage)
    (term_event : Event) (child : ColorPoint) (dominated : FieldMask)
    (st : List Event × List (Event × FieldMask) × Finset Event)
    (pe : Event × EventUsers) :
    (MaterializedView.prevTaskStep ctx usage term_event child ∅ dominated st
      pe).2.2 = st.2.2 := by
  simp only [MaterializedView.prevTaskStep]
  split_ifs <;> rfl

theorem prevCopyStep_skip_pre (ctx : ExternalCtx) (redop : Nat)
    (reading : Bool) (child : ColorPoint) (versions : Option FieldVersions)
    (dominated : FieldMask)
    (st : List Event × List (Event × FieldMask) × List (Event × FieldMask))
    (pe : Event × EventUsers) :
    (MaterializedView.prevCopyStep ctx redop reading child versions ∅
      dominated st pe).2.2 = st.2.2 := by
  simp only [MaterializedView.prevCopyStep]
  split_ifs <;> rfl

/-! ### Migration of dominated fields (`filter_current_users`) -/

theorem lookupA_append {α β : Type} [DecidableEq α] (xs ys : List (α × β))
    (a : α) :
    lookupA (xs ++ ys) a = (lookupA xs a).elim (lookupA ys a) some := by
  induction xs with
  | nil => simp
  | cons hd tl ih =>
      obtain ⟨k, v⟩ := hd
      by_cases h : k = a
      · simp [h]
      · simp [h, ih]

theorem setA_self_mem {α β : Type} [DecidableEq α] (l : List (α × β))
    (a : α) (b : β) : (a, b) ∈ setA l a b := by
  induction l with
  | nil => simp [setA]
  | cons hd tl ih =>
      obtain ⟨k, v⟩ := hd
      by_cases h : k = a
      · simp [setA, h]
      · simp only [setA, if_neg h, List.mem_cons]
        exact Or.inr ih

theorem mergeUserInto_self (l : List (PhysicalUser × FieldMask))
    (u : PhysicalUser) (m : FieldMask) :
    ∃ q ∈ mergeUserInto l u m, q.1 = u ∧ m ⊆ q.2 := by
  unfold mergeUserInto
  cases h : lookupA l u with
  | none => exact ⟨(u, m), setA_self_mem l u m, rfl, Finset.Subset.refl m⟩
  | some pm =>
      exact ⟨(u, pm ∪ m), setA_self_mem l u _, rfl, Finset.subset_union_right⟩

theorem mergeUserInto_mem (l : List (PhysicalUser × FieldMask))
    (u : PhysicalUser) (m : FieldMask) :
    ∀ p ∈ l, ∃ q ∈ mergeUserInto l u m, q.1 = p.1 ∧ p.2 ⊆ q.2 := by
  induction l with
  | nil => intro p hp; cases hp
  | cons hd tl ih =>
      intro p hp
      obtain ⟨k, v⟩ := hd
      by_cases hk : k = u
      · subst hk
        have hred : mergeUserInto ((k, v) :: tl) k m = (k, v ∪ m) :: tl := by
          simp [mergeUserInto, lookupA, setA]
        rw [hred]
        rcases List.mem_cons.mp hp with rfl | hmem
        · exact ⟨(k, v ∪ m), List.mem_cons_self _ _, rfl, Finset.subset_union_left⟩
        · exact ⟨p, List.mem_cons_of_mem _ hmem, rfl, Finset.Subset.refl _⟩
      · have hred : mergeUserInto ((k, v) :: tl) u m
            = (k, v) :: mergeUserInto tl u m := by
          unfold mergeUserInto
          rw [lookupA_cons, if_neg hk]
          cases h2 : lookupA tl u with
          | none => simp [setA, hk]
          | some pm => simp [setA, hk]
        rw [hred]
        rcases List.mem_cons.mp hp with heq | hmem
        · exact ⟨p, by rw [heq]; exact List.mem_cons_self _ _, rfl,
            Finset.Subset.refl _⟩
        · obtain ⟨q, hq, hq1, hq2⟩ := ih p hmem
          exact ⟨q, List.mem_cons_of_mem _ hq, hq1, hq2⟩

theorem foldl_merge_preserve (l acc : List (PhysicalUser × FieldMask)) :
    ∀ q ∈ acc, ∃ q2 ∈ l.foldl (fun a p => mergeUserInto a p.1 p.2) acc,
      q2.1 = q.1 ∧ q.2 ⊆ q2.2 := by
  induction l generalizing acc with
  | nil => intro q hq; exact ⟨q, hq, rfl, Finset.Subset.refl _⟩
  | cons hd tl ih =>
      intro q hq
      obtain ⟨q1, hq1, he1, hs1⟩ := mergeUserInto_mem acc hd.1 hd.2 q hq
      obtain ⟨q2, hq2, he2, hs2⟩ := ih (mergeUserInto acc hd.1 hd.2) q1 hq1
      exact ⟨q2, by simpa using hq2, he2.trans he1, hs1.trans hs2⟩

theorem foldl_merge_mem (l acc : List (PhysicalUser × FieldMask)) :
    ∀ p ∈ l, ∃ q ∈ l.foldl (fun a p => mergeUserInto a p.1 p.2) acc,
      q.1 = p.1 ∧ p.2 ⊆ q.2 := by
  induction l generalizing acc with
  | nil => intro p hp; cases hp
  | cons hd tl ih =>
      intro p hp
      rcases List.mem_cons.mp hp with heq | hmem
      · obtain ⟨q1, hq1, he1, hs1⟩ := mergeUserInto_self acc hd.1 hd.2
        obtain ⟨q2, hq2, he2, hs2⟩ := foldl_merge_preserve tl _ q1 hq1
        refine ⟨q2, by simpa using hq2, ?_, ?_⟩
        · rw [he2, he1, heq]
        · rw [heq]
          exact hs1.trans hs2
      · obtain ⟨q, hq, he, hs⟩ := ih (mergeUserInto acc hd.1 hd.2) p hmem
        exact ⟨q, by simpa using hq, he, hs⟩

theorem sumMasks_filter_ne (l : List (PhysicalUser × FieldMask)) :
    sumMasks (l.filter fun p => p.2 ≠ ∅) = sumMasks l := by
  induction l with
  | nil => rfl
  | cons hd tl ih =>
      by_cases h : hd.2 = ∅
      · simp only [ne_eq, List.filter_cons, decide_not] at ih ⊢
        simp [h, ih]
      · simp only [ne_eq, List.filter_cons, decide_not] at ih ⊢
        simp [h, ih]

theorem sumMasks_map_sdiff (l : List (PhysicalUser × FieldMask))
    (f : FieldMask) :
    sumMasks (l.map fun p => (p.1, p.2 \ f)) = sumMasks l \ f := by
  induction l with
  | nil => simp
  | cons hd tl ih => simp [ih, Finset.union_sdiff_distrib]

theorem mem_sumMasks (l : List (PhysicalUser × FieldMask)) :
    ∀ p ∈ l, p.2 ⊆ sumMasks l := by
  induction l with
  | nil => intro p hp; cases hp
  | cons hd tl ih =>
      intro p hp
      rcases List.mem_cons.mp hp with heq | hmem
      · rw [heq]
        simp
      · exact (ih p hmem).trans (by simp)

theorem fcb_spec (cur prev : EventUsers) (ov : FieldMask)
    (hcwf : cur.wf) (hpwf : prev.wf)
    (hsub : ov ⊆ cur.user_mask) (hne : ¬ov = ∅) :
    (MaterializedView.filterCurrentBucket cur prev ov).1.user_mask
      = prev.user_mask ∪ ov ∧
    ((cur.user_mask \ ov = ∅ →
        (MaterializedView.filterCurrentBucket cur prev ov).2 = none) ∧
     (¬cur.user_mask \ ov = ∅ →
        ((MaterializedView.filterCurrentBucket cur prev ov).2).map
          EventUsers.user_mask = some (cur.user_mask \ ov))) ∧
    (∀ p ∈ cur.entries, ¬p.2 ∩ ov = ∅ →
      ∃ q ∈ (MaterializedView.filterCurrentBucket cur prev ov).1.entries,
        q.1 = p.1 ∧ p.2 ∩ ov ⊆ q.2) := by
  by_cases hs : cur.single = true
  · cases hsu : cur.single_user with
    | none =>
        exfalso
        apply hne
        have hm : cur.user_mask = ∅ := by
          simpa [EventUsers.maskWf, EventUsers.entries, hs, hsu] using hcwf.1
        rw [hm] at hsub
        exact Finset.subset_empty.mp hsub
    | some user =>
        have hent : cur.entries = [(user, cur.user_mask)] := by
          simp [EventUsers.entries, hs, hsu]
        by_cases hps : prev.single = true
        · cases hpsu : prev.single_user with
          | none =>
              have hpm : prev.user_mask = ∅ := by
                simpa [EventUsers.maskWf, EventUsers.entries, hps, hpsu]
                  using hpwf.1
              have hfcb : MaterializedView.filterCurrentBucket cur prev ov =
                  ({ prev with single_user := some user, user_mask := ov },
                   if cur.user_mask \ ov = ∅ then none
                   else some { cur with user_mask := cur.user_mask \ ov }) := by
                simp [MaterializedView.filterCurrentBucket, hs, hsu, hps, hpsu]
              refine ⟨by rw [hfcb]; simp [hpm], ⟨?_, ?_⟩, ?_⟩
              · intro h
                rw [hfcb]
                dsimp only
                rw [if_pos h]
              · intro h
                rw [hfcb]
                dsimp only
                rw [if_neg h]
                rfl
              · intro p hp hpov
                rw [hent] at hp
                have hpe : p = (user, cur.user_mask) := List.mem_singleton.mp hp
                rw [hfcb]
                refine ⟨(user, ov), ?_, by rw [hpe], ?_⟩
                · simp [EventUsers.entries, hps]
                · rw [hpe]
                  exact Finset.inter_subset_right
          | some pu =>
              by_cases hpu : pu = user
              · have hfcb : MaterializedView.filterCurrentBucket cur prev ov =
                    ({ prev with user_mask := prev.user_mask ∪ ov },
                     if cur.user_mask \ ov = ∅ then none
                     else some { cur with user_mask := cur.user_mask \ ov }) := by
                  simp [MaterializedView.filterCurrentBucket, hs, hsu, hps,
                    hpsu, hpu]
                refine ⟨by rw [hfcb], ⟨?_, ?_⟩, ?_⟩
                · intro h
                  rw [hfcb]
                  dsimp only
                  rw [if_pos h]
                · intro h
                  rw [hfcb]
                  dsimp only
                  rw [if_neg h]
                  rfl
                · intro p hp hpov
                  rw [hent] at hp
                  have hpe : p = (user, cur.user_mask) := List.mem_singleton.mp hp
                  rw [hfcb]
                  refine ⟨(pu, prev.user_mask ∪ ov), ?_, by rw [hpe, hpu], ?_⟩
                  · simp [EventUsers.entries, hps, hpsu]
                  · rw [hpe]
                    exact Finset.inter_subset_right.trans Finset.subset_union_right
              · have hfcb : MaterializedView.filterCurrentBucket cur prev ov =
                    ({ single := false, single_user := none,
                       multi_users := [(pu, prev.user_mask), (user, ov)],
                       user_mask := prev.user_mask ∪ ov },
                     if cur.user_mask \ ov = ∅ then none
                     else some { cur with user_mask := cur.user_mask \ ov }) := by
                  simp [MaterializedView.filterCurrentBucket, hs, hsu, hps,
                    hpsu, hpu, setA]
                refine ⟨by rw [hfcb], ⟨?_, ?_⟩, ?_⟩
                · intro h
                  rw [hfcb]
                  dsimp only
                  rw [if_pos h]
                · intro h
                  rw [hfcb]
                  dsimp only
                  rw [if_neg h]
                  rfl
                · intro p hp hpov
                  rw [hent] at hp
                  have hpe : p = (user, cur.user_mask) := List.mem_singleton.mp hp
                  rw [hfcb]
                  refine ⟨(user, ov), ?_, by rw [hpe], ?_⟩
                  · simp [EventUsers.entries]
                  · rw [hpe]
                    exact Finset.inter_subset_right
        · have hps2 : prev.single = false := by
            cases h : prev.single
            · rfl
            · exact absurd h hps
          have hfcb : MaterializedView.filterCurrentBucket cur prev ov =
              ({ prev with
                   multi_users := mergeUserInto prev.multi_users user ov,
                   user_mask := prev.user_mask ∪ ov },
               if cur.user_mask \ ov = ∅ then none
               else some { cur with user_mask := cur.user_mask \ ov }) := by
            simp [MaterializedView.filterCurrentBucket, hs, hsu, hps2]
          refine ⟨by rw [hfcb], ⟨?_, ?_⟩, ?_⟩
          · intro h
            rw [hfcb]
            dsimp only
            rw [if_pos h]
          · intro h
            rw [hfcb]
            dsimp only
            rw [if_neg h]
            rfl
          · intro p hp hpov
            rw [hent] at hp
            have hpe : p = (user, cur.user_mask) := List.mem_singleton.mp hp
            obtain ⟨q, hq, hq1, hq2⟩ := mergeUserInto_self prev.multi_users user ov
            rw [hfcb]
            refine ⟨q, ?_, by rw [hpe, hq1], ?_⟩
            · simpa [EventUsers.entries, hps2] using hq
            · rw [hpe]
              exact Finset.inter_subset_right.trans hq2
  · have hs2 : cur.single = false := by
      cases h : cur.single
      · rfl
      · exact absurd h hs
    have hent : cur.entries = cur.multi_users := by
      simp [EventUsers.entries, hs2]
    by_cases hcm : cur.user_mask \ ov = ∅
    · by_cases hps : prev.single = true
      · cases hpsu : prev.single_user with
        | none =>
            have hfcb : MaterializedView.filterCurrentBucket cur prev ov =
                ({ single := false, single_user := none,
                   multi_users := cur.multi_users,
                   user_mask := prev.user_mask ∪ ov }, none) := by
              simp [MaterializedView.filterCurrentBucket, hs2, hcm, hps, hpsu]
            rw [hfcb]
            refine ⟨rfl, ⟨fun _ => rfl, fun h => absurd hcm h⟩, ?_⟩
            intro p hp hpov
            rw [hent] at hp
            exact ⟨p, by simpa [EventUsers.entries] using hp, rfl,
              Finset.inter_subset_left⟩
        | some pu =>
            have hfcb : MaterializedView.filterCurrentBucket cur prev ov =
                ({ single := false, single_user := none,
                   multi_users := mergeUserInto cur.multi_users pu prev.user_mask,
                   user_mask := prev.user_mask ∪ ov }, none) := by
              simp [MaterializedView.filterCurrentBucket, hs2, hcm, hps, hpsu]
            rw [hfcb]
            refine ⟨rfl, ⟨fun _ => rfl, fun h => absurd hcm h⟩, ?_⟩
            intro p hp hpov
            rw [hent] at hp
            obtain ⟨q, hq, hq1, hq2⟩ :=
              mergeUserInto_mem cur.multi_users pu prev.user_mask p hp
            exact ⟨q, by simpa [EventUsers.entries] using hq, hq1,
              Finset.inter_subset_left.trans hq2⟩
      · have hps2 : prev.single = false := by
          cases h : prev.single
          · rfl
          · exact absurd h hps
        have hfcb : MaterializedView.filterCurrentBucket cur prev ov =
            ({ prev with
                 multi_users := cur.multi_users.foldl
                   (fun acc p => mergeUserInto acc p.1 p.2) prev.multi_users,
                 user_mask := prev.user_mask ∪ ov }, none) := by
          simp [MaterializedView.filterCurrentBucket, hs2, hcm, hps2]
        rw [hfcb]
        refine ⟨rfl, ⟨fun _ => rfl, fun h => absurd hcm h⟩, ?_⟩
        intro p hp hpov
        rw [hent] at hp
        obtain ⟨q, hq, hq1, hq2⟩ :=
          foldl_merge_mem cur.multi_users prev.multi_users p hp
        exact ⟨q, by simpa [EventUsers.entries, hps2] using hq, hq1,
          Finset.inter_subset_left.trans hq2⟩
    · have hmask : cur.user_mask = sumMasks cur.multi_users := by
        simpa [EventUsers.maskWf, EventUsers.entries, hs2] using hcwf.1
      have hsum : sumMasks ((cur.multi_users.map fun p => (p.1, p.2 \ ov)).filter
          fun p => p.2 ≠ ∅) = cur.user_mask \ ov := by
        rw [sumMasks_filter_ne, sumMasks_map_sdiff, ← hmask]
      have hmoved : ∀ p ∈ cur.multi_users, ¬p.2 ∩ ov = ∅ →
          (p.1, p.2 ∩ ov) ∈ cur.multi_users.filterMap fun p =>
            if p.2 ∩ ov = ∅ then none else some (p.1, p.2 ∩ ov) := by
        intro p hp hpov
        exact List.mem_filterMap.mpr ⟨p, hp, by simp [hpov]⟩
      by_cases hps : prev.single = true
      · cases hpsu : prev.single_user with
        | none =>
            have hfcb1 : (MaterializedView.filterCurrentBucket cur prev ov).1 =
                { single := false, single_user := none,
                  multi_users := cur.multi_users.filterMap fun p =>
                    if p.2 ∩ ov = ∅ then none else some (p.1, p.2 ∩ ov),
                  user_mask := prev.user_mask ∪ ov } := by
              simp [MaterializedView.filterCurrentBucket, hs2, hcm, hps, hpsu]
            refine ⟨by rw [hfcb1], ⟨fun h => absurd h hcm, fun _ => ?_⟩, ?_⟩
            · simp only [MaterializedView.filterCurrentBucket, hs2,
                Bool.false_eq_true, if_false, hcm, hps, hpsu, if_true]
              try dsimp only
              simp only [Option.map_some, Option.map_eq_map, Option.map]
              refine congrArg some ?_
              split
              · rename_i hlen
                split
                · rename_i u m heq
                  obtain ⟨a, ha⟩ := List.length_eq_one.mp hlen.2
                  rw [ha] at heq hsum
                  simp only [List.head?_cons, Option.some_inj] at heq
                  rw [heq] at hsum
                  simpa using hsum
                · rfl
              · rfl
            · intro p hp hpov
              rw [hent] at hp
              rw [hfcb1]
              exact ⟨(p.1, p.2 ∩ ov),
                by simpa [EventUsers.entries] using hmoved p hp hpov, rfl,
                Finset.Subset.refl _⟩
        | some pu =>
            have hfcb1 : (MaterializedView.filterCurrentBucket cur prev ov).1 =
                { single := false, single_user := none,
                  multi_users := mergeUserInto
                    (cur.multi_users.filterMap fun p =>
                      if p.2 ∩ ov = ∅ then none else some (p.1, p.2 ∩ ov))
                    pu prev.user_mask,
                  user_mask := prev.user_mask ∪ ov } := by
              simp [MaterializedView.filterCurrentBucket, hs2, hcm, hps, hpsu]
            refine ⟨by rw [hfcb1], ⟨fun h => absurd h hcm, fun _ => ?_⟩, ?_⟩
            · simp only [MaterializedView.filterCurrentBucket, hs2,
                Bool.false_eq_true, if_false, hcm, hps, hpsu, if_true]
              try dsimp only
              simp only [Option.map_some, Option.map_eq_map, Option.map]
              refine congrArg some ?_
              split
              · rename_i hlen
                split
                · rename_i u m heq
                  obtain ⟨a, ha⟩ := List.length_eq_one.mp hlen.2
                  rw [ha] at heq hsum
                  simp only [List.head?_cons, Option.some_inj] at heq
                  rw [heq] at hsum
                  simpa using hsum
                · rfl
              · rfl
            · intro p hp hpov
              rw [hent] at hp
              rw [hfcb1]
              obtain ⟨q, hq, hq1, hq2⟩ := mergeUserInto_mem _ pu prev.user_mask
                (p.1, p.2 ∩ ov) (hmoved p hp hpov)
              exact ⟨q, by simpa [EventUsers.entries] using hq, hq1, hq2⟩
      · have hps2 : prev.single = false := by
          cases h : prev.single
          · rfl
          · exact absurd h hps
        have hfcb1 : (MaterializedView.filterCurrentBucket cur prev ov).1 =
            { prev with
                multi_users := (cur.multi_users.filterMap fun p =>
                    if p.2 ∩ ov = ∅ then none
                    else some (p.1, p.2 ∩ ov)).foldl
                  (fun acc p => mergeUserInto acc p.1 p.2) prev.multi_users,
                user_mask := prev.user_mask ∪ ov } := by
          simp [MaterializedView.filterCurrentBucket, hs2, hcm, hps2]
        refine ⟨by rw [hfcb1], ⟨fun h => absurd h hcm, fun _ => ?_⟩, ?_⟩
        · simp only [MaterializedView.filterCurrentBucket, hs2,
            Bool.false_eq_true, if_false, hcm, hps2, if_true]
          try dsimp only
          simp only [Option.map_some, Option.map_eq_map, Option.map]
          refine congrArg some ?_
          split
          · rename_i hlen
            split
            · rename_i u m heq
              obtain ⟨a, ha⟩ := List.length_eq_one.mp hlen.2
              rw [ha] at heq hsum
              simp only [List.head?_cons, Option.some_inj] at heq
              rw [heq] at hsum
              simpa using hsum
            · rfl
          · rfl
        · intro p hp hpov
          rw [hent] at hp
          rw [hfcb1]
          obtain ⟨q, hq, hq1, hq2⟩ := foldl_merge_mem _ prev.multi_users
            (p.1, p.2 ∩ ov) (hmoved p hp hpov)
          exact ⟨q, by simpa [EventUsers.entries, hps2] using hq, hq1, hq2⟩

theorem fcu_fold_frame (ctx : ExternalCtx) (dominated : FieldMask) (e : Event) :
    ∀ (l : List (Event × EventUsers))
      (acc : List (Event × EventUsers) × List (Event × EventUsers)),
      (∀ p ∈ l, p.1 ≠ e) →
      lookupA (l.foldl (MaterializedView.fcuStep ctx dominated) acc).1 e
        = lookupA acc.1 e ∧
      lookupA (l.foldl (MaterializedView.fcuStep ctx dominated) acc).2 e
        = lookupA acc.2 e := by
  intro l
  induction l with
  | nil => intro acc _; exact ⟨rfl, rfl⟩
  | cons hd tl ih =>
      intro acc hk
      have hkhd : hd.1 ≠ e := hk hd (List.mem_cons_self _ _)
      have hktl : ∀ p ∈ tl, p.1 ≠ e := fun p hp => hk p (List.mem_cons_of_mem _ hp)
      have hstep1 : lookupA (MaterializedView.fcuStep ctx dominated acc hd).1 e
          = lookupA acc.1 e := by
        unfold MaterializedView.fcuStep
        try dsimp only
        repeat' split
        all_goals try rfl
        all_goals rw [lookupA_append]
        all_goals cases h : lookupA acc.1 e
        all_goals simp [lookupA, hkhd]
      have hstep2 : lookupA (MaterializedView.fcuStep ctx dominated acc hd).2 e
          = lookupA acc.2 e := by
        unfold MaterializedView.fcuStep
        try dsimp only
        repeat' split
        all_goals try rfl
        all_goals exact lookupA_setA_ne _ _ _ _ (Ne.symm hkhd)
      have hrest := ih (MaterializedView.fcuStep ctx dominated acc hd) hktl
      refine ⟨?_, ?_⟩
      · rw [List.foldl_cons, hrest.1, hstep1]
      · rw [List.foldl_cons, hrest.2, hstep2]

theorem fcu_fold_lookup (ctx : ExternalCtx) (dominated : FieldMask) (e : Event)
    (cur : EventUsers) (hnt : ctx.has_triggered e = false)
    (hov : ¬cur.user_mask ∩ dominated = ∅) :
    ∀ (l : List (Event × EventUsers))
      (acc1 prevs : List (Event × EventUsers)),
      (l.map Prod.fst).Nodup → (e, cur) ∈ l → lookupA acc1 e = none →
      lookupA (l.foldl (MaterializedView.fcuStep ctx dominated) (acc1, prevs)).1 e
        = (MaterializedView.filterCurrentBucket cur
            ((lookupA prevs e).getD emptyEU) (cur.user_mask ∩ dominated)).2 ∧
      lookupA (l.foldl (MaterializedView.fcuStep ctx dominated) (acc1, prevs)).2 e
        = some (MaterializedView.filterCurrentBucket cur
            ((lookupA prevs e).getD emptyEU) (cur.user_mask ∩ dominated)).1 := by
  intro l
  induction l with
  | nil => intro acc1 prevs _ hmem _; cases hmem
  | cons hd tl ih =>
      intro acc1 prevs hnd hmem hacc
      rcases List.mem_cons.mp hmem with heq | hmemtl
      · have hd1 : hd.1 = e := by rw [← heq]
        have hd2 : hd.2 = cur := by rw [← heq]
        have hndc : hd.1 ∉ tl.map Prod.fst ∧ (tl.map Prod.fst).Nodup := by
          rw [List.map_cons] at hnd
          exact ⟨(List.nodup_cons.mp hnd).1, (List.nodup_cons.mp hnd).2⟩
        have hktl : ∀ p ∈ tl, p.1 ≠ e := by
          intro p hp hpe
          apply hndc.1
          rw [hd1, ← hpe]
          exact List.mem_map.mpr ⟨p, hp, rfl⟩
        have hstep : MaterializedView.fcuStep ctx dominated (acc1, prevs) hd =
            ((match (MaterializedView.filterCurrentBucket cur
                ((lookupA prevs e).getD emptyEU) (cur.user_mask ∩ dominated)).2 with
              | some b => acc1 ++ [(e, b)]
              | none => acc1),
             setA prevs e (MaterializedView.filterCurrentBucket cur
                ((lookupA prevs e).getD emptyEU) (cur.user_mask ∩ dominated)).1) := by
          unfold MaterializedView.fcuStep
          rw [hd1, hd2, hnt]
          simp only [Bool.false_eq_true, if_false, hov]
          try rfl
        rw [List.foldl_cons]
        have hframe := fcu_fold_frame ctx dominated e tl
          (MaterializedView.fcuStep ctx dominated (acc1, prevs) hd) hktl
        rw [hframe.1, hframe.2, hstep]
        constructor
        · cases hres : (MaterializedView.filterCurrentBucket cur
              ((lookupA prevs e).getD emptyEU) (cur.user_mask ∩ dominated)).2 with
          | none => simpa [hres] using hacc
          | some b =>
              simp only [hres]
              rw [lookupA_append, hacc]
              simp [lookupA]
        · exact lookupA_setA_self _ _ _
      · have hndc : hd.1 ∉ tl.map Prod.fst ∧ (tl.map Prod.fst).Nodup := by
          rw [List.map_cons] at hnd
          exact ⟨(List.nodup_cons.mp hnd).1, (List.nodup_cons.mp hnd).2⟩
        have hd1 : hd.1 ≠ e := by
          intro hpe
          apply hndc.1
          rw [hpe]
          exact List.mem_map.mpr ⟨(e, cur), hmemtl, rfl⟩
        have hndtl : (tl.map Prod.fst).Nodup := hndc.2
        have hstep1 : lookupA (MaterializedView.fcuStep ctx dominated
            (acc1, prevs) hd).1 e = none := by
          unfold MaterializedView.fcuStep
          try dsimp only
          repeat' split
          all_goals try exact hacc
          all_goals rw [lookupA_append, hacc]
          all_goals simp [lookupA, hd1]
        have hstep2 : lookupA (MaterializedView.fcuStep ctx dominated
            (acc1, prevs) hd).2 e = lookupA prevs e := by
          unfold MaterializedView.fcuStep
          try dsimp only
          repeat' split
          all_goals try rfl
          all_goals exact lookupA_setA_ne _ _ _ _ (Ne.symm hd1)
        have := ih (MaterializedView.fcuStep ctx dominated (acc1, prevs) hd).1
          (MaterializedView.fcuStep ctx dominated (acc1, prevs) hd).2
          hndtl hmemtl hstep1
        rw [List.foldl_cons]
        rw [hstep2] at this
        simpa using this

/-! ### Preservation of bucket well-formedness -/

theorem lookupA_mem {α β : Type} [DecidableEq α] (l : List (α × β)) (a : α)
    (v : β) (h : lookupA l a = some v) : (a, v) ∈ l := by
  induction l with
  | nil => simp at h
  | cons hd tl ih =>
      obtain ⟨k, w⟩ := hd
      by_cases hk : k = a
      · subst hk
        rw [lookupA_cons, if_pos rfl] at h
        injection h with h
        subst h
        exact List.mem_cons_self _ _
      · rw [lookupA_cons, if_neg hk] at h
        exact List.mem_cons_of_mem _ (ih h)

theorem setA_mem_cases {α β : Type} [DecidableEq α] (l : List (α × β)) (a : α)
    (b : β) : ∀ p ∈ setA l a b, p ∈ l ∨ p = (a, b) := by
  induction l with
  | nil =>
      intro p hp
      simp only [setA, List.mem_singleton] at hp
      exact Or.inr hp
  | cons hd tl ih =>
      intro p hp
      obtain ⟨k, v⟩ := hd
      by_cases hk : k = a
      · simp only [setA, if_pos hk, List.mem_cons] at hp
        rcases hp with hp | hp
        · exact Or.inr hp
        · exact Or.inl (List.mem_cons_of_mem _ hp)
      · simp only [setA, if_neg hk, List.mem_cons] at hp
        rcases hp with hp | hp
        · exact Or.inl (hp ▸ List.mem_cons_self _ _)
        · rcases ih p hp with h | h
          · exact Or.inl (List.mem_cons_of_mem _ h)
          · exact Or.inr h

theorem setA_keys_nodup {α β : Type} [DecidableEq α] (l : List (α × β))
    (a : α) (b : β) (h : (l.map Prod.fst).Nodup) :
    ((setA l a b).map Prod.fst).Nodup := by
  by_cases hmem : a ∈ l.map Prod.fst
  · rw [setA_keys_present l a b hmem]
    exact h
  · rw [setA_keys_absent l a b hmem, List.map_append]
    refine List.Nodup.append h (by simp) ?_
    intro x hx
    simp only [List.map_cons, List.map_nil, List.mem_singleton]
    intro hxe
    subst hxe
    exact hmem hx

theorem moved_keys_sublist (l : List (PhysicalUser × FieldMask))
    (ov : FieldMask) :
    ((l.filterMap fun p =>
        if p.2 ∩ ov = ∅ then none else some (p.1, p.2 ∩ ov)).map
      Prod.fst).Sublist (l.map Prod.fst) := by
  induction l with
  | nil => simp
  | cons hd tl ih =>
      by_cases h : hd.2 ∩ ov = ∅
      · simp only [List.filterMap_cons, h, if_pos, List.map_cons]
        exact ih.trans (List.sublist_cons_self _ _)
      · simp only [List.filterMap_cons, h, if_neg, List.map_cons]
        exact ih.cons₂ hd.1

theorem sumMasks_moved (l : List (PhysicalUser × FieldMask)) (ov : FieldMask) :
    sumMasks (l.filterMap fun p =>
      if p.2 ∩ ov = ∅ then none else some (p.1, p.2 ∩ ov))
      = sumMasks l ∩ ov := by
  induction l with
  | nil => simp
  | cons hd tl ih =>
      by_cases h : hd.2 ∩ ov = ∅
      · simp only [List.filterMap_cons, h, if_pos, sumMasks_cons,
          Finset.union_inter_distrib_right, ih]
        simp
      · simp only [List.filterMap_cons, h, if_neg, if_false, eq_self_iff_true,
          sumMasks_cons, Finset.union_inter_distrib_right, ih]

theorem kept_keys_sublist (l : List (PhysicalUser × FieldMask))
    (ov : FieldMask) :
    (((l.map fun p => (p.1, p.2 \ ov)).filter fun p => p.2 ≠ ∅).map
      Prod.fst).Sublist (l.map Prod.fst) := by
  have h1 := List.filter_sublist (l := l.map fun p => (p.1, p.2 \ ov))
    (p := fun p => decide (p.2 ≠ ∅))
  have h2 := h1.map Prod.fst
  have h3 : ((l.map fun p => (p.1, p.2 \ ov)).map Prod.fst) = l.map Prod.fst := by
    rw [List.map_map]
    rfl
  rw [h3] at h2
  exact h2

theorem uid_mem_uids (eu : EventUsers) (hs : eu.single = false) (x : PhysicalUser)
    (hx : x ∈ eu.multi_users.map Prod.fst) : x.uid ∈ eu.uids := by
  unfold EventUsers.uids EventUsers.entries
  rw [hs]
  simp only [Bool.false_eq_true, if_false]
  rcases List.mem_map.mp hx with ⟨p, hp, hpe⟩
  exact List.mem_map.mpr ⟨p, hp, by rw [hpe]⟩

theorem uidsBelow_of_entries (eu : EventUsers) (n : Nat)
    (h : ∀ p ∈ eu.entries, p.1.uid < n) : eu.uidsBelow n := by
  intro x hx
  unfold EventUsers.uids at hx
  rcases List.mem_map.mp hx with ⟨p, hp, hpe⟩
  rw [← hpe]
  exact h p hp

theorem uid_below_of_key (eu : EventUsers) (n : Nat) (hs : eu.single = false)
    (hb : eu.uidsBelow n) (x : PhysicalUser)
    (hx : x ∈ eu.multi_users.map Prod.fst) : x.uid < n :=
  hb _ (uid_mem_uids eu hs x hx)

theorem uid_below_of_single (eu : EventUsers) (n : Nat) (u : PhysicalUser)
    (hs : eu.single = true) (hsu : eu.single_user = some u)
    (hb : eu.uidsBelow n) : u.uid < n := by
  refine hb _ ?_
  simp [EventUsers.uids, EventUsers.entries, hs, hsu]

theorem fcb_wf (cur prev : EventUsers) (ov : FieldMask) (n : Nat)
    (hcwf : cur.wf) (hpwf : prev.wf)
    (hsub : ov ⊆ cur.user_mask) (hne : ¬ov = ∅)
    (hcu : cur.uidsBelow n) (hpu : prev.uidsBelow n) :
    ((MaterializedView.filterCurrentBucket cur prev ov).1.wf ∧
     (MaterializedView.filterCurrentBucket cur prev ov).1.uidsBelow n) ∧
    (∀ b, (MaterializedView.filterCurrentBucket cur prev ov).2 = some b →
      b.wf ∧ b.uidsBelow n) := by
  by_cases hs : cur.single = true
  · cases hsu : cur.single_user with
    | none =>
        exfalso
        apply hne
        have hm : cur.user_mask = ∅ := by
          simpa [EventUsers.maskWf, EventUsers.entries, hs, hsu] using hcwf.1
        rw [hm] at hsub
        exact Finset.subset_empty.mp hsub
    | some user =>
        have huu : user.uid < n := uid_below_of_single cur n user hs hsu hcu
        have hsnd : ∀ b, (if cur.user_mask \ ov = ∅ then none
            else some { cur with user_mask := cur.user_mask \ ov }) = some b →
            b.wf ∧ b.uidsBelow n := by
          intro b hb
          by_cases hcm : cur.user_mask \ ov = ∅
          · rw [if_pos hcm] at hb
            exact Option.noConfusion hb
          · rw [if_neg hcm, Option.some_inj] at hb
            subst hb
            refine ⟨⟨?_, hcwf.2.1, fun _ => hcwf.2.2 hs⟩, ?_⟩
            · simp [EventUsers.maskWf, EventUsers.entries, hs, hsu]
            · refine uidsBelow_of_entries _ n ?_
              intro p hp
              simp only [EventUsers.entries, hs, if_true, hsu] at hp
              rw [List.mem_singleton.mp hp]
              exact huu
        by_cases hps : prev.single = true
        · cases hpsu : prev.single_user with
          | none =>
              have hpm : prev.user_mask = ∅ := by
                simpa [EventUsers.maskWf, EventUsers.entries, hps, hpsu]
                  using hpwf.1
              have hfcb : MaterializedView.filterCurrentBucket cur prev ov =
                  ({ prev with single_user := some user, user_mask := ov },
                   if cur.user_mask \ ov = ∅ then none
                   else some { cur with user_mask := cur.user_mask \ ov }) := by
                simp [MaterializedView.filterCurrentBucket, hs, hsu, hps, hpsu]
              rw [hfcb]
              refine ⟨⟨⟨?_, hpwf.2.1, fun _ => hpwf.2.2 hps⟩, ?_⟩, hsnd⟩
              · simp [EventUsers.maskWf, EventUsers.entries, hps]
              · refine uidsBelow_of_entries _ n ?_
                intro p hp
                simp only [EventUsers.entries, hps, if_true] at hp
                rw [List.mem_singleton.mp hp]
                exact huu
          | some pu =>
              have hpuu : pu.uid < n := uid_below_of_single prev n pu hps hpsu hpu
              by_cases hpue : pu = user
              · have hfcb : MaterializedView.filterCurrentBucket cur prev ov =
                    ({ prev with user_mask := prev.user_mask ∪ ov },
                     if cur.user_mask \ ov = ∅ then none
                     else some { cur with user_mask := cur.user_mask \ ov }) := by
                  simp [MaterializedView.filterCurrentBucket, hs, hsu, hps,
                    hpsu, hpue]
                rw [hfcb]
                refine ⟨⟨⟨?_, hpwf.2.1, fun _ => hpwf.2.2 hps⟩, ?_⟩, hsnd⟩
                · simp [EventUsers.maskWf, EventUsers.entries, hps, hpsu]
                · refine uidsBelow_of_entries _ n ?_
                  intro p hp
                  simp only [EventUsers.entries, hps, if_true, hpsu] at hp
                  rw [List.mem_singleton.mp hp]
                  exact hpuu
              · have hfcb : MaterializedView.filterCurrentBucket cur prev ov =
                    ({ single := false, single_user := none,
                       multi_users := [(pu, prev.user_mask), (user, ov)],
                       user_mask := prev.user_mask ∪ ov },
                     if cur.user_mask \ ov = ∅ then none
                     else some { cur with user_mask := cur.user_mask \ ov }) := by
                  simp [MaterializedView.filterCurrentBucket, hs, hsu, hps,
                    hpsu, hpue, setA]
                rw [hfcb]
                refine ⟨⟨⟨?_, ?_, fun h => by simp at h⟩, ?_⟩, hsnd⟩
                · simp [EventUsers.maskWf, EventUsers.entries,
                    Finset.union_assoc]
                · simp [hpue]
                · refine uidsBelow_of_entries _ n ?_
                  intro p hp
                  simp only [EventUsers.entries, if_false, Bool.false_eq_true,
                    List.mem_cons, List.mem_singleton, List.not_mem_nil] at hp
                  rcases hp with hp | hp
                  · rw [hp]
                    exact hpuu
                  · rcases hp with hp | hp
                    · rw [hp]
                      exact huu
                    · cases hp
        · have hps2 : prev.single = false := by
            cases h : prev.single
            · rfl
            · exact absurd h hps
          have hfcb : MaterializedView.filterCurrentBucket cur prev ov =
              ({ prev with
                   multi_users := mergeUserInto prev.multi_users user ov,
                   user_mask := prev.user_mask ∪ ov },
               if cur.user_mask \ ov = ∅ then none
               else some { cur with user_mask := cur.user_mask \ ov }) := by
            simp [MaterializedView.filterCurrentBucket, hs, hsu, hps2]
          have hpmm : prev.user_mask = sumMasks prev.multi_users := by
            simpa [EventUsers.maskWf, EventUsers.entries, hps2] using hpwf.1
          rw [hfcb]
          refine ⟨⟨⟨?_, mergeUserInto_keys_nodup _ _ _ hpwf.2.1,
            fun h => by rw [hps2] at h; cases h⟩, ?_⟩, hsnd⟩
          · simp only [EventUsers.maskWf, EventUsers.entries, hps2,
              Bool.false_eq_true, if_false]
            rw [mergeUserInto_sum, ← hpmm]
          · refine uidsBelow_of_entries _ n ?_
            intro p hp
            simp only [EventUsers.entries, hps2, Bool.false_eq_true,
              if_false] at hp
            rcases mergeUserInto_keys_subset prev.multi_users user ov p.1
              (List.mem_map_of_mem Prod.fst hp) with h | h
            · exact uid_below_of_key prev n hps2 hpu p.1 h
            · rw [h]
              exact huu
  · have hs2 : cur.single = false := by
      cases h : cur.single
      · rfl
      · exact absurd h hs
    have hmask : cur.user_mask = sumMasks cur.multi_users := by
      simpa [EventUsers.maskWf, EventUsers.entries, hs2] using hcwf.1
    by_cases hcm : cur.user_mask \ ov = ∅
    · have hoveq : sumMasks cur.multi_users = ov := by
        rw [← hmask]
        exact (Finset.Subset.antisymm hsub
          ((Finset.sdiff_eq_empty_iff_subset).mp hcm)).symm
      by_cases hps : prev.single = true
      · cases hpsu : prev.single_user with
        | none =>
            have hpm : prev.user_mask = ∅ := by
              simpa [EventUsers.maskWf, EventUsers.entries, hps, hpsu]
                using hpwf.1
            have hfcb : MaterializedView.filterCurrentBucket cur prev ov =
                ({ single := false, single_user := none,
                   multi_users := cur.multi_users,
                   user_mask := prev.user_mask ∪ ov }, none) := by
              simp [MaterializedView.filterCurrentBucket, hs2, hcm, hps, hpsu]
            rw [hfcb]
            refine ⟨⟨⟨?_, hcwf.2.1, fun h => by simp at h⟩, ?_⟩,
              fun b hb => Option.noConfusion hb⟩
            · simp [EventUsers.maskWf, EventUsers.entries, hpm, hoveq]
            · refine uidsBelow_of_entries _ n ?_
              intro p hp
              simp only [EventUsers.entries, Bool.false_eq_true, if_false] at hp
              exact uid_below_of_key cur n hs2 hcu p.1
                (List.mem_map_of_mem Prod.fst hp)
        | some pu =>
            have hpuu : pu.uid < n := uid_below_of_single prev n pu hps hpsu hpu
            have hfcb : MaterializedView.filterCurrentBucket cur prev ov =
                ({ single := false, single_user := none,
                   multi_users := mergeUserInto cur.multi_users pu prev.user_mask,
                   user_mask := prev.user_mask ∪ ov }, none) := by
              simp [MaterializedView.filterCurrentBucket, hs2, hcm, hps, hpsu]
            rw [hfcb]
            refine ⟨⟨⟨?_, mergeUserInto_keys_nodup _ _ _ hcwf.2.1,
              fun h => by simp at h⟩, ?_⟩, fun b hb => Option.noConfusion hb⟩
            · simp only [EventUsers.maskWf, EventUsers.entries,
                Bool.false_eq_true, if_false]
              rw [mergeUserInto_sum, hoveq, Finset.union_comm]
            · refine uidsBelow_of_entries _ n ?_
              intro p hp
              simp only [EventUsers.entries, Bool.false_eq_true, if_false] at hp
              rcases mergeUserInto_keys_subset cur.multi_users pu prev.user_mask
                p.1 (List.mem_map_of_mem Prod.fst hp) with h | h
              · exact uid_below_of_key cur n hs2 hcu p.1 h
              · rw [h]
                exact hpuu
      · have hps2 : prev.single = false := by
          cases h : prev.single
          · rfl
          · exact absurd h hps
        have hpmm : prev.user_mask = sumMasks prev.multi_users := by
          simpa [EventUsers.maskWf, EventUsers.entries, hps2] using hpwf.1
        have hfcb : MaterializedView.filterCurrentBucket cur prev ov =
            ({ prev with
                 multi_users := cur.multi_users.foldl
                   (fun acc p => mergeUserInto acc p.1 p.2) prev.multi_users,
                 user_mask := prev.user_mask ∪ ov }, none) := by
          simp [MaterializedView.filterCurrentBucket, hs2, hcm, hps2]
        rw [hfcb]
        refine ⟨⟨⟨?_, foldl_mergeUserInto_keys_nodup _ _ hpwf.2.1,
          fun h => by rw [hps2] at h; cases h⟩, ?_⟩,
          fun b hb => Option.noConfusion hb⟩
        · simp only [EventUsers.maskWf, EventUsers.entries, hps2,
            Bool.false_eq_true, if_false]
          rw [foldl_mergeUserInto_sum, ← hpmm, hoveq]
        · refine uidsBelow_of_entries _ n ?_
          intro p hp
          simp only [EventUsers.entries, hps2, Bool.false_eq_true,
            if_false] at hp
          rcases foldl_mergeUserInto_keys_subset cur.multi_users
            prev.multi_users p.1 (List.mem_map_of_mem Prod.fst hp) with h | h
          · exact uid_below_of_key prev n hps2 hpu p.1 h
          · exact uid_below_of_key cur n hs2 hcu p.1 h
    · have hsum : sumMasks ((cur.multi_users.map fun p => (p.1, p.2 \ ov)).filter
          fun p => p.2 ≠ ∅) = cur.user_mask \ ov := by
        rw [sumMasks_filter_ne, sumMasks_map_sdiff, ← hmask]
      have hovin : sumMasks cur.multi_users ∩ ov = ov := by
        rw [← hmask]
        exact Finset.inter_eq_right.mpr hsub
      have hmovedk : ∀ x, x ∈ ((cur.multi_users.filterMap fun p =>
          if p.2 ∩ ov = ∅ then none else some (p.1, p.2 ∩ ov)).map Prod.fst) →
          x ∈ cur.multi_users.map Prod.fst :=
        fun x hx => (moved_keys_sublist cur.multi_users ov).subset hx
      have hmovednd : ((cur.multi_users.filterMap fun p =>
          if p.2 ∩ ov = ∅ then none else some (p.1, p.2 ∩ ov)).map
            Prod.fst).Nodup :=
        (moved_keys_sublist cur.multi_users ov).nodup hcwf.2.1
      have hsnd : ∀ b, (MaterializedView.filterCurrentBucket cur prev ov).2
          = some b → b.wf ∧ b.uidsBelow n := by
        intro b hb
        have hb2 : (MaterializedView.filterCurrentBucket cur prev ov).2
            = some b := hb
        by_cases hps : prev.single = true
        · cases hpsu : prev.single_user with
          | none =>
              simp only [MaterializedView.filterCurrentBucket, hs2,
                Bool.false_eq_true, if_false, hcm, hps, hpsu, if_true,
                Option.some_inj] at hb2
              rw [← hb2]
              clear hb hb2
              split
              · rename_i hlen
                split
                · rename_i u m heq
                  have hm2 : (u, m) ∈ (cur.multi_users.map fun p =>
                      (p.1, p.2 \ ov)).filter fun p => p.2 ≠ ∅ := by
                    obtain ⟨a, ha⟩ := List.length_eq_one.mp hlen.2
                    rw [ha] at heq ⊢
                    simp only [List.head?_cons, Option.some_inj] at heq
                    rw [heq]
                    exact List.mem_singleton_self _
                  have hku : u ∈ cur.multi_users.map Prod.fst :=
                    (kept_keys_sublist cur.multi_users ov).subset
                      (List.mem_map_of_mem Prod.fst hm2)
                  refine ⟨⟨?_, by simp, fun _ => rfl⟩, ?_⟩
                  · simp [EventUsers.maskWf, EventUsers.entries]
                  · refine uidsBelow_of_entries _ n ?_
                    intro p hp
                    simp only [EventUsers.entries, if_true,
                      List.mem_singleton] at hp
                    rw [hp]
                    exact uid_below_of_key cur n hs2 hcu u hku
                · refine ⟨⟨?_, (kept_keys_sublist cur.multi_users ov).nodup
                    hcwf.2.1, fun h => by simp at h⟩, ?_⟩
                  · simp only [EventUsers.maskWf, EventUsers.entries, hs2,
                      Bool.false_eq_true, if_false]
                    rw [hsum]
                  · refine uidsBelow_of_entries _ n ?_
                    intro p hp
                    simp only [EventUsers.entries, hs2, Bool.false_eq_true,
                      if_false] at hp
                    exact uid_below_of_key cur n hs2 hcu p.1
                      ((kept_keys_sublist cur.multi_users ov).subset
                        (List.mem_map_of_mem Prod.fst hp))
              · refine ⟨⟨?_, (kept_keys_sublist cur.multi_users ov).nodup
                  hcwf.2.1, fun h => by simp at h⟩, ?_⟩
                · simp only [EventUsers.maskWf, EventUsers.entries, hs2,
                    Bool.false_eq_true, if_false]
                  rw [hsum]
                · refine uidsBelow_of_entries _ n ?_
                  intro p hp
                  simp only [EventUsers.entries, hs2, Bool.false_eq_true,
                    if_false] at hp
                  exact uid_below_of_key cur n hs2 hcu p.1
                    ((kept_keys_sublist cur.multi_users ov).subset
                      (List.mem_map_of_mem Prod.fst hp))
          | some pu =>
              simp only [MaterializedView.filterCurrentBucket, hs2,
                Bool.false_eq_true, if_false, hcm, hps, hpsu, if_true,
                Option.some_inj] at hb2
              rw [← hb2]
              clear hb hb2
              split
              · rename_i hlen
                split
                · rename_i u m heq
                  have hm2 : (u, m) ∈ (cur.multi_users.map fun p =>
                      (p.1, p.2 \ ov)).filter fun p => p.2 ≠ ∅ := by
                    obtain ⟨a, ha⟩ := List.length_eq_one.mp hlen.2
                    rw [ha] at heq ⊢
                    simp only [List.head?_cons, Option.some_inj] at heq
                    rw [heq]
                    exact List.mem_singleton_self _
                  have hku : u ∈ cur.multi_users.map Prod.fst :=
                    (kept_keys_sublist cur.multi_users ov).subset
                      (List.mem_map_of_mem Prod.fst hm2)
                  refine ⟨⟨?_, by simp, fun _ => rfl⟩, ?_⟩
                  · simp [EventUsers.maskWf, EventUsers.entries]
                  · refine uidsBelow_of_entries _ n ?_
                    intro p hp
                    simp only [EventUsers.entries, if_true,
                      List.mem_singleton] at hp
                    rw [hp]
                    exact uid_below_of_key cur n hs2 hcu u hku
                · refine ⟨⟨?_, (kept_keys_sublist cur.multi_users ov).nodup
                    hcwf.2.1, fun h => by simp at h⟩, ?_⟩
                  · simp only [EventUsers.maskWf, EventUsers.entries, hs2,
                      Bool.false_eq_true, if_false]
                    rw [hsum]
                  · refine uidsBelow_of_entries _ n ?_
                    intro p hp
                    simp only [EventUsers.entries, hs2, Bool.false_eq_true,
                      if_false] at hp
                    exact uid_below_of_key cur n hs2 hcu p.1
                      ((kept_keys_sublist cur.multi_users ov).subset
                        (List.mem_map_of_mem Prod.fst hp))
              · refine ⟨⟨?_, (kept_keys_sublist cur.multi_users ov).nodup
                  hcwf.2.1, fun h => by simp at h⟩, ?_⟩
                · simp only [EventUsers.maskWf, EventUsers.entries, hs2,
                    Bool.false_eq_true, if_false]
                  rw [hsum]
                · refine uidsBelow_of_entries _ n ?_
                  intro p hp
                  simp only [EventUsers.entries, hs2, Bool.false_eq_true,
                    if_false] at hp
                  exact uid_below_of_key cur n hs2 hcu p.1
                    ((kept_keys_sublist cur.multi_users ov).subset
                      (List.mem_map_of_mem Prod.fst hp))
        · have hps2 : prev.single = false := by
            cases h : prev.single
            · rfl
            · exact absurd h hps
          simp only [MaterializedView.filterCurrentBucket, hs2,
            Bool.false_eq_true, if_false, hcm, hps2, if_true,
            Option.some_inj] at hb2
          rw [← hb2]
          clear hb hb2
          split
          · rename_i hlen
            split
            · rename_i u m heq
              have hm2 : (u, m) ∈ (cur.multi_users.map fun p =>
                  (p.1, p.2 \ ov)).filter fun p => p.2 ≠ ∅ := by
                obtain ⟨a, ha⟩ := List.length_eq_one.mp hlen.2
                rw [ha] at heq ⊢
                simp only [List.head?_cons, Option.some_inj] at heq
                rw [heq]
                exact List.mem_singleton_self _
              have hku : u ∈ cur.multi_users.map Prod.fst :=
                (kept_keys_sublist cur.multi_users ov).subset
                  (List.mem_map_of_mem Prod.fst hm2)
              refine ⟨⟨?_, by simp, fun _ => rfl⟩, ?_⟩
              · simp [EventUsers.maskWf, EventUsers.entries]
              · refine uidsBelow_of_entries _ n ?_
                intro p hp
                simp only [EventUsers.entries, if_true,
                  List.mem_singleton] at hp
                rw [hp]
                exact uid_below_of_key cur n hs2 hcu u hku
            · refine ⟨⟨?_, (kept_keys_sublist cur.multi_users ov).nodup
                hcwf.2.1, fun h => by simp at h⟩, ?_⟩
              · simp only [EventUsers.maskWf, EventUsers.entries, hs2,
                  Bool.false_eq_true, if_false]
                rw [hsum]
              · refine uidsBelow_of_entries _ n ?_
                intro p hp
                simp only [EventUsers.entries, hs2, Bool.false_eq_true,
                  if_false] at hp
                exact uid_below_of_key cur n hs2 hcu p.1
                  ((kept_keys_sublist cur.multi_users ov).subset
                    (List.mem_map_of_mem Prod.fst hp))
          · refine ⟨⟨?_, (kept_keys_sublist cur.multi_users ov).nodup
              hcwf.2.1, fun h => by simp at h⟩, ?_⟩
            · simp only [EventUsers.maskWf, EventUsers.entries, hs2,
                Bool.false_eq_true, if_false]
              rw [hsum]
            · refine uidsBelow_of_entries _ n ?_
              intro p hp
              simp only [EventUsers.entries, hs2, Bool.false_eq_true,
                if_false] at hp
              exact uid_below_of_key cur n hs2 hcu p.1
                ((kept_keys_sublist cur.multi_users ov).subset
                  (List.mem_map_of_mem Prod.fst hp))
      refine ⟨?_, hsnd⟩
      by_cases hps : prev.single = true
      · cases hpsu : prev.single_user with
        | none =>
            have hpm : prev.user_mask = ∅ := by
              simpa [EventUsers.maskWf, EventUsers.entries, hps, hpsu]
                using hpwf.1
            have hfcb1 : (MaterializedView.filterCurrentBucket cur prev ov).1 =
                { single := false, single_user := none,
                  multi_users := cur.multi_users.filterMap fun p =>
                    if p.2 ∩ ov = ∅ then none else some (p.1, p.2 ∩ ov),
                  user_mask := prev.user_mask ∪ ov } := by
              simp [MaterializedView.filterCurrentBucket, hs2, hcm, hps, hpsu]
            rw [hfcb1]
            refine ⟨⟨?_, hmovednd, fun h => by simp at h⟩, ?_⟩
            · simp only [EventUsers.maskWf, EventUsers.entries,
                Bool.false_eq_true, if_false]
              rw [sumMasks_moved, hovin, hpm]
              simp
            · refine uidsBelow_of_entries _ n ?_
              intro p hp
              simp only [EventUsers.entries, Bool.false_eq_true, if_false] at hp
              exact uid_below_of_key cur n hs2 hcu p.1
                (hmovedk p.1 (List.mem_map_of_mem Prod.fst hp))
        | some pu =>
            have hpuu : pu.uid < n := uid_below_of_single prev n pu hps hpsu hpu
            have hfcb1 : (MaterializedView.filterCurrentBucket cur prev ov).1 =
                { single := false, single_user := none,
                  multi_users := mergeUserInto
                    (cur.multi_users.filterMap fun p =>
                      if p.2 ∩ ov = ∅ then none else some (p.1, p.2 ∩ ov))
                    pu prev.user_mask,
                  user_mask := prev.user_mask ∪ ov } := by
              simp [MaterializedView.filterCurrentBucket, hs2, hcm, hps, hpsu]
            rw [hfcb1]
            refine ⟨⟨?_, mergeUserInto_keys_nodup _ _ _ hmovednd,
              fun h => by simp at h⟩, ?_⟩
            · simp only [EventUsers.maskWf, EventUsers.entries,
                Bool.false_eq_true, if_false]
              rw [mergeUserInto_sum, sumMasks_moved, hovin, Finset.union_comm]
            · refine uidsBelow_of_entries _ n ?_
              intro p hp
              simp only [EventUsers.entries, Bool.false_eq_true, if_false] at hp
              rcases mergeUserInto_keys_subset _ pu prev.user_mask p.1
                (List.mem_map_of_mem Prod.fst hp) with h | h
              · exact uid_below_of_key cur n hs2 hcu p.1 (hmovedk p.1 h)
              · rw [h]
                exact hpuu
      · have hps2 : prev.single = false := by
          cases h : prev.single
          · rfl
          · exact absurd h hps
        have hpmm : prev.user_mask = sumMasks prev.multi_users := by
          simpa [EventUsers.maskWf, EventUsers.entries, hps2] using hpwf.1
        have hfcb1 : (MaterializedView.filterCurrentBucket cur prev ov).1 =
            { prev with
                multi_users := (cur.multi_users.filterMap fun p =>
                    if p.2 ∩ ov = ∅ then none
                    else some (p.1, p.2 ∩ ov)).foldl
                  (fun acc p => mergeUserInto acc p.1 p.2) prev.multi_users,
                user_mask := prev.user_mask ∪ ov } := by
          simp [MaterializedView.filterCurrentBucket, hs2, hcm, hps2]
        rw [hfcb1]
        refine ⟨⟨?_, foldl_mergeUserInto_keys_nodup _ _ hpwf.2.1,
          fun h => by rw [hps2] at h; cases h⟩, ?_⟩
        · simp only [EventUsers.maskWf, EventUsers.entries, hps2,
            Bool.false_eq_true, if_false]
          rw [foldl_mergeUserInto_sum, sumMasks_moved, hovin, ← hpmm]
        · refine uidsBelow_of_entries _ n ?_
          intro p hp
          simp only [EventUsers.entries, hps2, Bool.false_eq_true,
            if_false] at hp
          rcases foldl_mergeUserInto_keys_subset _ prev.multi_users p.1
            (List.mem_map_of_mem Prod.fst hp) with h | h
          · exact uid_below_of_key prev n hps2 hpu p.1 h
          · exact uid_below_of_key cur n hs2 hcu p.1 (hmovedk p.1 h)

theorem uidsBelow_mono (eu : EventUsers) (b b2 : Nat) (h : eu.uidsBelow b)
    (hbb : b ≤ b2) : eu.uidsBelow b2 :=
  fun x hx => lt_of_lt_of_le (h x hx) hbb

theorem addUser_table_wf (tbl : List (Event × EventUsers)) (e : Event)
    (u : PhysicalUser) (m : FieldMask) (b b2 : Nat)
    (htb : ∀ p ∈ tbl, p.2.wf ∧ p.2.uidsBelow b)
    (hnd : (tbl.map Prod.fst).Nodup)
    (hb : b ≤ u.uid) (hub : u.uid < b2) (hbb : b ≤ b2) :
    (∀ p ∈ setA tbl e (((lookupA tbl e).getD emptyEU).addUser u m),
      p.2.wf ∧ p.2.uidsBelow b2) ∧
    ((setA tbl e (((lookupA tbl e).getD emptyEU).addUser u m)).map
      Prod.fst).Nodup := by
  have heu : (((lookupA tbl e).getD emptyEU)).wf ∧
      (((lookupA tbl e).getD emptyEU)).uidsBelow b := by
    cases hl : lookupA tbl e with
    | none => exact ⟨emptyEU_wf, by intro x hx; simp [emptyEU,
        EventUsers.uids, EventUsers.entries] at hx⟩
    | some v => exact htb (e, v) (lookupA_mem tbl e v hl)
  have hfresh : u.uid ∉ ((lookupA tbl e).getD emptyEU).uids := by
    intro hx
    exact absurd (heu.2 u.uid hx) (not_lt.mpr hb)
  obtain ⟨hent, hwf2⟩ := EventUsers.addUser_entries_fresh
    ((lookupA tbl e).getD emptyEU) u m heu.1 hfresh
  have hbel2 : (((lookupA tbl e).getD emptyEU).addUser u m).uidsBelow b2 := by
    refine uidsBelow_of_entries _ b2 ?_
    intro p hp
    rw [hent] at hp
    rcases List.mem_append.mp hp with hp | hp
    · refine lt_of_lt_of_le ?_ hbb
      refine heu.2 p.1.uid ?_
      exact List.mem_map.mpr ⟨p, hp, rfl⟩
    · rw [List.mem_singleton.mp hp]
      exact hub
  refine ⟨?_, setA_keys_nodup tbl e _ hnd⟩
  intro p hp
  rcases setA_mem_cases tbl e _ p hp with h | h
  · obtain ⟨hw, hbel⟩ := htb p h
    exact ⟨hw, uidsBelow_mono _ b b2 hbel hbb⟩
  · rw [h]
    exact ⟨hwf2, hbel2⟩

theorem mv_filter_local_wf (s : MaterializedView.State) (e : Event)
    (h : MaterializedView.StateWf s) :
    MaterializedView.StateWf (MaterializedView.filter_local_users s e) := by
  unfold MaterializedView.filter_local_users
  by_cases hmem : e ∈ s.outstanding_gc_events
  · rw [if_pos hmem]
    obtain ⟨h1, h2, h3, h4⟩ := h
    refine ⟨?_, ?_, eraseA_keys_nodup _ _ h3, eraseA_keys_nodup _ _ h4⟩
    · intro p hp
      exact h1 p (mem_of_mem_eraseA _ _ p hp)
    · intro p hp
      exact h2 p (mem_of_mem_eraseA _ _ p hp)
  · rw [if_neg hmem]
    exact h

theorem rv_filter_local_wf (s : ReductionView.State) (e : Event)
    (h : ReductionView.StateWf s) :
    ReductionView.StateWf (ReductionView.filter_local_users s e) := by
  unfold ReductionView.filter_local_users
  by_cases hmem : e ∈ s.outstanding_gc_events
  · rw [if_pos hmem]
    obtain ⟨h1, h2, h3, h4⟩ := h
    refine ⟨?_, ?_, eraseA_keys_nodup _ _ h3, eraseA_keys_nodup _ _ h4⟩
    · intro p hp
      exact h1 p (mem_of_mem_eraseA _ _ p hp)
    · intro p hp
      exact h2 p (mem_of_mem_eraseA _ _ p hp)
  · rw [if_neg hmem]
    exact h

theorem fpb_wf (eu : EventUsers) (f : FieldMask) (n : Nat)
    (hwf : eu.wf) (hb : eu.uidsBelow n) :
    ∀ eu2, MaterializedView.filterPreviousBucket eu f = some eu2 →
      eu2.wf ∧ eu2.uidsBelow n := by
  intro eu2 h2
  by_cases hm2 : eu.user_mask \ f = ∅
  · rw [show MaterializedView.filterPreviousBucket eu f = none from by
      simp [MaterializedView.filterPreviousBucket, hm2]] at h2
    exact Option.noConfusion h2
  · by_cases hs : eu.single = true
    · cases hsu : eu.single_user with
      | none =>
          exfalso
          apply hm2
          have : eu.user_mask = ∅ := by
            simpa [EventUsers.maskWf, EventUsers.entries, hs, hsu] using hwf.1
          rw [this]
          simp
      | some su =>
          rw [show MaterializedView.filterPreviousBucket eu f
              = some { eu with user_mask := eu.user_mask \ f } from by
            simp [MaterializedView.filterPreviousBucket, hm2, hs],
            Option.some_inj] at h2
          rw [← h2]
          refine ⟨⟨?_, hwf.2.1, fun _ => hwf.2.2 hs⟩, ?_⟩
          · simp [EventUsers.maskWf, EventUsers.entries, hs, hsu]
          · refine uidsBelow_of_entries _ n ?_
            intro p hp
            simp only [EventUsers.entries, hs, if_true, hsu,
              List.mem_singleton] at hp
            rw [hp]
            exact uid_below_of_single eu n su hs hsu hb
    · have hs2 : eu.single = false := by
        cases h : eu.single
        · rfl
        · exact absurd h hs
      have hmm : eu.user_mask = sumMasks eu.multi_users := by
        simpa [EventUsers.maskWf, EventUsers.entries, hs2] using hwf.1
      have hsum2 : sumMasks ((eu.multi_users.map fun p => (p.1, p.2 \ f)).filter
          fun p => p.2 ≠ ∅) = eu.user_mask \ f := by
        rw [sumMasks_filter_ne, sumMasks_map_sdiff, ← hmm]
      have hkwf : ∀ x ∈ (((eu.multi_users.map fun p => (p.1, p.2 \ f)).filter
          fun p => p.2 ≠ ∅).map Prod.fst), x ∈ eu.multi_users.map Prod.fst :=
        fun x hx => (kept_keys_sublist eu.multi_users f).subset hx
      have hsubnd : (((eu.multi_users.map fun p => (p.1, p.2 \ f)).map
          Prod.fst)).Nodup := by
        rw [List.map_map]
        exact hwf.2.1
      simp only [MaterializedView.filterPreviousBucket, hm2, if_false, hs2,
        Bool.false_eq_true, if_true, eq_self_iff_true] at h2
      split at h2
      · rw [Option.some_inj] at h2
        rw [← h2]
        refine ⟨⟨?_, hsubnd, fun h => by simp at h⟩, ?_⟩
        · simp only [EventUsers.maskWf, EventUsers.entries,
            Bool.false_eq_true, if_false]
          rw [sumMasks_map_sdiff, ← hmm]
        · refine uidsBelow_of_entries _ n ?_
          intro p hp
          simp only [EventUsers.entries, Bool.false_eq_true, if_false] at hp
          rcases List.mem_map.mp hp with ⟨q, hq, hqe⟩
          have hpq : p.1 = q.1 := by rw [← hqe]
          rw [hpq]
          exact uid_below_of_key eu n hs2 hb q.1
            (List.mem_map_of_mem Prod.fst hq)
      · split at h2
        · split at h2
          · rename_i u mk heq
            rw [Option.some_inj] at h2
            rw [← h2]
            have hmh : (u, mk) ∈ (eu.multi_users.map fun p =>
                (p.1, p.2 \ f)).filter fun p => p.2 ≠ ∅ :=
              List.mem_of_mem_head? (by rw [heq]; rfl)
            refine ⟨⟨?_, by simp, fun _ => rfl⟩, ?_⟩
            · simp [EventUsers.maskWf, EventUsers.entries]
            · refine uidsBelow_of_entries _ n ?_
              intro p hp
              simp only [EventUsers.entries, if_true, List.mem_singleton] at hp
              rw [hp]
              exact uid_below_of_key eu n hs2 hb u
                (hkwf u (List.mem_map_of_mem Prod.fst hmh))
          · rw [Option.some_inj] at h2
            rw [← h2]
            refine ⟨⟨?_, (kept_keys_sublist eu.multi_users f).nodup hwf.2.1,
              fun h => by simp at h⟩, ?_⟩
            · simp only [EventUsers.maskWf, EventUsers.entries,
                Bool.false_eq_true, if_false]
              rw [hsum2]
            · refine uidsBelow_of_entries _ n ?_
              intro p hp
              simp only [EventUsers.entries, Bool.false_eq_true,
                if_false] at hp
              exact uid_below_of_key eu n hs2 hb p.1
                (hkwf p.1 (List.mem_map_of_mem Prod.fst hp))
        · rw [Option.some_inj] at h2
          rw [← h2]
          refine ⟨⟨?_, (kept_keys_sublist eu.multi_users f).nodup hwf.2.1,
            fun h => by simp at h⟩, ?_⟩
          · simp only [EventUsers.maskWf, EventUsers.entries,
              Bool.false_eq_true, if_false]
            rw [hsum2]
          · refine uidsBelow_of_entries _ n ?_
            intro p hp
            simp only [EventUsers.entries, Bool.false_eq_true,
              if_false] at hp
            exact uid_below_of_key eu n hs2 hb p.1
              (hkwf p.1 (List.mem_map_of_mem Prod.fst hp))

theorem filter_previous_users_wf (s : MaterializedView.State)
    (fp : List (Event × FieldMask)) (h : MaterializedView.StateWf s) :
    MaterializedView.StateWf (MaterializedView.filter_previous_users s fp) := by
  unfold MaterializedView.filter_previous_users
  refine foldl_preserves _ (fun st => st.current_epoch_users
      = s.current_epoch_users ∧ st.next_uid = s.next_uid ∧
      MaterializedView.StateWf st) ?_ fp s ⟨rfl, rfl, h⟩ |>.2.2
  intro st a hst
  obtain ⟨hc, hn, h1, h2, h3, h4⟩ := hst
  cases hl : lookupA st.previous_epoch_users a.1 with
  | none => exact ⟨hc, hn, h1, h2, h3, h4⟩
  | some eu =>
      have heu := h2 (a.1, eu) (lookupA_mem _ _ _ hl)
      cases hf : MaterializedView.filterPreviousBucket eu a.2 with
      | none =>
          simp only [hl, hf]
          refine ⟨hc, hn, h1, ?_, h3, eraseA_keys_nodup _ _ h4⟩
          intro p hp
          exact h2 p (mem_of_mem_eraseA _ _ p hp)
      | some eu2 =>
          simp only [hl, hf]
          obtain ⟨hw2, hb2⟩ := fpb_wf eu a.2 st.next_uid heu.1 heu.2 eu2 hf
          refine ⟨hc, hn, h1, ?_, h3, setA_keys_nodup _ _ _ h4⟩
          intro p hp
          rcases setA_mem_cases _ _ _ p hp with hm | hm
          · exact h2 p hm
          · rw [hm]
            exact ⟨hw2, hb2⟩

theorem fcu_fold_wf (ctx : ExternalCtx) (dominated : FieldMask) (b : Nat) :
    ∀ (l : List (Event × EventUsers))
      (acc : List (Event × EventUsers) × List (Event × EventUsers)),
      (∀ p ∈ l, p.2.wf ∧ p.2.uidsBelow b) →
      ((l.map Prod.fst).Nodup) →
      (∀ p ∈ acc.1, p.2.wf ∧ p.2.uidsBelow b) →
      ((acc.1.map Prod.fst).Nodup) →
      (∀ x ∈ acc.1.map Prod.fst, x ∉ l.map Prod.fst) →
      (∀ p ∈ acc.2, p.2.wf ∧ p.2.uidsBelow b) →
      ((acc.2.map Prod.fst).Nodup) →
      (∀ p ∈ (l.foldl (MaterializedView.fcuStep ctx dominated) acc).1,
        p.2.wf ∧ p.2.uidsBelow b) ∧
      (((l.foldl (MaterializedView.fcuStep ctx dominated) acc).1.map
        Prod.fst).Nodup) ∧
      (∀ p ∈ (l.foldl (MaterializedView.fcuStep ctx dominated) acc).2,
        p.2.wf ∧ p.2.uidsBelow b) ∧
      (((l.foldl (MaterializedView.fcuStep ctx dominated) acc).2.map
        Prod.fst).Nodup) := by
  intro l
  induction l with
  | nil => intro acc _ _ h1 h1nd _ h2 h2nd; exact ⟨h1, h1nd, h2, h2nd⟩
  | cons hd tl ih =>
      intro acc hl hlnd h1 h1nd hdisj h2 h2nd
      have hhd := hl hd (List.mem_cons_self _ _)
      have hltl : ∀ p ∈ tl, p.2.wf ∧ p.2.uidsBelow b :=
        fun p hp => hl p (List.mem_cons_of_mem _ hp)
      have hndc : hd.1 ∉ tl.map Prod.fst ∧ (tl.map Prod.fst).Nodup := by
        rw [List.map_cons] at hlnd
        exact ⟨(List.nodup_cons.mp hlnd).1, (List.nodup_cons.mp hlnd).2⟩
      rw [List.foldl_cons]
      by_cases ht : ctx.has_triggered hd.1 = true
      · rw [show MaterializedView.fcuStep ctx dominated acc hd = acc from by
          simp [MaterializedView.fcuStep, ht]]
        refine ih acc hltl hndc.2 h1 h1nd ?_ h2 h2nd
        intro x hx hxm
        exact hdisj x hx (by rw [List.map_cons]; exact List.mem_cons_of_mem _ hxm)
      · by_cases hov : hd.2.user_mask ∩ dominated = ∅
        · rw [show MaterializedView.fcuStep ctx dominated acc hd
              = (acc.1 ++ [hd], acc.2) from by
            simp [MaterializedView.fcuStep, ht, hov]]
          refine ih (acc.1 ++ [hd], acc.2) hltl hndc.2 ?_ ?_ ?_ h2 h2nd
          · intro p hp
            rcases List.mem_append.mp hp with hp | hp
            · exact h1 p hp
            · rw [List.mem_singleton.mp hp]
              exact hhd
          · rw [List.map_append]
            refine List.Nodup.append h1nd (by simp) ?_
            intro x hx
            simp only [List.map_cons, List.map_nil, List.mem_singleton]
            intro hxe
            exact hdisj x hx
              (by rw [List.map_cons, hxe]; exact List.mem_cons_self _ _)
          · intro x hx hxm
            rw [List.map_append] at hx
            rcases List.mem_append.mp hx with hx | hx
            · exact hdisj x hx
                (by rw [List.map_cons]; exact List.mem_cons_of_mem _ hxm)
            · simp only [List.map_cons, List.map_nil, List.mem_singleton] at hx
              rw [hx] at hxm
              exact hndc.1 hxm
        · have hprev : (((lookupA acc.2 hd.1).getD emptyEU)).wf ∧
              (((lookupA acc.2 hd.1).getD emptyEU)).uidsBelow b := by
            cases hlk : lookupA acc.2 hd.1 with
            | none => exact ⟨emptyEU_wf, by intro x hx; simp [emptyEU,
                EventUsers.uids, EventUsers.entries] at hx⟩
            | some v => exact h2 (hd.1, v) (lookupA_mem _ _ _ hlk)
          have hfw := fcb_wf hd.2 ((lookupA acc.2 hd.1).getD emptyEU)
            (hd.2.user_mask ∩ dominated) b hhd.1 hprev.1
            Finset.inter_subset_left hov hhd.2 hprev.2
          have hacc2 : (∀ p ∈ setA acc.2 hd.1
              (MaterializedView.filterCurrentBucket hd.2
                ((lookupA acc.2 hd.1).getD emptyEU)
                (hd.2.user_mask ∩ dominated)).1, p.2.wf ∧ p.2.uidsBelow b) ∧
              ((setA acc.2 hd.1 (MaterializedView.filterCurrentBucket hd.2
                ((lookupA acc.2 hd.1).getD emptyEU)
                (hd.2.user_mask ∩ dominated)).1).map Prod.fst).Nodup := by
            refine ⟨?_, setA_keys_nodup _ _ _ h2nd⟩
            intro p hp
            rcases setA_mem_cases _ _ _ p hp with hm | hm
            · exact h2 p hm
            · rw [hm]
              exact hfw.1
          cases hres : (MaterializedView.filterCurrentBucket hd.2
              ((lookupA acc.2 hd.1).getD emptyEU)
              (hd.2.user_mask ∩ dominated)).2 with
          | none =>
              rw [show MaterializedView.fcuStep ctx dominated acc hd
                  = (acc.1, setA acc.2 hd.1
                    (MaterializedView.filterCurrentBucket hd.2
                      ((lookupA acc.2 hd.1).getD emptyEU)
                      (hd.2.user_mask ∩ dominated)).1) from by
                simp [MaterializedView.fcuStep, ht, hov, hres]]
              refine ih _ hltl hndc.2 h1 h1nd ?_ hacc2.1 hacc2.2
              intro x hx hxm
              exact hdisj x hx
                (by rw [List.map_cons]; exact List.mem_cons_of_mem _ hxm)
          | some nb =>
              rw [show MaterializedView.fcuStep ctx dominated acc hd
                  = (acc.1 ++ [(hd.1, nb)], setA acc.2 hd.1
                    (MaterializedView.filterCurrentBucket hd.2
                      ((lookupA acc.2 hd.1).getD emptyEU)
                      (hd.2.user_mask ∩ dominated)).1) from by
                simp [MaterializedView.fcuStep, ht, hov, hres]]
              refine ih _ hltl hndc.2 ?_ ?_ ?_ hacc2.1 hacc2.2
              · intro p hp
                rcases List.mem_append.mp hp with hp | hp
                · exact h1 p hp
                · rw [List.mem_singleton.mp hp]
                  exact hfw.2 nb hres
              · rw [List.map_append]
                refine List.Nodup.append h1nd (by simp) ?_
                intro x hx
                simp only [List.map_cons, List.map_nil, List.mem_singleton]
                intro hxe
                exact hdisj x hx
                  (by rw [List.map_cons, hxe]; exact List.mem_cons_self _ _)
              · intro x hx hxm
                rw [List.map_append] at hx
                rcases List.mem_append.mp hx with hx | hx
                · exact hdisj x hx
                    (by rw [List.map_cons]; exact List.mem_cons_of_mem _ hxm)
                · simp only [List.map_cons, List.map_nil,
                    List.mem_singleton] at hx
                  rw [hx] at hxm
                  exact hndc.1 hxm

theorem filter_current_users_wf (ctx : ExternalCtx)
    (s : MaterializedView.State) (dominated : FieldMask)
    (h : MaterializedView.StateWf s) :
    MaterializedView.StateWf
      (MaterializedView.filter_current_users ctx s dominated) := by
  obtain ⟨h1, h2, h3, h4⟩ := h
  have := fcu_fold_wf ctx dominated s.next_uid s.current_epoch_users
    ([], s.previous_epoch_users) h1 h3 (by intro p hp; cases hp) (by simp)
    (by intro x hx; cases hx) h2 h4
  exact ⟨this.1, this.2.2.1, this.2.1, this.2.2.2⟩

theorem mv_tail_wf (ctx : ExternalCtx) (s : MaterializedView.State)
    (dead : List Event) (fp : List (Event × FieldMask)) (dom : FieldMask)
    (h : MaterializedView.StateWf s) :
    MaterializedView.StateWf
      (if dom ≠ ∅ then
        MaterializedView.filter_current_users ctx
          (if fp ≠ [] then
            MaterializedView.filter_previous_users
              (dead.foldl (fun st e => MaterializedView.filter_local_users st e) s) fp
           else dead.foldl (fun st e => MaterializedView.filter_local_users st e) s)
          dom
       else if fp ≠ [] then
        MaterializedView.filter_previous_users
          (dead.foldl (fun st e => MaterializedView.filter_local_users st e) s) fp
       else dead.foldl (fun st e => MaterializedView.filter_local_users st e) s) := by
  have h1 : MaterializedView.StateWf
      (dead.foldl (fun st e => MaterializedView.filter_local_users st e) s) := by
    refine foldl_preserves _ MaterializedView.StateWf ?_ dead s h
    intro st e hst
    exact mv_filter_local_wf st e hst
  have h2 : MaterializedView.StateWf
      (if fp ≠ [] then
        MaterializedView.filter_previous_users
          (dead.foldl (fun st e => MaterializedView.filter_local_users st e) s) fp
       else dead.foldl (fun st e => MaterializedView.filter_local_users st e) s) := by
    split
    · exact filter_previous_users_wf _ fp h1
    · exact h1
  split
  · exact filter_current_users_wf ctx _ dom h2
  · exact h2

theorem add_current_user_fresh_wf (s : MaterializedView.State)
    (u : PhysicalUser) (e : Event) (m : FieldMask)
    (h : MaterializedView.StateWf s) (hu : u.uid = s.next_uid) :
    MaterializedView.StateWf (MaterializedView.add_current_user
      { s with next_uid := s.next_uid + 1 } u e m) := by
  obtain ⟨h1, h2, h3, h4⟩ := h
  unfold MaterializedView.add_current_user
  obtain ⟨ha, hb⟩ := addUser_table_wf s.current_epoch_users e u m s.next_uid
    (s.next_uid + 1) h1 h3 (by rw [hu]) (by rw [hu]; exact Nat.lt_succ_self _)
    (Nat.le_succ _)
  exact ⟨ha, fun p hp => ⟨(h2 p hp).1,
    uidsBelow_mono _ _ _ (h2 p hp).2 (Nat.le_succ _)⟩, hb, h4⟩

theorem add_local_user_wf (ctx : ExternalCtx) (s : MaterializedView.State)
    (usage : RegionUsage) (term : Event) (base : Bool) (child : ColorPoint)
    (vi : FieldVersions) (mask : FieldMask) (pre0 : Finset Event)
    (h : MaterializedView.StateWf s) :
    MaterializedView.StateWf
      (MaterializedView.add_local_user ctx s usage term base child vi mask
        pre0).2.2 := by
  have hA : ∀ dead : List Event, MaterializedView.StateWf
      (dead.foldl (fun st e => MaterializedView.filter_local_users st e) s) := by
    intro dead
    refine foldl_preserves _ MaterializedView.StateWf ?_ dead s h
    intro st e hst
    exact mv_filter_local_wf st e hst
  have hB : ∀ (dead : List Event) (fp : List (Event × FieldMask)),
      MaterializedView.StateWf (MaterializedView.filter_previous_users
        (dead.foldl (fun st e => MaterializedView.filter_local_users st e) s)
        fp) :=
    fun dead fp => filter_previous_users_wf _ fp (hA dead)
  have hC1 : ∀ (dead : List Event) (fp : List (Event × FieldMask))
      (dom : FieldMask),
      MaterializedView.StateWf (MaterializedView.filter_current_users ctx
        (MaterializedView.filter_previous_users
          (dead.foldl (fun st e => MaterializedView.filter_local_users st e) s)
          fp) dom) :=
    fun dead fp dom => filter_current_users_wf ctx _ dom (hB dead fp)
  have hC2 : ∀ (dead : List Event) (dom : FieldMask),
      MaterializedView.StateWf (MaterializedView.filter_current_users ctx
        (dead.foldl (fun st e => MaterializedView.filter_local_users st e) s)
        dom) :=
    fun dead dom => filter_current_users_wf ctx _ dom (hA dead)
  unfold MaterializedView.add_local_user
  dsimp only
  repeat' split
  all_goals
    first
      | exact hA _
      | exact hB _ _
      | exact hC1 _ _ _
      | exact hC2 _ _
      | (refine add_current_user_fresh_wf _ _ _ _ (hC1 _ _ _) ?_ ; rfl)
      | (refine add_current_user_fresh_wf _ _ _ _ (hC2 _ _) ?_ ; rfl)
      | (refine add_current_user_fresh_wf _ _ _ _ (hB _ _) ?_ ; rfl)
      | (refine add_current_user_fresh_wf _ _ _ _ (hA _) ?_ ; rfl)
      | exact h

theorem find_local_copy_wf (ctx : ExternalCtx) (s : MaterializedView.State)
    (redop : Nat) (reading : Bool) (copy_mask : FieldMask)
    (child : ColorPoint) (vi : FieldVersions)
    (pre0 : List (Event × FieldMask)) (h : MaterializedView.StateWf s) :
    MaterializedView.StateWf
      (MaterializedView.find_local_copy_preconditions ctx s redop reading
        copy_mask child vi pre0).2 := by
  have hA : ∀ dead : List Event, MaterializedView.StateWf
      (dead.foldl (fun st e => MaterializedView.filter_local_users st e) s) := by
    intro dead
    refine foldl_preserves _ MaterializedView.StateWf ?_ dead s h
    intro st e hst
    exact mv_filter_local_wf st e hst
  have hB : ∀ (dead : List Event) (fp : List (Event × FieldMask)),
      MaterializedView.StateWf (MaterializedView.filter_previous_users
        (dead.foldl (fun st e => MaterializedView.filter_local_users st e) s)
        fp) :=
    fun dead fp => filter_previous_users_wf _ fp (hA dead)
  have hC1 : ∀ (dead : List Event) (fp : List (Event × FieldMask))
      (dom : FieldMask),
      MaterializedView.StateWf (MaterializedView.filter_current_users ctx
        (MaterializedView.filter_previous_users
          (dead.foldl (fun st e => MaterializedView.filter_local_users st e) s)
          fp) dom) :=
    fun dead fp dom => filter_current_users_wf ctx _ dom (hB dead fp)
  have hC2 : ∀ (dead : List Event) (dom : FieldMask),
      MaterializedView.StateWf (MaterializedView.filter_current_users ctx
        (dead.foldl (fun st e => MaterializedView.filter_local_users st e) s)
        dom) :=
    fun dead dom => filter_current_users_wf ctx _ dom (hA dead)
  unfold MaterializedView.find_local_copy_preconditions
  dsimp only
  repeat' split
  all_goals
    first
      | exact hA _
      | exact hB _ _
      | exact hC1 _ _ _
      | exact hC2 _ _
      | (refine add_current_user_fresh_wf _ _ _ _ (hC1 _ _ _) ?_ ; rfl)
      | (refine add_current_user_fresh_wf _ _ _ _ (hC2 _ _) ?_ ; rfl)
      | (refine add_current_user_fresh_wf _ _ _ _ (hB _ _) ?_ ; rfl)
      | (refine add_current_user_fresh_wf _ _ _ _ (hA _) ?_ ; rfl)
      | exact h

theorem add_local_copy_user_wf (s : MaterializedView.State)
    (usage : RegionUsage) (copy_term : Event) (base : Bool)
    (child : ColorPoint) (vi : FieldVersions) (copy_mask : FieldMask)
    (h : MaterializedView.StateWf s) :
    MaterializedView.StateWf
      (MaterializedView.add_local_copy_user s usage copy_term base child vi
        copy_mask).2 := by
  unfold MaterializedView.add_local_copy_user
  dsimp only
  refine add_current_user_fresh_wf s _ copy_term copy_mask h ?_
  rfl

theorem mv_add_copy_user_wf (s : MaterializedView.State) (redop : Nat)
    (copy_term : Event) (vi : FieldVersions) (copy_mask : FieldMask)
    (reading : Bool) (h : MaterializedView.StateWf s) :
    MaterializedView.StateWf
      (MaterializedView.add_copy_user s redop copy_term vi copy_mask
        reading).2 := by
  unfold MaterializedView.add_copy_user
  dsimp only
  split
  · exact add_local_copy_user_wf s _ copy_term true none vi copy_mask h
  · exact h

theorem mv_add_user_wf (ctx : ExternalCtx) (use : Event)
    (s : MaterializedView.State) (usage : RegionUsage) (term : Event)
    (mask : FieldMask) (vi : FieldVersions) (h : MaterializedView.StateWf s) :
    MaterializedView.StateWf
      (MaterializedView.add_user ctx use s usage term mask vi).2.2 :=
  add_local_user_wf ctx s usage term true none vi mask _ h

theorem add_physical_user_fresh_wf (s : ReductionView.State)
    (u : PhysicalUser) (reading : Bool) (e : Event) (m : FieldMask)
    (b b2 : Nat)
    (h1 : ∀ p ∈ s.reduction_users, p.2.wf ∧ p.2.uidsBelow b)
    (h2 : ∀ p ∈ s.reading_users, p.2.wf ∧ p.2.uidsBelow b)
    (h3 : (s.reduction_users.map Prod.fst).Nodup)
    (h4 : (s.reading_users.map Prod.fst).Nodup)
    (hb : b ≤ u.uid) (hub : u.uid < b2) (hbb : b ≤ b2) :
    (∀ p ∈ (ReductionView.add_physical_user s u reading e m).reduction_users,
      p.2.wf ∧ p.2.uidsBelow b2) ∧
    (∀ p ∈ (ReductionView.add_physical_user s u reading e m).reading_users,
      p.2.wf ∧ p.2.uidsBelow b2) ∧
    ((ReductionView.add_physical_user s u reading e
      m).reduction_users.map Prod.fst).Nodup ∧
    ((ReductionView.add_physical_user s u reading e
      m).reading_users.map Prod.fst).Nodup ∧
    (ReductionView.add_physical_user s u reading e m).next_uid = s.next_uid ∧
    (ReductionView.add_physical_user s u reading e m).outstanding_gc_events
      = s.outstanding_gc_events := by
  unfold ReductionView.add_physical_user
  by_cases hr : reading = true
  · rw [if_pos hr]
    obtain ⟨ha, hnd⟩ := addUser_table_wf s.reading_users e u m b b2 h2 h4
      hb hub hbb
    exact ⟨fun p hp => ⟨(h1 p hp).1,
      uidsBelow_mono _ _ _ (h1 p hp).2 hbb⟩, ha, h3, hnd, rfl, rfl⟩
  · rw [if_neg hr]
    obtain ⟨ha, hnd⟩ := addUser_table_wf s.reduction_users e u m b b2 h1 h3
      hb hub hbb
    exact ⟨ha, fun p hp => ⟨(h2 p hp).1,
      uidsBelow_mono _ _ _ (h2 p hp).2 hbb⟩, hnd, h4, rfl, rfl⟩

theorem rv_add_user_wf (use : Event) (s : ReductionView.State)
    (usage : RegionUsage) (term : Event) (mask : FieldMask)
    (h : ReductionView.StateWf s) :
    ReductionView.StateWf
      (ReductionView.add_user use s usage term mask).2.2 := by
  obtain ⟨h1, h2, h3, h4⟩ := h
  unfold ReductionView.add_user
  dsimp only
  have key := fun reading =>
    add_physical_user_fresh_wf { s with next_uid := s.next_uid + 1 }
      { usage := usage, child := none, versions := none, uid := s.next_uid }
      reading term mask s.next_uid (s.next_uid + 1) h1 h2 h3 h4
      (le_refl _) (Nat.lt_succ_self _) (Nat.le_succ _)
  repeat' split
  all_goals try dsimp only
  all_goals
    first
      | exact ⟨(key false).1, (key false).2.1, (key false).2.2.1,
          (key false).2.2.2.1⟩
      | exact ⟨(key true).1, (key true).2.1, (key true).2.2.1,
          (key true).2.2.2.1⟩

theorem rv_add_copy_user_wf (s : ReductionView.State) (redop : Nat)
    (copy_term : Event) (mask : FieldMask) (reading : Bool)
    (h : ReductionView.StateWf s) :
    ReductionView.StateWf
      (ReductionView.add_copy_user s redop copy_term mask reading).2 := by
  obtain ⟨h1, h2, h3, h4⟩ := h
  unfold ReductionView.add_copy_user
  dsimp only
  have key := fun (usg : RegionUsage) (rd : Bool) =>
    add_physical_user_fresh_wf { s with next_uid := s.next_uid + 1 }
      { usage := usg, child := none, versions := none, uid := s.next_uid }
      rd copy_term mask s.next_uid (s.next_uid + 1) h1 h2 h3 h4
      (le_refl _) (Nat.lt_succ_self _) (Nat.le_succ _)
  cases reading
  all_goals repeat' split
  all_goals try dsimp only
  all_goals
    first
      | exact ⟨(key _ _).1, (key _ _).2.1, (key _ _).2.2.1, (key _ _).2.2.2.1⟩
      | exact ⟨h1, h2, h3, h4⟩

theorem resolveUser_uid (tbl : List (Nat × PhysicalUser)) (base i : Nat) :
    (MaterializedView.resolveUser tbl base i).uid = base + i := by
  unfold MaterializedView.resolveUser
  cases h : lookupA tbl i <;> rfl

theorem mv_ents_fold_current_wf (tbl : List (Nat × PhysicalUser))
    (base N : Nat) (e : Event) :
    ∀ (ents : List (Nat × FieldMask)) (S : List Nat)
      (st : MaterializedView.State),
    (∀ p ∈ st.current_epoch_users, p.2.wf ∧ p.2.uidsBelow (base + N)) →
    ((st.current_epoch_users.map Prod.fst).Nodup) →
    (∀ q ∈ ents, q.1 < N) →
    ((S ++ ents.map Prod.fst).Nodup) →
    (∀ v, lookupA st.current_epoch_users e = some v →
      ∀ x ∈ v.uids, x < base ∨ ∃ j ∈ S, x = base + j) →
    (∀ p ∈ (ents.foldl (fun st2 p => MaterializedView.add_current_user st2
        (MaterializedView.resolveUser tbl base p.1) e p.2)
        st).current_epoch_users, p.2.wf ∧ p.2.uidsBelow (base + N)) ∧
    (((ents.foldl (fun st2 p => MaterializedView.add_current_user st2
        (MaterializedView.resolveUser tbl base p.1) e p.2)
        st).current_epoch_users.map Prod.fst).Nodup) ∧
    (∀ p ∈ (ents.foldl (fun st2 p => MaterializedView.add_current_user st2
        (MaterializedView.resolveUser tbl base p.1) e p.2)
        st).current_epoch_users, p ∈ st.current_epoch_users ∨ p.1 = e) ∧
    (∀ v, lookupA (ents.foldl (fun st2 p => MaterializedView.add_current_user
        st2 (MaterializedView.resolveUser tbl base p.1) e p.2)
        st).current_epoch_users e = some v →
      ∀ x ∈ v.uids, x < base ∨ ∃ j ∈ S ++ ents.map Prod.fst, x = base + j) ∧
    (ents.foldl (fun st2 p => MaterializedView.add_current_user st2
        (MaterializedView.resolveUser tbl base p.1) e p.2)
        st).previous_epoch_users = st.previous_epoch_users ∧
    (ents.foldl (fun st2 p => MaterializedView.add_current_user st2
        (MaterializedView.resolveUser tbl base p.1) e p.2)
        st).next_uid = st.next_uid ∧
    (ents.foldl (fun st2 p => MaterializedView.add_current_user st2
        (MaterializedView.resolveUser tbl base p.1) e p.2)
        st).outstanding_gc_events = st.outstanding_gc_events := by
  intro ents
  induction ents with
  | nil =>
      intro S st h1 h2 _ _ h5
      refine ⟨h1, h2, fun p hp => Or.inl hp, ?_, rfl, rfl, rfl⟩
      intro v hv x hx
      rcases h5 v hv x hx with h | ⟨j, hj, hje⟩
      · exact Or.inl h
      · exact Or.inr ⟨j, by simpa using hj, hje⟩
  | cons q ents ih =>
      intro S st h1 h2 h3 h4 h5
      have hqN : q.1 < N := h3 q (List.mem_cons_self _ _)
      have h3t : ∀ r ∈ ents, r.1 < N :=
        fun r hr => h3 r (List.mem_cons_of_mem _ hr)
      have h4t : ((S ++ [q.1]) ++ ents.map Prod.fst).Nodup := by
        rw [← List.append_cons]
        rw [List.map_cons] at h4
        exact h4
      have hqS : q.1 ∉ S := by
        intro hq
        rw [List.map_cons] at h4
        have := (List.nodup_append.mp h4).2.2
        exact this hq (List.mem_cons_self _ _)
      have heu : (((lookupA st.current_epoch_users e).getD emptyEU)).wf ∧
          (((lookupA st.current_epoch_users e).getD emptyEU)).uidsBelow
            (base + N) ∧
          (∀ x ∈ ((lookupA st.current_epoch_users e).getD emptyEU).uids,
            x < base ∨ ∃ j ∈ S, x = base + j) := by
        cases hl : lookupA st.current_epoch_users e with
        | none =>
            refine ⟨emptyEU_wf, ?_, ?_⟩
            · intro x hx
              simp [emptyEU, EventUsers.uids, EventUsers.entries] at hx
            · intro x hx
              simp [emptyEU, EventUsers.uids, EventUsers.entries] at hx
        | some v =>
            have hm := h1 (e, v) (lookupA_mem _ _ _ hl)
            exact ⟨hm.1, hm.2, h5 v hl⟩
      have hufr : (MaterializedView.resolveUser tbl base q.1).uid ∉
          ((lookupA st.current_epoch_users e).getD emptyEU).uids := by
        rw [resolveUser_uid]
        intro hx
        rcases heu.2.2 _ hx with h | ⟨j, hj, hje⟩
        · exact absurd h (by simp)
        · have : j = q.1 := by omega
          rw [this] at hj
          exact hqS hj
      obtain ⟨hent, hwf2⟩ := EventUsers.addUser_entries_fresh
        ((lookupA st.current_epoch_users e).getD emptyEU)
        (MaterializedView.resolveUser tbl base q.1) q.2 heu.1 hufr
      have hbel2 : (((lookupA st.current_epoch_users e).getD
          emptyEU).addUser (MaterializedView.resolveUser tbl base q.1)
            q.2).uidsBelow (base + N) := by
        refine uidsBelow_of_entries _ _ ?_
        intro p hp
        rw [hent] at hp
        rcases List.mem_append.mp hp with hp | hp
        · exact heu.2.1 p.1.uid (List.mem_map.mpr ⟨p, hp, rfl⟩)
        · rw [List.mem_singleton.mp hp, resolveUser_uid]
          exact Nat.add_lt_add_left hqN base
      have huids2 : ∀ x ∈ (((lookupA st.current_epoch_users e).getD
          emptyEU).addUser (MaterializedView.resolveUser tbl base q.1)
            q.2).uids, x < base ∨ ∃ j ∈ S ++ [q.1], x = base + j := by
        intro x hx
        unfold EventUsers.uids at hx
        rw [hent, List.map_append] at hx
        rcases List.mem_append.mp hx with hx | hx
        · rcases heu.2.2 x hx with h | ⟨j, hj, hje⟩
          · exact Or.inl h
          · exact Or.inr ⟨j, List.mem_append.mpr (Or.inl hj), hje⟩
        · simp only [List.map_cons, List.map_nil, List.mem_singleton] at hx
          rw [hx, resolveUser_uid]
          exact Or.inr ⟨q.1, List.mem_append.mpr (Or.inr (List.mem_singleton_self _)), rfl⟩
      have hstep : (MaterializedView.add_current_user st
          (MaterializedView.resolveUser tbl base q.1) e
          q.2).current_epoch_users = setA st.current_epoch_users e
            (((lookupA st.current_epoch_users e).getD emptyEU).addUser
              (MaterializedView.resolveUser tbl base q.1) q.2) := rfl
      have hn1 : ∀ p ∈ (MaterializedView.add_current_user st
          (MaterializedView.resolveUser tbl base q.1) e
          q.2).current_epoch_users, p.2.wf ∧ p.2.uidsBelow (base + N) := by
        rw [hstep]
        intro p hp
        rcases setA_mem_cases _ _ _ p hp with hm | hm
        · exact h1 p hm
        · rw [hm]
          exact ⟨hwf2, hbel2⟩
      have hn2 : (((MaterializedView.add_current_user st
          (MaterializedView.resolveUser tbl base q.1) e
          q.2).current_epoch_users).map Prod.fst).Nodup := by
        rw [hstep]
        exact setA_keys_nodup _ _ _ h2
      have hn5 : ∀ v, lookupA (MaterializedView.add_current_user st
          (MaterializedView.resolveUser tbl base q.1) e
          q.2).current_epoch_users e = some v →
          ∀ x ∈ v.uids, x < base ∨ ∃ j ∈ S ++ [q.1], x = base + j := by
        intro v hv
        rw [hstep, lookupA_setA_self, Option.some_inj] at hv
        rw [← hv]
        exact huids2
      rw [List.foldl_cons]
      have hrec := ih (S ++ [q.1]) (MaterializedView.add_current_user st
        (MaterializedView.resolveUser tbl base q.1) e q.2)
        hn1 hn2 h3t h4t hn5
      refine ⟨hrec.1, hrec.2.1, ?_, ?_, ?_, ?_, ?_⟩
      · intro p hp
        rcases hrec.2.2.1 p hp with hm | hm
        · rw [hstep] at hm
          rcases setA_mem_cases _ _ _ p hm with hm2 | hm2
          · exact Or.inl hm2
          · rw [hm2]
            exact Or.inr rfl
        · exact Or.inr hm
      · intro v hv x hx
        rcases hrec.2.2.2.1 v hv x hx with h | ⟨j, hj, hje⟩
        · exact Or.inl h
        · refine Or.inr ⟨j, ?_, hje⟩
          rw [List.map_cons, List.append_cons]
          exact hj
      · rw [hrec.2.2.2.2.1]
        rfl
      · rw [hrec.2.2.2.2.2.1]
        rfl
      · rw [hrec.2.2.2.2.2.2]
        rfl

theorem mv_ents_fold_previous_wf (tbl : List (Nat × PhysicalUser))
    (base N : Nat) (e : Event) :
    ∀ (ents : List (Nat × FieldMask)) (S : List Nat)
      (st : MaterializedView.State),
    (∀ p ∈ st.previous_epoch_users, p.2.wf ∧ p.2.uidsBelow (base + N)) →
    ((st.previous_epoch_users.map Prod.fst).Nodup) →
    (∀ q ∈ ents, q.1 < N) →
    ((S ++ ents.map Prod.fst).Nodup) →
    (∀ v, lookupA st.previous_epoch_users e = some v →
      ∀ x ∈ v.uids, x < base ∨ ∃ j ∈ S, x = base + j) →
    (∀ p ∈ (ents.foldl (fun st2 p => MaterializedView.add_previous_user st2
        (MaterializedView.resolveUser tbl base p.1) e p.2)
        st).previous_epoch_users, p.2.wf ∧ p.2.uidsBelow (base + N)) ∧
    (((ents.foldl (fun st2 p => MaterializedView.add_previous_user st2
        (MaterializedView.resolveUser tbl base p.1) e p.2)
        st).previous_epoch_users.map Prod.fst).Nodup) ∧
    (∀ p ∈ (ents.foldl (fun st2 p => MaterializedView.add_previous_user st2
        (MaterializedView.resolveUser tbl base p.1) e p.2)
        st).previous_epoch_users, p ∈ st.previous_epoch_users ∨ p.1 = e) ∧
    (∀ v, lookupA (ents.foldl (fun st2 p => MaterializedView.add_previous_user
        st2 (MaterializedView.resolveUser tbl base p.1) e p.2)
        st).previous_epoch_users e = some v →
      ∀ x ∈ v.uids, x < base ∨ ∃ j ∈ S ++ ents.map Prod.fst, x = base + j) ∧
    (ents.foldl (fun st2 p => MaterializedView.add_previous_user st2
        (MaterializedView.resolveUser tbl base p.1) e p.2)
        st).current_epoch_users = st.current_epoch_users ∧
    (ents.foldl (fun st2 p => MaterializedView.add_previous_user st2
        (MaterializedView.resolveUser tbl base p.1) e p.2)
        st).next_uid = st.next_uid ∧
    (ents.foldl (fun st2 p => MaterializedView.add_previous_user st2
        (MaterializedView.resolveUser tbl base p.1) e p.2)
        st).outstanding_gc_events = st.outstanding_gc_events := by
  intro ents
  induction ents with
  | nil =>
      intro S st h1 h2 _ _ h5
      refine ⟨h1, h2, fun p hp => Or.inl hp, ?_, rfl, rfl, rfl⟩
      intro v hv x hx
      rcases h5 v hv x hx with h | ⟨j, hj, hje⟩
      · exact Or.inl h
      · exact Or.inr ⟨j, by simpa using hj, hje⟩
  | cons q ents ih =>
      intro S st h1 h2 h3 h4 h5
      have hqN : q.1 < N := h3 q (List.mem_cons_self _ _)
      have h3t : ∀ r ∈ ents, r.1 < N :=
        fun r hr => h3 r (List.mem_cons_of_mem _ hr)
      have h4t : ((S ++ [q.1]) ++ ents.map Prod.fst).Nodup := by
        rw [← List.append_cons]
        rw [List.map_cons] at h4
        exact h4
      have hqS : q.1 ∉ S := by
        intro hq
        rw [List.map_cons] at h4
        have := (List.nodup_append.mp h4).2.2
        exact this hq (List.mem_cons_self _ _)
      have heu : (((lookupA st.previous_epoch_users e).getD emptyEU)).wf ∧
          (((lookupA st.previous_epoch_users e).getD emptyEU)).uidsBelow
            (base + N) ∧
          (∀ x ∈ ((lookupA st.previous_epoch_users e).getD emptyEU).uids,
            x < base ∨ ∃ j ∈ S, x = base + j) := by
        cases hl : lookupA st.previous_epoch_users e with
        | none =>
            refine ⟨emptyEU_wf, ?_, ?_⟩
            · intro x hx
              simp [emptyEU, EventUsers.uids, EventUsers.entries] at hx
            · intro x hx
              simp [emptyEU, EventUsers.uids, EventUsers.entries] at hx
        | some v =>
            have hm := h1 (e, v) (lookupA_mem _ _ _ hl)
            exact ⟨hm.1, hm.2, h5 v hl⟩
      have hufr : (MaterializedView.resolveUser tbl base q.1).uid ∉
          ((lookupA st.previous_epoch_users e).getD emptyEU).uids := by
        rw [resolveUser_uid]
        intro hx
        rcases heu.2.2 _ hx with h | ⟨j, hj, hje⟩
        · exact absurd h (by simp)
        · have : j = q.1 := by omega
          rw [this] at hj
          exact hqS hj
      obtain ⟨hent, hwf2⟩ := EventUsers.addUser_entries_fresh
        ((lookupA st.previous_epoch_users e).getD emptyEU)
        (MaterializedView.resolveUser tbl base q.1) q.2 heu.1 hufr
      have hbel2 : (((lookupA st.previous_epoch_users e).getD
          emptyEU).addUser (MaterializedView.resolveUser tbl base q.1)
            q.2).uidsBelow (base + N) := by
        refine uidsBelow_of_entries _ _ ?_
        intro p hp
        rw [hent] at hp
        rcases List.mem_append.mp hp with hp | hp
        · exact heu.2.1 p.1.uid (List.mem_map.mpr ⟨p, hp, rfl⟩)
        · rw [List.mem_singleton.mp hp, resolveUser_uid]
          exact Nat.add_lt_add_left hqN base
      have huids2 : ∀ x ∈ (((lookupA st.previous_epoch_users e).getD
          emptyEU).addUser (MaterializedView.resolveUser tbl base q.1)
            q.2).uids, x < base ∨ ∃ j ∈ S ++ [q.1], x = base + j := by
        intro x hx
        unfold EventUsers.uids at hx
        rw [hent, List.map_append] at hx
        rcases List.mem_append.mp hx with hx | hx
        · rcases heu.2.2 x hx with h | ⟨j, hj, hje⟩
          · exact Or.inl h
          · exact Or.inr ⟨j, List.mem_append.mpr (Or.inl hj), hje⟩
        · simp only [List.map_cons, List.map_nil, List.mem_singleton] at hx
          rw [hx, resolveUser_uid]
          exact Or.inr ⟨q.1, List.mem_append.mpr (Or.inr (List.mem_singleton_self _)), rfl⟩
      have hstep : (MaterializedView.add_previous_user st
          (MaterializedView.resolveUser tbl base q.1) e
          q.2).previous_epoch_users = setA st.previous_epoch_users e
            (((lookupA st.previous_epoch_users e).getD emptyEU).addUser
              (MaterializedView.resolveUser tbl base q.1) q.2) := rfl
      have hn1 : ∀ p ∈ (MaterializedView.add_previous_user st
          (MaterializedView.resolveUser tbl base q.1) e
          q.2).previous_epoch_users, p.2.wf ∧ p.2.uidsBelow (base + N) := by
        rw [hstep]
        intro p hp
        rcases setA_mem_cases _ _ _ p hp with hm | hm
        · exact h1 p hm
        · rw [hm]
          exact ⟨hwf2, hbel2⟩
      have hn2 : (((MaterializedView.add_previous_user st
          (MaterializedView.resolveUser tbl base q.1) e
          q.2).previous_epoch_users).map Prod.fst).Nodup := by
        rw [hstep]
        exact setA_keys_nodup _ _ _ h2
      have hn5 : ∀ v, lookupA (MaterializedView.add_previous_user st
          (MaterializedView.resolveUser tbl base q.1) e
          q.2).previous_epoch_users e = some v →
          ∀ x ∈ v.uids, x < base ∨ ∃ j ∈ S ++ [q.1], x = base + j := by
        intro v hv
        rw [hstep, lookupA_setA_self, Option.some_inj] at hv
        rw [← hv]
        exact huids2
      rw [List.foldl_cons]
      have hrec := ih (S ++ [q.1]) (MaterializedView.add_previous_user st
        (MaterializedView.resolveUser tbl base q.1) e q.2)
        hn1 hn2 h3t h4t hn5
      refine ⟨hrec.1, hrec.2.1, ?_, ?_, ?_, ?_, ?_⟩
      · intro p hp
        rcases hrec.2.2.1 p hp with hm | hm
        · rw [hstep] at hm
          rcases setA_mem_cases _ _ _ p hm with hm2 | hm2
          · exact Or.inl hm2
          · rw [hm2]
            exact Or.inr rfl
        · exact Or.inr hm
      · intro v hv x hx
        rcases hrec.2.2.2.1 v hv x hx with h | ⟨j, hj, hje⟩
        · exact Or.inl h
        · refine Or.inr ⟨j, ?_, hje⟩
          rw [List.map_cons, List.append_cons]
          exact hj
      · rw [hrec.2.2.2.2.1]
        rfl
      · rw [hrec.2.2.2.2.2.1]
        rfl
      · rw [hrec.2.2.2.2.2.2]
        rfl

theorem mv_apply_block_current_wf (tbl : List (Nat × PhysicalUser))
    (base N : Nat) (st : MaterializedView.State) (e : Event)
    (blk : MaterializedView.UpdateBlock)
    (hok : MaterializedView.BlockOk N blk)
    (h1 : ∀ p ∈ st.current_epoch_users, p.2.wf ∧ p.2.uidsBelow (base + N))
    (h2 : (st.current_epoch_users.map Prod.fst).Nodup)
    (h5 : ∀ v, lookupA st.current_epoch_users e = some v →
      v.uidsBelow base) :
    (∀ p ∈ (MaterializedView.applyBlockWith MaterializedView.add_current_user
        tbl base st e blk).current_epoch_users,
      p.2.wf ∧ p.2.uidsBelow (base + N)) ∧
    (((MaterializedView.applyBlockWith MaterializedView.add_current_user
        tbl base st e blk).current_epoch_users.map Prod.fst).Nodup) ∧
    (∀ p ∈ (MaterializedView.applyBlockWith MaterializedView.add_current_user
        tbl base st e blk).current_epoch_users,
      p ∈ st.current_epoch_users ∨ p.1 = e) ∧
    (MaterializedView.applyBlockWith MaterializedView.add_current_user
        tbl base st e blk).previous_epoch_users = st.previous_epoch_users ∧
    (MaterializedView.applyBlockWith MaterializedView.add_current_user
        tbl base st e blk).next_uid = st.next_uid := by
  cases blk with
  | single i m =>
      have key := mv_ents_fold_current_wf tbl base N e [(i, m)] [] st h1 h2
        (by
          intro q hq
          rw [List.mem_singleton.mp hq]
          exact hok)
        (by simp)
        (by
          intro v hv x hx
          exact Or.inl (h5 v hv x hx))
      exact ⟨key.1, key.2.1, key.2.2.1, key.2.2.2.2.1, key.2.2.2.2.2.1⟩
  | multi c ents =>
      have key := mv_ents_fold_current_wf tbl base N e
        (ents.take ((-c - 1).toNat)) [] st h1 h2 hok.2
        (by simpa using hok.1)
        (by
          intro v hv x hx
          exact Or.inl (h5 v hv x hx))
      exact ⟨key.1, key.2.1, key.2.2.1, key.2.2.2.2.1, key.2.2.2.2.2.1⟩

theorem mv_blocks_fold_current_wf (tbl : List (Nat × PhysicalUser))
    (base N : Nat) :
    ∀ (blocks : List (Event × MaterializedView.UpdateBlock))
      (st : MaterializedView.State),
    (∀ p ∈ blocks, MaterializedView.BlockOk N p.2) →
    ((blocks.map Prod.fst).Nodup) →
    (∀ p ∈ st.current_epoch_users, p.2.wf ∧ p.2.uidsBelow (base + N)) →
    ((st.current_epoch_users.map Prod.fst).Nodup) →
    (∀ p ∈ st.current_epoch_users, p.1 ∈ blocks.map Prod.fst →
      p.2.uidsBelow base) →
    (∀ p ∈ (blocks.foldl (fun st2 p => MaterializedView.applyBlockWith
        MaterializedView.add_current_user tbl base st2 p.1 p.2)
        st).current_epoch_users, p.2.wf ∧ p.2.uidsBelow (base + N)) ∧
    (((blocks.foldl (fun st2 p => MaterializedView.applyBlockWith
        MaterializedView.add_current_user tbl base st2 p.1 p.2)
        st).current_epoch_users.map Prod.fst).Nodup) ∧
    (blocks.foldl (fun st2 p => MaterializedView.applyBlockWith
        MaterializedView.add_current_user tbl base st2 p.1 p.2)
        st).previous_epoch_users = st.previous_epoch_users ∧
    (blocks.foldl (fun st2 p => MaterializedView.applyBlockWith
        MaterializedView.add_current_user tbl base st2 p.1 p.2)
        st).next_uid = st.next_uid := by
  intro blocks
  induction blocks with
  | nil => intro st _ _ h1 h2 _; exact ⟨h1, h2, rfl, rfl⟩
  | cons hd rest ih =>
      intro st hbo hbnd h1 h2 hbase
      have hko := hbo hd (List.mem_cons_self _ _)
      have hbot : ∀ p ∈ rest, MaterializedView.BlockOk N p.2 :=
        fun p hp => hbo p (List.mem_cons_of_mem _ hp)
      have hndc : hd.1 ∉ rest.map Prod.fst ∧ (rest.map Prod.fst).Nodup := by
        rw [List.map_cons] at hbnd
        exact ⟨(List.nodup_cons.mp hbnd).1, (List.nodup_cons.mp hbnd).2⟩
      have h5 : ∀ v, lookupA st.current_epoch_users hd.1 = some v →
          v.uidsBelow base := by
        intro v hv
        exact hbase (hd.1, v) (lookupA_mem _ _ _ hv)
          (by rw [List.map_cons]; exact List.mem_cons_self _ _)
      have key := mv_apply_block_current_wf tbl base N st hd.1 hd.2 hko h1 h2 h5
      rw [List.foldl_cons]
      have hrec := ih (MaterializedView.applyBlockWith
        MaterializedView.add_current_user tbl base st hd.1 hd.2)
        hbot hndc.2 key.1 key.2.1
        (by
          intro p hp hpk
          rcases key.2.2.1 p hp with hm | hm
          · refine hbase p hm ?_
            rw [List.map_cons]
            exact List.mem_cons_of_mem _ hpk
          · exfalso
            rw [hm] at hpk
            exact hndc.1 hpk)
      refine ⟨hrec.1, hrec.2.1, ?_, ?_⟩
      · rw [hrec.2.2.1, key.2.2.2.1]
      · rw [hrec.2.2.2, key.2.2.2.2]

theorem mv_apply_block_previous_wf (tbl : List (Nat × PhysicalUser))
    (base N : Nat) (st : MaterializedView.State) (e : Event)
    (blk : MaterializedView.UpdateBlock)
    (hok : MaterializedView.BlockOk N blk)
    (h1 : ∀ p ∈ st.previous_epoch_users, p.2.wf ∧ p.2.uidsBelow (base + N))
    (h2 : (st.previous_epoch_users.map Prod.fst).Nodup)
    (h5 : ∀ v, lookupA st.previous_epoch_users e = some v →
      v.uidsBelow base) :
    (∀ p ∈ (MaterializedView.applyBlockWith MaterializedView.add_previous_user
        tbl base st e blk).previous_epoch_users,
      p.2.wf ∧ p.2.uidsBelow (base + N)) ∧
    (((MaterializedView.applyBlockWith MaterializedView.add_previous_user
        tbl base st e blk).previous_epoch_users.map Prod.fst).Nodup) ∧
    (∀ p ∈ (MaterializedView.applyBlockWith MaterializedView.add_previous_user
        tbl base st e blk).previous_epoch_users,
      p ∈ st.previous_epoch_users ∨ p.1 = e) ∧
    (MaterializedView.applyBlockWith MaterializedView.add_previous_user
        tbl base st e blk).current_epoch_users = st.current_epoch_users ∧
    (MaterializedView.applyBlockWith MaterializedView.add_previous_user
        tbl base st e blk).next_uid = st.next_uid := by
  cases blk with
  | single i m =>
      have key := mv_ents_fold_previous_wf tbl base N e [(i, m)] [] st h1 h2
        (by
          intro q hq
          rw [List.mem_singleton.mp hq]
          exact hok)
        (by simp)
        (by
          intro v hv x hx
          exact Or.inl (h5 v hv x hx))
      exact ⟨key.1, key.2.1, key.2.2.1, key.2.2.2.2.1, key.2.2.2.2.2.1⟩
  | multi c ents =>
      have key := mv_ents_fold_previous_wf tbl base N e
        (ents.take ((-c - 1).toNat)) [] st h1 h2 hok.2
        (by simpa using hok.1)
        (by
          intro v hv x hx
          exact Or.inl (h5 v hv x hx))
      exact ⟨key.1, key.2.1, key.2.2.1, key.2.2.2.2.1, key.2.2.2.2.2.1⟩

theorem mv_blocks_fold_previous_wf (tbl : List (Nat × PhysicalUser))
    (base N : Nat) :
    ∀ (blocks : List (Event × MaterializedView.UpdateBlock))
      (st : MaterializedView.State),
    (∀ p ∈ blocks, MaterializedView.BlockOk N p.2) →
    ((blocks.map Prod.fst).Nodup) →
    (∀ p ∈ st.previous_epoch_users, p.2.wf ∧ p.2.uidsBelow (base + N)) →
    ((st.previous_epoch_users.map Prod.fst).Nodup) →
    (∀ p ∈ st.previous_epoch_users, p.1 ∈ blocks.map Prod.fst →
      p.2.uidsBelow base) →
    (∀ p ∈ (blocks.foldl (fun st2 p => MaterializedView.applyBlockWith
        MaterializedView.add_previous_user tbl base st2 p.1 p.2)
        st).previous_epoch_users, p.2.wf ∧ p.2.uidsBelow (base + N)) ∧
    (((blocks.foldl (fun st2 p => MaterializedView.applyBlockWith
        MaterializedView.add_previous_user tbl base st2 p.1 p.2)
        st).previous_epoch_users.map Prod.fst).Nodup) ∧
    (blocks.foldl (fun st2 p => MaterializedView.applyBlockWith
        MaterializedView.add_previous_user tbl base st2 p.1 p.2)
        st).current_epoch_users = st.current_epoch_users ∧
    (blocks.foldl (fun st2 p => MaterializedView.applyBlockWith
        MaterializedView.add_previous_user tbl base st2 p.1 p.2)
        st).next_uid = st.next_uid := by
  intro blocks
  induction blocks with
  | nil => intro st _ _ h1 h2 _; exact ⟨h1, h2, rfl, rfl⟩
  | cons hd rest ih =>
      intro st hbo hbnd h1 h2 hbase
      have hko := hbo hd (List.mem_cons_self _ _)
      have hbot : ∀ p ∈ rest, MaterializedView.BlockOk N p.2 :=
        fun p hp => hbo p (List.mem_cons_of_mem _ hp)
      have hndc : hd.1 ∉ rest.map Prod.fst ∧ (rest.map Prod.fst).Nodup := by
        rw [List.map_cons] at hbnd
        exact ⟨(List.nodup_cons.mp hbnd).1, (List.nodup_cons.mp hbnd).2⟩
      have h5 : ∀ v, lookupA st.previous_epoch_users hd.1 = some v →
          v.uidsBelow base := by
        intro v hv
        exact hbase (hd.1, v) (lookupA_mem _ _ _ hv)
          (by rw [List.map_cons]; exact List.mem_cons_self _ _)
      have key := mv_apply_block_previous_wf tbl base N st hd.1 hd.2 hko h1 h2 h5
      rw [List.foldl_cons]
      have hrec := ih (MaterializedView.applyBlockWith
        MaterializedView.add_previous_user tbl base st hd.1 hd.2)
        hbot hndc.2 key.1 key.2.1
        (by
          intro p hp hpk
          rcases key.2.2.1 p hp with hm | hm
          · refine hbase p hm ?_
            rw [List.map_cons]
            exact List.mem_cons_of_mem _ hpk
          · exfalso
            rw [hm] at hpk
            exact hndc.1 hpk)
      refine ⟨hrec.1, hrec.2.1, ?_, ?_⟩
      · rw [hrec.2.2.1, key.2.2.2.1]
      · rw [hrec.2.2.2, key.2.2.2.2]

theorem mv_process_update_wf (s : MaterializedView.State)
    (upd : MaterializedView.ViewUpdate) (hok : MaterializedView.UpdateOk upd)
    (h : MaterializedView.StateWf s) :
    MaterializedView.StateWf (MaterializedView.process_update s upd) := by
  obtain ⟨h1, h2, h3, h4⟩ := h
  obtain ⟨hc, hp, hcnd, hpnd⟩ := hok
  unfold MaterializedView.process_update
  dsimp only
  have key1 := mv_blocks_fold_current_wf upd.users s.next_uid upd.users.length
    upd.current { s with next_uid := s.next_uid + upd.users.length }
    hc hcnd
    (by
      intro p hp2
      exact ⟨(h1 p hp2).1, uidsBelow_mono _ _ _ (h1 p hp2).2
        (Nat.le_add_right _ _)⟩)
    h3
    (by
      intro p hp2 _
      exact (h1 p hp2).2)
  have key2 := mv_blocks_fold_previous_wf upd.users s.next_uid upd.users.length
    upd.previous
    (upd.current.foldl (fun st2 p => MaterializedView.applyBlockWith
      MaterializedView.add_current_user upd.users s.next_uid st2 p.1 p.2)
      { s with next_uid := s.next_uid + upd.users.length })
    hp hpnd
    (by
      rw [key1.2.2.1]
      intro p hp2
      exact ⟨(h2 p hp2).1, uidsBelow_mono _ _ _ (h2 p hp2).2
        (Nat.le_add_right _ _)⟩)
    (by rw [key1.2.2.1]; exact h4)
    (by
      rw [key1.2.2.1]
      intro p hp2 _
      exact (h2 p hp2).2)
  refine ⟨?_, ?_, ?_, key2.2.1⟩
  · rw [key2.2.2.1, key2.2.2.2, key1.2.2.2]
    exact key1.1
  · rw [key2.2.2.2, key1.2.2.2]
    exact key2.1
  · rw [key2.2.2.1]
    exact key1.2.1

theorem rvUnpackUser_uid (ulist : List PhysicalUser) (base k : Nat) :
    (ReductionView.rvUnpackUser ulist base k).uid = base + k := by
  unfold ReductionView.rvUnpackUser
  cases h : ulist.get? k <;> rfl

theorem rv_inner_fold_wf (ulist : List PhysicalUser) (base2 : Nat)
    (reading : Bool) (e : Event) :
    ∀ (ms : List FieldMask) (stk : ReductionView.State × Nat),
    (∀ p ∈ stk.1.reduction_users, p.2.wf ∧ p.2.uidsBelow (base2 + stk.2)) →
    (∀ p ∈ stk.1.reading_users, p.2.wf ∧ p.2.uidsBelow (base2 + stk.2)) →
    ((stk.1.reduction_users.map Prod.fst).Nodup) →
    ((stk.1.reading_users.map Prod.fst).Nodup) →
    (ms.foldl (ReductionView.rvInnerStep ulist base2 reading e) stk).2
      = stk.2 + ms.length ∧
    (∀ p ∈ (ms.foldl (ReductionView.rvInnerStep ulist base2 reading e)
        stk).1.reduction_users, p.2.wf ∧ p.2.uidsBelow
          (base2 + (stk.2 + ms.length))) ∧
    (∀ p ∈ (ms.foldl (ReductionView.rvInnerStep ulist base2 reading e)
        stk).1.reading_users, p.2.wf ∧ p.2.uidsBelow
          (base2 + (stk.2 + ms.length))) ∧
    (((ms.foldl (ReductionView.rvInnerStep ulist base2 reading e)
        stk).1.reduction_users.map Prod.fst).Nodup) ∧
    (((ms.foldl (ReductionView.rvInnerStep ulist base2 reading e)
        stk).1.reading_users.map Prod.fst).Nodup) ∧
    (ms.foldl (ReductionView.rvInnerStep ulist base2 reading e)
        stk).1.next_uid = stk.1.next_uid := by
  intro ms
  induction ms with
  | nil =>
      intro stk h1 h2 h3 h4
      exact ⟨rfl, by simpa using h1, by simpa using h2, h3, h4, rfl⟩
  | cons m ms ih =>
      intro stk h1 h2 h3 h4
      have key := add_physical_user_fresh_wf stk.1
        (ReductionView.rvUnpackUser ulist base2 stk.2) reading e m
        (base2 + stk.2) (base2 + stk.2 + 1) h1 h2 h3 h4
        (by rw [rvUnpackUser_uid])
        (by rw [rvUnpackUser_uid]; exact Nat.lt_succ_self _)
        (Nat.le_succ _)
      rw [List.foldl_cons]
      have hrec := ih (ReductionView.rvInnerStep ulist base2 reading e stk m)
        (by
          intro p hp
          have := key.1 p hp
          exact ⟨this.1, this.2⟩)
        (by
          intro p hp
          have := key.2.1 p hp
          exact ⟨this.1, this.2⟩)
        key.2.2.1 key.2.2.2.1
      have hcnt : (ReductionView.rvInnerStep ulist base2 reading e stk m).2
          = stk.2 + 1 := rfl
      refine ⟨?_, ?_, ?_, hrec.2.2.2.1, hrec.2.2.2.2.1, ?_⟩
      · rw [hrec.1, hcnt]
        simp only [List.length_cons]
        omega
      · intro p hp
        have := hrec.2.1 p hp
        refine ⟨this.1, uidsBelow_mono _ _ _ this.2 ?_⟩
        rw [hcnt]
        simp only [List.length_cons]
        omega
      · intro p hp
        have := hrec.2.2.1 p hp
        refine ⟨this.1, uidsBelow_mono _ _ _ this.2 ?_⟩
        rw [hcnt]
        simp only [List.length_cons]
        omega
      · rw [hrec.2.2.2.2.2]
        exact key.2.2.2.2.1

theorem rv_blocks_fold_wf (ulist : List PhysicalUser) (base2 : Nat)
    (reading : Bool) :
    ∀ (blocks : List (Event × List FieldMask))
      (stk : ReductionView.State × Nat),
    (∀ p ∈ stk.1.reduction_users, p.2.wf ∧ p.2.uidsBelow (base2 + stk.2)) →
    (∀ p ∈ stk.1.reading_users, p.2.wf ∧ p.2.uidsBelow (base2 + stk.2)) →
    ((stk.1.reduction_users.map Prod.fst).Nodup) →
    ((stk.1.reading_users.map Prod.fst).Nodup) →
    (blocks.foldl (ReductionView.rvBlockStep ulist base2 reading) stk).2
      = stk.2 + (blocks.map (fun b => b.2.length)).sum ∧
    (∀ p ∈ (blocks.foldl (ReductionView.rvBlockStep ulist base2 reading)
        stk).1.reduction_users, p.2.wf ∧ p.2.uidsBelow
          (base2 + (stk.2 + (blocks.map (fun b => b.2.length)).sum))) ∧
    (∀ p ∈ (blocks.foldl (ReductionView.rvBlockStep ulist base2 reading)
        stk).1.reading_users, p.2.wf ∧ p.2.uidsBelow
          (base2 + (stk.2 + (blocks.map (fun b => b.2.length)).sum))) ∧
    (((blocks.foldl (ReductionView.rvBlockStep ulist base2 reading)
        stk).1.reduction_users.map Prod.fst).Nodup) ∧
    (((blocks.foldl (ReductionView.rvBlockStep ulist base2 reading)
        stk).1.reading_users.map Prod.fst).Nodup) ∧
    (blocks.foldl (ReductionView.rvBlockStep ulist base2 reading)
        stk).1.next_uid = stk.1.next_uid := by
  intro blocks
  induction blocks with
  | nil =>
      intro stk h1 h2 h3 h4
      exact ⟨by simp, by simpa using h1, by simpa using h2, h3, h4, rfl⟩
  | cons b rest ih =>
      intro stk h1 h2 h3 h4
      have key := rv_inner_fold_wf ulist base2 reading b.1 b.2 stk h1 h2 h3 h4
      have hstepc : (ReductionView.rvBlockStep ulist base2 reading stk b).2
          = stk.2 + b.2.length := by
        unfold ReductionView.rvBlockStep
        exact key.1
      rw [List.foldl_cons]
      have hrec := ih (ReductionView.rvBlockStep ulist base2 reading stk b)
        (by
          intro p hp
          rw [hstepc]
          exact key.2.1 p hp)
        (by
          intro p hp
          rw [hstepc]
          exact key.2.2.1 p hp)
        key.2.2.2.1 key.2.2.2.2.1
      refine ⟨?_, ?_, ?_, hrec.2.2.2.1, hrec.2.2.2.2.1, ?_⟩
      · rw [hrec.1, hstepc]
        simp [Nat.add_assoc]
      · intro p hp
        have := hrec.2.1 p hp
        refine ⟨this.1, uidsBelow_mono _ _ _ this.2 ?_⟩
        rw [hstepc]
        simp [Nat.add_assoc]
      · intro p hp
        have := hrec.2.2.1 p hp
        refine ⟨this.1, uidsBelow_mono _ _ _ this.2 ?_⟩
        rw [hstepc]
        simp [Nat.add_assoc]
      · rw [hrec.2.2.2.2.2]
        unfold ReductionView.rvBlockStep
        exact key.2.2.2.2.2

theorem rv_process_update_wf (s : ReductionView.State)
    (upd : ReductionView.RVUpdate) (hok : ReductionView.RVUpdateOk upd)
    (h : ReductionView.StateWf s) :
    ReductionView.StateWf (ReductionView.process_update s upd) := by
  obtain ⟨h1, h2, h3, h4⟩ := h
  unfold ReductionView.process_update
  dsimp only
  have key1 := rv_blocks_fold_wf upd.red_users s.next_uid false upd.red_blocks
    ({ s with next_uid := s.next_uid + upd.red_users.length
        + upd.read_users.length }, 0)
    (by
      intro p hp
      exact ⟨(h1 p hp).1, uidsBelow_mono _ _ _ (h1 p hp).2 (Nat.le_add_right _ _)⟩)
    (by
      intro p hp
      exact ⟨(h2 p hp).1, uidsBelow_mono _ _ _ (h2 p hp).2 (Nat.le_add_right _ _)⟩)
    h3 h4
  have hbr : s.next_uid + (0 + (upd.red_blocks.map
      (fun b => b.2.length)).sum) = s.next_uid + upd.red_users.length := by
    rw [hok.1]
    omega
  have key2 := rv_blocks_fold_wf upd.read_users
    (s.next_uid + upd.red_users.length) true upd.read_blocks
    ((upd.red_blocks.foldl (ReductionView.rvBlockStep upd.red_users
      s.next_uid false)
      ({ s with next_uid := s.next_uid + upd.red_users.length
          + upd.read_users.length }, 0)).1, 0)
    (by
      intro p hp
      have hres := key1.2.1 p hp
      dsimp only at hres ⊢
      rw [hbr] at hres
      exact ⟨hres.1, by rw [Nat.add_zero]; exact hres.2⟩)
    (by
      intro p hp
      have hres := key1.2.2.1 p hp
      dsimp only at hres ⊢
      rw [hbr] at hres
      exact ⟨hres.1, by rw [Nat.add_zero]; exact hres.2⟩)
    key1.2.2.2.1 key1.2.2.2.2.1
  have hbr2 : s.next_uid + upd.red_users.length + (0 + (upd.read_blocks.map
      (fun b => b.2.length)).sum) = s.next_uid + upd.red_users.length
        + upd.read_users.length := by
    rw [hok.2]
    omega
  have hnext : (upd.read_blocks.foldl (ReductionView.rvBlockStep
      upd.read_users (s.next_uid + upd.red_users.length) true)
      ((upd.red_blocks.foldl (ReductionView.rvBlockStep upd.red_users
        s.next_uid false)
        ({ s with next_uid := s.next_uid + upd.red_users.length
            + upd.read_users.length }, 0)).1, 0)).1.next_uid
      = s.next_uid + upd.red_users.length + upd.read_users.length := by
    rw [key2.2.2.2.2.2, key1.2.2.2.2.2]
  refine ⟨?_, ?_, key2.2.2.2.1, key2.2.2.2.2.1⟩
  · intro p hp
    have hres := key2.2.1 p hp
    dsimp only at hres
    rw [hbr2] at hres
    refine ⟨hres.1, ?_⟩
    rw [hnext]
    exact hres.2
  · intro p hp
    have hres := key2.2.2.1 p hp
    dsimp only at hres
    rw [hbr2] at hres
    refine ⟨hres.1, ?_⟩
    rw [hnext]
    exact hres.2

theorem mv_reachable_wf (s : MaterializedView.State)
    (h : MaterializedView.Reachable s) : MaterializedView.StateWf s := by
  induction h with
  | init =>
      exact ⟨fun p hp => absurd hp (List.not_mem_nil p),
        fun p hp => absurd hp (List.not_mem_nil p),
        List.nodup_nil, List.nodup_nil⟩
  | addUser ctx use usage term mask vi hs ih =>
      exact mv_add_user_wf ctx use _ usage term mask vi ih
  | addUserAbove ctx usage term child vi mask pre0 hs ih =>
      exact add_local_user_wf ctx _ usage term false child vi mask pre0 ih
  | addCopyUser redop term vi mask reading hs ih =>
      exact mv_add_copy_user_wf _ redop term vi mask reading ih
  | addCopyUserAbove usage term child vi mask hs ih =>
      exact add_local_copy_user_wf _ usage term false child vi mask ih
  | findCopy ctx redop reading mask child vi pre0 hs ih =>
      exact find_local_copy_wf ctx _ redop reading mask child vi pre0 ih
  | gcFire e hs ih =>
      exact mv_filter_local_wf _ e ih
  | remoteUpdate upd hok hs ih =>
      exact mv_process_update_wf _ upd hok ih

theorem rv_reachable_wf (s : ReductionView.State)
    (h : ReductionView.Reachable s) : ReductionView.StateWf s := by
  induction h with
  | init =>
      exact ⟨fun p hp => absurd hp (List.not_mem_nil p),
        fun p hp => absurd hp (List.not_mem_nil p),
        List.nodup_nil, List.nodup_nil⟩
  | addUser use usage term mask hs ih =>
      exact rv_add_user_wf use _ usage term mask ih
  | addCopyUser redop term mask reading hs ih =>
      exact rv_add_copy_user_wf _ redop term mask reading ih
  | gcFire e hs ih =>
      exact rv_filter_local_wf _ e ih
  | remoteUpdate upd hok hs ih =>
      exact rv_process_update_wf _ upd hok ih

/-! ### The update wire format: sender and receiver characterizations -/

theorem setA_append_key {α β : Type} [DecidableEq α] (tbl0 : List (α × β))
    (e : α) (b0 v : β) (h : lookupA tbl0 e = none) :
    setA (tbl0 ++ [(e, b0)]) e v = tbl0 ++ [(e, v)] := by
  induction tbl0 with
  | nil => simp [setA]
  | cons hd tl ih =>
      obtain ⟨k, w⟩ := hd
      rw [lookupA_cons] at h
      by_cases hk : k = e
      · rw [if_pos hk] at h
        exact Option.noConfusion h
      · rw [if_neg hk] at h
        simp only [List.cons_append, setA, if_neg hk]
        exact congrArg _ (ih h)

theorem lookupA_append_self {α β : Type} [DecidableEq α]
    (tbl0 : List (α × β)) (e : α) (b0 : β) (h : lookupA tbl0 e = none) :
    lookupA (tbl0 ++ [(e, b0)]) e = some b0 := by
  rw [lookupA_append, h]
  simp [lookupA]

theorem tableOk_nil : MaterializedView.TableOk [] := rfl

theorem tableOk_append (T : List (PhysicalUser × Nat)) (u : PhysicalUser)
    (h : MaterializedView.TableOk T) :
    MaterializedView.TableOk (T ++ [(u, T.length)]) := by
  unfold MaterializedView.TableOk at h ⊢
  rw [List.map_append, h, List.length_append]
  simp [List.range_succ]

theorem lookup_swap_range (T : List (PhysicalUser × Nat)) :
    ∀ (a : Nat), T.map Prod.snd = List.range' a T.length →
    ∀ (u : PhysicalUser) (i : Nat), (u, i) ∈ T →
    lookupA (T.map fun q => (q.2, q.1)) i = some u := by
  induction T with
  | nil => intro a _ u i hm; cases hm
  | cons hd tl ih =>
      intro a hT u i hm
      obtain ⟨v, b⟩ := hd
      rw [List.map_cons, List.length_cons, List.range'_succ] at hT
      injection hT with hb htl
      rcases List.mem_cons.mp hm with heq | hmem
      · have h1 : u = v := congrArg Prod.fst heq
        have h2 : i = b := congrArg Prod.snd heq
        rw [List.map_cons, lookupA_cons, if_pos h2.symm, h1]
      · have hia : ¬b = i := by
          intro hbi
          have hmm : i ∈ tl.map Prod.snd := List.mem_map.mpr ⟨(u, i), hmem, rfl⟩
          rw [htl] at hmm
          have hrng := List.mem_range'_1.mp hmm
          omega
        rw [List.map_cons, lookupA_cons, if_neg hia]
        exact ih (a + 1) htl u i hmem

theorem tableOk_swap_lookup (T : List (PhysicalUser × Nat))
    (hT : MaterializedView.TableOk T) (u : PhysicalUser) (i : Nat)
    (hm : (u, i) ∈ T) :
    lookupA (T.map fun q => (q.2, q.1)) i = some u := by
  refine lookup_swap_range T 0 ?_ u i hm
  rw [hT, List.range_eq_range']

theorem bucket_build_entries :
    ∀ (l : List (PhysicalUser × FieldMask)) (b0 : EventUsers), b0.wf →
    (∀ p ∈ l, p.1.uid ∉ b0.uids) → ((l.map fun p => p.1.uid).Nodup) →
    (l.foldl (fun b p => b.addUser p.1 p.2) b0).entries = b0.entries ++ l ∧
    (l.foldl (fun b p => b.addUser p.1 p.2) b0).wf := by
  intro l
  induction l with
  | nil => intro b0 hwf _ _; exact ⟨by simp, hwf⟩
  | cons p l ih =>
      intro b0 hwf hfr hnd
      obtain ⟨hent, hwf1⟩ := EventUsers.addUser_entries_fresh b0 p.1 p.2 hwf
        (hfr p (List.mem_cons_self _ _))
      rw [List.foldl_cons]
      have hfr1 : ∀ q ∈ l, q.1.uid ∉ (b0.addUser p.1 p.2).uids := by
        intro q hq hmem
        unfold EventUsers.uids at hmem
        rw [hent, List.map_append] at hmem
        rcases List.mem_append.mp hmem with hmem | hmem
        · exact hfr q (List.mem_cons_of_mem _ hq) hmem
        · simp only [List.map_cons, List.map_nil, List.mem_singleton] at hmem
          rw [List.map_cons] at hnd
          exact (List.nodup_cons.mp hnd).1
            (hmem ▸ List.mem_map.mpr ⟨q, hq, rfl⟩)
      obtain ⟨hent2, hwf2⟩ := ih (b0.addUser p.1 p.2) hwf1 hfr1
        (by rw [List.map_cons] at hnd; exact (List.nodup_cons.mp hnd).2)
      refine ⟨?_, hwf2⟩
      rw [hent2, hent]
      simp

theorem add_current_fold_key_present (e : Event) :
    ∀ (l : List (PhysicalUser × FieldMask)) (st : MaterializedView.State)
      (tbl0 : List (Event × EventUsers)) (b0 : EventUsers),
    st.current_epoch_users = tbl0 ++ [(e, b0)] → lookupA tbl0 e = none →
    (l.foldl (fun a p => MaterializedView.add_current_user a p.1 e p.2)
      st).current_epoch_users
      = tbl0 ++ [(e, l.foldl (fun b p => b.addUser p.1 p.2) b0)] ∧
    (l.foldl (fun a p => MaterializedView.add_current_user a p.1 e p.2)
      st).previous_epoch_users = st.previous_epoch_users ∧
    (l.foldl (fun a p => MaterializedView.add_current_user a p.1 e p.2)
      st).next_uid = st.next_uid ∧
    (l.foldl (fun a p => MaterializedView.add_current_user a p.1 e p.2)
      st).outstanding_gc_events = st.outstanding_gc_events := by
  intro l
  induction l with
  | nil =>
      intro st tbl0 b0 hst h0
      exact ⟨by rw [List.foldl_nil, List.foldl_nil]; exact hst, rfl, rfl, rfl⟩
  | cons p l ih =>
      intro st tbl0 b0 hst h0
      have hlk : lookupA st.current_epoch_users e = some b0 := by
        rw [hst]
        exact lookupA_append_self tbl0 e b0 h0
      have hstep : (MaterializedView.add_current_user st p.1 e
          p.2).current_epoch_users = tbl0 ++ [(e, b0.addUser p.1 p.2)] := by
        unfold MaterializedView.add_current_user
        dsimp only
        rw [hlk]
        dsimp only [Option.getD]
        rw [hst]
        exact setA_append_key tbl0 e b0 _ h0
      rw [List.foldl_cons]
      obtain ⟨h1, h2, h3, h4⟩ := ih (MaterializedView.add_current_user st p.1
        e p.2) tbl0 (b0.addUser p.1 p.2) hstep h0
      exact ⟨by rw [h1, List.foldl_cons], by rw [h2]; rfl,
        by rw [h3]; rfl, by rw [h4]; rfl⟩

theorem add_current_fold_at_key (e : Event)
    (l : List (PhysicalUser × FieldMask)) (st : MaterializedView.State)
    (h0 : lookupA st.current_epoch_users e = none) (hne : l ≠ []) :
    (l.foldl (fun a p => MaterializedView.add_current_user a p.1 e p.2)
      st).current_epoch_users
      = st.current_epoch_users ++ [(e, MaterializedView.foldBucket l)] ∧
    (l.foldl (fun a p => MaterializedView.add_current_user a p.1 e p.2)
      st).previous_epoch_users = st.previous_epoch_users ∧
    (l.foldl (fun a p => MaterializedView.add_current_user a p.1 e p.2)
      st).next_uid = st.next_uid ∧
    (l.foldl (fun a p => MaterializedView.add_current_user a p.1 e p.2)
      st).outstanding_gc_events = st.outstanding_gc_events := by
  cases l with
  | nil => exact absurd rfl hne
  | cons p l =>
      have hstep : (MaterializedView.add_current_user st p.1 e
          p.2).current_epoch_users
          = st.current_epoch_users ++ [(e, emptyEU.addUser p.1 p.2)] := by
        unfold MaterializedView.add_current_user
        dsimp only
        rw [h0]
        dsimp only [Option.getD]
        exact setA_keys_absent _ e _ ((lookupA_none_iff _ e).mp h0)
      rw [List.foldl_cons]
      obtain ⟨h1, h2, h3, h4⟩ := add_current_fold_key_present e l
        (MaterializedView.add_current_user st p.1 e p.2)
        st.current_epoch_users (emptyEU.addUser p.1 p.2) hstep h0
      refine ⟨?_, by rw [h2]; rfl, by rw [h3]; rfl, by rw [h4]; rfl⟩
      rw [h1]
      rfl

/-- The buckets of a table that overlap a mask (the entries the update
walks visit and the local reference replays). -/
def MaterializedView.liveList (mask : FieldMask) :
    List (Event × EventUsers) → List (Event × EventUsers)
  | [] => []
  | pe :: l =>
      if pe.2.user_mask ∩ mask = ∅ then MaterializedView.liveList mask l
      else pe :: MaterializedView.liveList mask l

/-- Faithfulness of one emitted block to its source bucket: same event,
decoded entries matching the overlapping user/mask pairs through the
deduplication table, a nonempty decode, and the count encoding (an
emitted multi block carries count `-(n+1)` for its `n` entries, and
never exactly one entry, that case having collapsed to single form). -/
def MaterializedView.blockMatches (T : List (PhysicalUser × Nat))
    (mask : FieldMask) (pe : Event × EventUsers)
    (pb : Event × MaterializedView.UpdateBlock) : Prop :=
  pb.1 = pe.1 ∧
  List.Forall₂ (MaterializedView.PairOk T) (MaterializedView.decodeBlock pb.2)
    (MaterializedView.overlappingEntries pe.2 (pe.2.user_mask ∩ mask)) ∧
  MaterializedView.decodeBlock pb.2 ≠ [] ∧
  ∀ c ents, pb.2 = UpdateBlock.multi c ents →
    c = -(ents.length + 1) ∧ ents.length ≠ 1

theorem forall2_mem_left {α β : Type} {R : α → β → Prop} :
    ∀ {l1 : List α} {l2 : List β}, List.Forall₂ R l1 l2 →
    ∀ a ∈ l1, ∃ b ∈ l2, R a b := by
  intro l1 l2 h
  induction h with
  | nil => intro a ha; cases ha
  | cons hr _ ih =>
      intro a ha
      rcases List.mem_cons.mp ha with rfl | ha
      · exact ⟨_, List.mem_cons_self _ _, hr⟩
      · obtain ⟨b, hb, hrb⟩ := ih a ha
        exact ⟨b, List.mem_cons_of_mem _ hb, hrb⟩

theorem forall2_mem_right {α β : Type} {R : α → β → Prop} :
    ∀ {l1 : List α} {l2 : List β}, List.Forall₂ R l1 l2 →
    ∀ b ∈ l2, ∃ a ∈ l1, R a b := by
  intro l1 l2 h
  induction h with
  | nil => intro b hb; cases hb
  | cons hr _ ih =>
      intro b hb
      rcases List.mem_cons.mp hb with rfl | hb
      · exact ⟨_, List.mem_cons_self _ _, hr⟩
      · obtain ⟨a, ha, hra⟩ := ih b hb
        exact ⟨a, List.mem_cons_of_mem _ ha, hra⟩

theorem pairOk_mono (T Δ : List (PhysicalUser × Nat)) (q : Nat × FieldMask)
    (p : PhysicalUser × FieldMask) (h : MaterializedView.PairOk T q p) :
    MaterializedView.PairOk (T ++ Δ) q p :=
  ⟨List.mem_append_left _ h.1, h.2⟩

theorem blockMatches_mono (T Δ : List (PhysicalUser × Nat))
    (mask : FieldMask) (pe : Event × EventUsers)
    (pb : Event × MaterializedView.UpdateBlock)
    (h : MaterializedView.blockMatches T mask pe pb) :
    MaterializedView.blockMatches (T ++ Δ) mask pe pb :=
  ⟨h.1, h.2.1.imp (fun a b hab => pairOk_mono T Δ a b hab), h.2.2⟩

theorem tableOk_index_inj (T : List (PhysicalUser × Nat))
    (hT : MaterializedView.TableOk T) (u1 u2 : PhysicalUser) (i : Nat)
    (h1 : (u1, i) ∈ T) (h2 : (u2, i) ∈ T) : u1 = u2 := by
  have a1 := tableOk_swap_lookup T hT u1 i h1
  have a2 := tableOk_swap_lookup T hT u2 i h2
  rw [a1] at a2
  exact Option.some_inj.mp a2

theorem pairOk_forall2_nodup (T : List (PhysicalUser × Nat))
    (hT : MaterializedView.TableOk T) :
    ∀ {dec : List (Nat × FieldMask)} {loc : List (PhysicalUser × FieldMask)},
    List.Forall₂ (MaterializedView.PairOk T) dec loc →
    (loc.map Prod.fst).Nodup → (dec.map Prod.fst).Nodup := by
  intro dec loc h
  induction h with
  | nil => intro _; simp
  | cons hr htl ih =>
      rename_i q p dec loc
      intro hnd
      rw [List.map_cons, List.nodup_cons] at hnd ⊢
      refine ⟨?_, ih hnd.2⟩
      intro hq
      obtain ⟨q2, hq2, hq2e⟩ := List.mem_map.mp hq
      obtain ⟨p2, hp2, hrel⟩ := forall2_mem_left htl q2 hq2
      have : p2.1 = p.1 := by
        refine tableOk_index_inj T hT p2.1 p.1 q.1 ?_ hr.1
        rw [show q.1 = q2.1 from hq2e.symm]
        exact hrel.1
      exact hnd.1 (this ▸ List.mem_map.mpr ⟨p2, hp2, rfl⟩)

theorem sumMasks_mem_exists (f : Nat) :
    ∀ (l : List (PhysicalUser × FieldMask)), f ∈ sumMasks l →
    ∃ p ∈ l, f ∈ p.2 := by
  intro l
  induction l with
  | nil => intro h; simp [sumMasks] at h
  | cons hd tl ih =>
      intro h
      rw [sumMasks_cons, Finset.mem_union] at h
      rcases h with h | h
      · exact ⟨hd, List.mem_cons_self _ _, h⟩
      · obtain ⟨p, hp, hf⟩ := ih h
        exact ⟨p, List.mem_cons_of_mem _ hp, hf⟩

theorem oe_keys_sublist (eu : EventUsers) (ov : FieldMask) :
    ((MaterializedView.overlappingEntries eu ov).map Prod.fst).Sublist
      (eu.entries.map Prod.fst) := by
  unfold MaterializedView.overlappingEntries EventUsers.entries
  by_cases hs : eu.single
  · rw [if_pos hs, if_pos hs]
    cases eu.single_user with
    | none => simp
    | some u => simp
  · rw [if_neg hs, if_neg hs]
    induction eu.multi_users with
    | nil => simp
    | cons hd tl ih =>
        rw [List.filterMap_cons]
        by_cases h : hd.2 ∩ ov = ∅
        · rw [if_pos h, List.map_cons]
          exact ih.cons _
        · rw [if_neg h, List.map_cons, List.map_cons]
          exact ih.cons₂ _

theorem oe_ne_nil (eu : EventUsers) (ov : FieldMask) (hwf : eu.maskWf)
    (hov : ov ≠ ∅) (hsub : ov ⊆ eu.user_mask) :
    MaterializedView.overlappingEntries eu ov ≠ [] := by
  obtain ⟨f, hf⟩ := Finset.nonempty_iff_ne_empty.mpr hov
  have hfu : f ∈ sumMasks eu.entries := by
    rw [← hwf]
    exact hsub hf
  obtain ⟨p, hp, hfp⟩ := sumMasks_mem_exists f eu.entries hfu
  unfold MaterializedView.overlappingEntries
  unfold EventUsers.entries at hp
  by_cases hs : eu.single
  · rw [if_pos hs] at hp ⊢
    cases hsu : eu.single_user with
    | none => rw [hsu] at hp; cases hp
    | some u => simp
  · rw [if_neg hs] at hp ⊢
    intro hnil
    have : p.2 ∩ ov ≠ ∅ := by
      intro he
      have : f ∈ p.2 ∩ ov := Finset.mem_inter.mpr ⟨hfp, hf⟩
      rw [he] at this
      exact absurd this (Finset.not_mem_empty f)
    have hmem : (p.1, p.2 ∩ ov) ∈ eu.multi_users.filterMap
        (fun p => if p.2 ∩ ov = ∅ then none else some (p.1, p.2 ∩ ov)) := by
      rw [List.mem_filterMap]
      exact ⟨p, hp, by rw [if_neg this]⟩
    rw [hnil] at hmem
    cases hmem

theorem liveList_sublist (mask : FieldMask) :
    ∀ (l : List (Event × EventUsers)),
    (MaterializedView.liveList mask l).Sublist l := by
  intro l
  induction l with
  | nil => exact List.Sublist.refl _
  | cons pe l ih =>
      unfold MaterializedView.liveList
      by_cases h : pe.2.user_mask ∩ mask = ∅
      · rw [if_pos h]
        exact ih.cons _
      · rw [if_neg h]
        exact ih.cons₂ _

theorem liveList_cons (mask : FieldMask) (pe : Event × EventUsers)
    (l : List (Event × EventUsers)) :
    MaterializedView.liveList mask (pe :: l) =
    if pe.2.user_mask ∩ mask = ∅ then MaterializedView.liveList mask l
    else pe :: MaterializedView.liveList mask l := rfl

theorem liveList_mem (mask : FieldMask) (l : List (Event × EventUsers))
    (pe : Event × EventUsers) (h : pe ∈ MaterializedView.liveList mask l) :
    pe ∈ l ∧ pe.2.user_mask ∩ mask ≠ ∅ := by
  induction l with
  | nil => cases h
  | cons hd tl ih =>
      unfold MaterializedView.liveList at h
      by_cases hh : hd.2.user_mask ∩ mask = ∅
      · rw [if_pos hh] at h
        obtain ⟨h1, h2⟩ := ih h
        exact ⟨List.mem_cons_of_mem _ h1, h2⟩
      · rw [if_neg hh] at h
        rcases List.mem_cons.mp h with rfl | h
        · exact ⟨List.mem_cons_self _ _, hh⟩
        · obtain ⟨h1, h2⟩ := ih h
          exact ⟨List.mem_cons_of_mem _ h1, h2⟩

theorem packCur_inner (ov : FieldMask) :
    ∀ (l : List (PhysicalUser × FieldMask)) (tbl : List (PhysicalUser × Nat))
      (c : Int) (ents : List (Nat × FieldMask))
      (r : List (PhysicalUser × Nat) × Int × List (Nat × FieldMask)),
    r = l.foldl (MaterializedView.packCurStep ov) (tbl, c, ents) →
    MaterializedView.TableOk tbl → (tbl.map Prod.fst).Nodup →
    (∀ p ∈ l, p.1 ∉ tbl.map Prod.fst) → (l.map Prod.fst).Nodup →
    (∃ Δ, r.1 = tbl ++ Δ ∧ ∀ u ∈ Δ.map Prod.fst, u ∈ l.map Prod.fst) ∧
    MaterializedView.TableOk r.1 ∧ (r.1.map Prod.fst).Nodup ∧
    ∃ Δe, r.2.2 = ents ++ Δe ∧
      List.Forall₂ (MaterializedView.PairOk r.1) Δe
        (l.filterMap fun p =>
          if p.2 ∩ ov = ∅ then none else some (p.1, p.2 ∩ ov)) ∧
      r.2.1 = c - Δe.length := by
  intro l
  induction l with
  | nil =>
      intro tbl c ents r hr hT hnd _ _
      rw [List.foldl_nil] at hr
      subst hr
      exact ⟨⟨[], by simp, by simp⟩, hT, hnd,
        ⟨[], by simp, List.Forall₂.nil, by simp⟩⟩
  | cons p l ih =>
      intro tbl c ents r hr hT hnd hfr hlnd
      rw [List.foldl_cons] at hr
      by_cases hskip : p.2 ∩ ov = ∅
      · rw [show MaterializedView.packCurStep ov (tbl, c, ents) p = (tbl, c, ents) from by
          unfold MaterializedView.packCurStep
          dsimp only
          rw [if_pos hskip]] at hr
        obtain ⟨⟨Δ, hΔ1, hΔ2⟩, h2, h3, ⟨Δe, he1, he2, he3⟩⟩ :=
          ih tbl c ents r hr hT hnd
            (fun q hq => hfr q (List.mem_cons_of_mem _ hq))
            (by rw [List.map_cons] at hlnd; exact (List.nodup_cons.mp hlnd).2)
        refine ⟨⟨Δ, hΔ1, ?_⟩, h2, h3, ⟨Δe, he1, ?_, he3⟩⟩
        · intro u hu
          exact List.mem_cons_of_mem _ (hΔ2 u hu)
        · rw [List.filterMap_cons, if_pos hskip]
          exact he2
      · have hpf : p.1 ∉ tbl.map Prod.fst := hfr p (List.mem_cons_self _ _)
        have hset : setA tbl p.1 tbl.length = tbl ++ [(p.1, tbl.length)] :=
          setA_keys_not_mem tbl p.1 tbl.length hpf
        rw [show MaterializedView.packCurStep ov (tbl, c, ents) p
            = (tbl ++ [(p.1, tbl.length)], c - 1,
               ents ++ [(tbl.length, p.2 ∩ ov)]) from by
          unfold MaterializedView.packCurStep
          dsimp only
          rw [if_neg hskip, hset]] at hr
        have hT2 : MaterializedView.TableOk (tbl ++ [(p.1, tbl.length)]) :=
          tableOk_append tbl p.1 hT
        have hnd2 : ((tbl ++ [(p.1, tbl.length)]).map Prod.fst).Nodup := by
          rw [List.map_append]
          refine List.Nodup.append hnd (by simp) ?_
          intro x hx
          simp only [List.map_cons, List.map_nil, List.mem_singleton]
          intro hxe
          subst hxe
          exact hpf hx
        have hfr2 : ∀ q ∈ l, q.1 ∉ (tbl ++ [(p.1, tbl.length)]).map Prod.fst := by
          intro q hq hmem
          rw [List.map_append, List.mem_append] at hmem
          rcases hmem with hmem | hmem
          · exact hfr q (List.mem_cons_of_mem _ hq) hmem
          · simp only [List.map_cons, List.map_nil, List.mem_singleton] at hmem
            rw [List.map_cons] at hlnd
            exact (List.nodup_cons.mp hlnd).1
              (hmem ▸ List.mem_map.mpr ⟨q, hq, rfl⟩)
        obtain ⟨⟨Δ, hΔ1, hΔ2⟩, h2, h3, ⟨Δe, he1, he2, he3⟩⟩ :=
          ih (tbl ++ [(p.1, tbl.length)]) (c - 1) (ents ++ [(tbl.length, p.2 ∩ ov)])
            r hr hT2 hnd2 hfr2
            (by rw [List.map_cons] at hlnd; exact (List.nodup_cons.mp hlnd).2)
        refine ⟨⟨(p.1, tbl.length) :: Δ, ?_, ?_⟩, h2, h3,
          ⟨(tbl.length, p.2 ∩ ov) :: Δe, ?_, ?_, ?_⟩⟩
        · rw [hΔ1, List.append_assoc]
          rfl
        · intro u hu
          rw [List.map_cons, List.mem_cons] at hu
          rcases hu with rfl | hu
          · exact List.mem_map.mpr ⟨p, List.mem_cons_self _ _, rfl⟩
          · exact List.mem_cons_of_mem _ (hΔ2 u hu)
        · rw [he1, List.append_assoc]
          rfl
        · rw [List.filterMap_cons, if_neg hskip]
          refine List.Forall₂.cons ⟨?_, rfl⟩ he2
          rw [hΔ1]
          exact List.mem_append_left _ (List.mem_append_right _
            (List.mem_singleton.mpr rfl))
        · rw [he3]
          simp only [List.length_cons]
          push_cast
          omega

theorem packPrev_inner (ov : FieldMask) :
    ∀ (l : List (PhysicalUser × FieldMask)) (tbl : List (PhysicalUser × Nat))
      (c : Int) (ents : List (Nat × FieldMask))
      (r : List (PhysicalUser × Nat) × Int × List (Nat × FieldMask)),
    r = l.foldl (MaterializedView.packPrevStep ov) (tbl, c, ents) →
    MaterializedView.TableOk tbl → (tbl.map Prod.fst).Nodup →
    (∃ Δ, r.1 = tbl ++ Δ) ∧
    MaterializedView.TableOk r.1 ∧ (r.1.map Prod.fst).Nodup ∧
    ∃ Δe, r.2.2 = ents ++ Δe ∧
      List.Forall₂ (MaterializedView.PairOk r.1) Δe
        (l.filterMap fun p =>
          if p.2 ∩ ov = ∅ then none else some (p.1, p.2 ∩ ov)) ∧
      r.2.1 = c - Δe.length := by
  intro l
  induction l with
  | nil =>
      intro tbl c ents r hr hT hnd
      rw [List.foldl_nil] at hr
      subst hr
      exact ⟨⟨[], by simp⟩, hT, hnd, ⟨[], by simp, List.Forall₂.nil, by simp⟩⟩
  | cons p l ih =>
      intro tbl c ents r hr hT hnd
      rw [List.foldl_cons] at hr
      by_cases hskip : p.2 ∩ ov = ∅
      · rw [show MaterializedView.packPrevStep ov (tbl, c, ents) p = (tbl, c, ents) from by
          unfold MaterializedView.packPrevStep
          dsimp only
          rw [if_pos hskip]] at hr
        obtain ⟨⟨Δ, hΔ1⟩, h2, h3, ⟨Δe, he1, he2, he3⟩⟩ := ih tbl c ents r hr hT hnd
        refine ⟨⟨Δ, hΔ1⟩, h2, h3, ⟨Δe, he1, ?_, he3⟩⟩
        rw [List.filterMap_cons, if_pos hskip]
        exact he2
      · cases hlk : lookupA tbl p.1 with
        | some i =>
            rw [show MaterializedView.packPrevStep ov (tbl, c, ents) p
                = (tbl, c - 1, ents ++ [(i, p.2 ∩ ov)]) from by
              unfold MaterializedView.packPrevStep
              dsimp only
              rw [if_neg hskip, hlk]] at hr
            obtain ⟨⟨Δ, hΔ1⟩, h2, h3, ⟨Δe, he1, he2, he3⟩⟩ :=
              ih tbl (c - 1) (ents ++ [(i, p.2 ∩ ov)]) r hr hT hnd
            refine ⟨⟨Δ, hΔ1⟩, h2, h3,
              ⟨(i, p.2 ∩ ov) :: Δe, ?_, ?_, ?_⟩⟩
            · rw [he1, List.append_assoc]
              rfl
            · rw [List.filterMap_cons, if_neg hskip]
              refine List.Forall₂.cons ⟨?_, rfl⟩ he2
              rw [hΔ1]
              exact List.mem_append_left _ (lookupA_mem tbl p.1 i hlk)
            · rw [he3]
              simp only [List.length_cons]
              push_cast
              omega
        | none =>
            have hpf : p.1 ∉ tbl.map Prod.fst := (lookupA_none_iff tbl p.1).mp hlk
            have hset : setA tbl p.1 tbl.length = tbl ++ [(p.1, tbl.length)] :=
              setA_keys_not_mem tbl p.1 tbl.length hpf
            rw [show MaterializedView.packPrevStep ov (tbl, c, ents) p
                = (tbl ++ [(p.1, tbl.length)], c - 1,
                   ents ++ [(tbl.length, p.2 ∩ ov)]) from by
              unfold MaterializedView.packPrevStep
              dsimp only
              rw [if_neg hskip, hlk, hset]] at hr
            have hT2 : MaterializedView.TableOk (tbl ++ [(p.1, tbl.length)]) :=
              tableOk_append tbl p.1 hT
            have hnd2 : ((tbl ++ [(p.1, tbl.length)]).map Prod.fst).Nodup := by
              rw [List.map_append]
              refine List.Nodup.append hnd (by simp) ?_
              intro x hx
              simp only [List.map_cons, List.map_nil, List.mem_singleton]
              intro hxe
              subst hxe
              exact hpf hx
            obtain ⟨⟨Δ, hΔ1⟩, h2, h3, ⟨Δe, he1, he2, he3⟩⟩ :=
              ih (tbl ++ [(p.1, tbl.length)]) (c - 1)
                (ents ++ [(tbl.length, p.2 ∩ ov)]) r hr hT2 hnd2
            refine ⟨⟨(p.1, tbl.length) :: Δ, ?_⟩, h2, h3,
              ⟨(tbl.length, p.2 ∩ ov) :: Δe, ?_, ?_, ?_⟩⟩
            · rw [hΔ1, List.append_assoc]
              rfl
            · rw [he1, List.append_assoc]
              rfl
            · rw [List.filterMap_cons, if_neg hskip]
              refine List.Forall₂.cons ⟨?_, rfl⟩ he2
              rw [hΔ1]
              exact List.mem_append_left _ (List.mem_append_right _
                (List.mem_singleton.mpr rfl))
            · rw [he3]
              simp only [List.length_cons]
              push_cast
              omega

theorem packCurrentBucket_spec (T : List (PhysicalUser × Nat))
    (eu : EventUsers) (ov : FieldMask) (hT : MaterializedView.TableOk T)
    (hnd : (T.map Prod.fst).Nodup) (hwf : eu.wf) (hov : ov ≠ ∅)
    (hsub : ov ⊆ eu.user_mask)
    (hfr : ∀ u ∈ eu.entries.map Prod.fst, u ∉ T.map Prod.fst) :
    (∃ Δ, (MaterializedView.packCurrentBucket T eu ov).1 = T ++ Δ ∧
      ∀ u ∈ Δ.map Prod.fst, u ∈ eu.entries.map Prod.fst) ∧
    MaterializedView.TableOk (MaterializedView.packCurrentBucket T eu ov).1 ∧
    (((MaterializedView.packCurrentBucket T eu ov).1).map Prod.fst).Nodup ∧
    List.Forall₂
      (MaterializedView.PairOk (MaterializedView.packCurrentBucket T eu ov).1)
      (MaterializedView.decodeBlock (MaterializedView.packCurrentBucket T eu ov).2)
      (MaterializedView.overlappingEntries eu ov) ∧
    MaterializedView.decodeBlock (MaterializedView.packCurrentBucket T eu ov).2 ≠ [] ∧
    ∀ c ents, (MaterializedView.packCurrentBucket T eu ov).2
      = MaterializedView.UpdateBlock.multi c ents →
      c = -(ents.length + 1) ∧ ents.length ≠ 1 := by
  by_cases hs : eu.single = true
  · cases hsu : eu.single_user with
    | none =>
        have hm0 : eu.user_mask = ∅ := by
          have := hwf.1
          unfold EventUsers.maskWf EventUsers.entries at this
          rw [if_pos hs, hsu] at this
          simpa using this
        rw [hm0] at hsub
        exact absurd (Finset.subset_empty.mp hsub) hov
    | some u =>
        have humem : u ∈ eu.entries.map Prod.fst := by
          unfold EventUsers.entries
          rw [if_pos hs, hsu]
          simp
        have hset : setA T u T.length = T ++ [(u, T.length)] :=
          setA_keys_not_mem T u T.length (hfr u humem)
        have hpack : MaterializedView.packCurrentBucket T eu ov
            = (T ++ [(u, T.length)],
               MaterializedView.UpdateBlock.single T.length ov) := by
          unfold MaterializedView.packCurrentBucket
          rw [if_pos hs, hsu]
          dsimp only
          rw [hset]
        have hoe : MaterializedView.overlappingEntries eu ov = [(u, ov)] := by
          unfold MaterializedView.overlappingEntries
          rw [if_pos hs, hsu]
        rw [hpack]
        refine ⟨⟨[(u, T.length)], rfl, ?_⟩, tableOk_append T u hT, ?_, ?_, ?_, ?_⟩
        · intro x hx
          simp only [List.map_cons, List.map_nil, List.mem_singleton] at hx
          rw [hx]
          exact humem
        · rw [List.map_append]
          refine List.Nodup.append hnd (by simp) ?_
          intro x hx
          simp only [List.map_cons, List.map_nil, List.mem_singleton]
          intro hxe
          rw [hxe] at hx
          exact hfr u humem hx
        · rw [hoe]
          refine List.Forall₂.cons ⟨?_, rfl⟩ List.Forall₂.nil
          exact List.mem_append_right _ (List.mem_singleton.mpr rfl)
        · intro h
          cases h
        · intro c ents h
          exact MaterializedView.UpdateBlock.noConfusion h
  · have hs2 : eu.single = false := by
      cases h : eu.single
      · rfl
      · exact absurd h hs
    have hee : eu.entries = eu.multi_users := by
      simp [EventUsers.entries, hs2]
    have hoe : MaterializedView.overlappingEntries eu ov
        = eu.multi_users.filterMap (fun p =>
            if p.2 ∩ ov = ∅ then none else some (p.1, p.2 ∩ ov)) := by
      simp [MaterializedView.overlappingEntries, hs2]
    set r0 := eu.multi_users.foldl (MaterializedView.packCurStep ov)
      (T, -1, []) with hr0
    obtain ⟨⟨Δ, hΔ1, hΔ2⟩, hT2, hnd2, ⟨Δe, he1, he2, he3⟩⟩ :=
      packCur_inner ov eu.multi_users T (-1) [] r0 hr0 hT hnd
        (fun p hp => hfr p.1 (by rw [hee]; exact List.mem_map.mpr ⟨p, hp, rfl⟩))
        hwf.2.1
    rw [List.nil_append] at he1
    have hΔene : Δe ≠ [] := by
      intro h
      have hne := oe_ne_nil eu ov hwf.1 hov hsub
      rw [hoe] at hne
      have hlen := he2.length_eq
      rw [h] at hlen
      exact hne (List.length_eq_zero.mp hlen.symm)
    have hΔkeys : ∀ u ∈ Δ.map Prod.fst, u ∈ eu.entries.map Prod.fst := by
      intro u hu
      rw [hee]
      exact hΔ2 u hu
    by_cases hc : r0.2.1 = -2
    · have hlen1 : Δe.length = 1 := by
        rw [he3] at hc
        omega
      obtain ⟨q, hq⟩ := List.length_eq_one.mp hlen1
      have hhead : r0.2.2.head? = some q := by
        rw [he1, hq]
        rfl
      have hpack : MaterializedView.packCurrentBucket T eu ov
          = (r0.1, MaterializedView.UpdateBlock.single q.1 q.2) := by
        unfold MaterializedView.packCurrentBucket
        rw [if_neg hs]
        dsimp only
        rw [← hr0, if_pos hc, hhead]
      rw [hpack]
      refine ⟨⟨Δ, hΔ1, hΔkeys⟩, hT2, hnd2, ?_,
        by simp [MaterializedView.decodeBlock], ?_⟩
      · have hdec : MaterializedView.decodeBlock
            (MaterializedView.UpdateBlock.single q.1 q.2) = Δe := by
          rw [hq]
          rfl
        rw [hdec, hoe]
        exact he2
      · intro c ents h
        exact MaterializedView.UpdateBlock.noConfusion h
    · have hpack : MaterializedView.packCurrentBucket T eu ov
          = (r0.1, MaterializedView.UpdateBlock.multi r0.2.1 r0.2.2) := by
        unfold MaterializedView.packCurrentBucket
        rw [if_neg hs]
        dsimp only
        rw [← hr0, if_neg hc]
      have hdec : MaterializedView.decodeBlock
          (MaterializedView.UpdateBlock.multi r0.2.1 r0.2.2) = Δe := by
        rw [he1, he3]
        simp only [MaterializedView.decodeBlock]
        have htn : (-(-1 - (Δe.length : Int)) - 1).toNat = Δe.length := by
          omega
        rw [htn, List.take_length]
      rw [hpack]
      refine ⟨⟨Δ, hΔ1, hΔkeys⟩, hT2, hnd2, ?_, ?_, ?_⟩
      · rw [hdec, hoe]
        exact he2
      · rw [hdec]
        exact hΔene
      · intro c ents h
        injection h with h1 h2
        subst h1
        subst h2
        constructor
        · rw [he3, he1]
          push_cast
          omega
        · intro hl1
          apply hc
          rw [he3]
          rw [he1] at hl1
          omega

theorem packPreviousBucket_spec (T : List (PhysicalUser × Nat))
    (eu : EventUsers) (ov : FieldMask) (hT : MaterializedView.TableOk T)
    (hnd : (T.map Prod.fst).Nodup) (hwf : eu.wf) (hov : ov ≠ ∅)
    (hsub : ov ⊆ eu.user_mask) :
    (∃ Δ, (MaterializedView.packPreviousBucket T eu ov).1 = T ++ Δ) ∧
    MaterializedView.TableOk (MaterializedView.packPreviousBucket T eu ov).1 ∧
    (((MaterializedView.packPreviousBucket T eu ov).1).map Prod.fst).Nodup ∧
    List.Forall₂
      (MaterializedView.PairOk (MaterializedView.packPreviousBucket T eu ov).1)
      (MaterializedView.decodeBlock (MaterializedView.packPreviousBucket T eu ov).2)
      (MaterializedView.overlappingEntries eu ov) ∧
    MaterializedView.decodeBlock (MaterializedView.packPreviousBucket T eu ov).2 ≠ [] ∧
    ∀ c ents, (MaterializedView.packPreviousBucket T eu ov).2
      = MaterializedView.UpdateBlock.multi c ents →
      c = -(ents.length + 1) ∧ ents.length ≠ 1 := by
  by_cases hs : eu.single = true
  · cases hsu : eu.single_user with
    | none =>
        have hm0 : eu.user_mask = ∅ := by
          have := hwf.1
          unfold EventUsers.maskWf EventUsers.entries at this
          rw [if_pos hs, hsu] at this
          simpa using this
        rw [hm0] at hsub
        exact absurd (Finset.subset_empty.mp hsub) hov
    | some u =>
        have hoe : MaterializedView.overlappingEntries eu ov = [(u, ov)] := by
          unfold MaterializedView.overlappingEntries
          rw [if_pos hs, hsu]
        cases hlk : lookupA T u with
        | some i =>
            have hpack : MaterializedView.packPreviousBucket T eu ov
                = (T, MaterializedView.UpdateBlock.single i ov) := by
              unfold MaterializedView.packPreviousBucket
              rw [if_pos hs, hsu]
              dsimp only
              rw [hlk]
            rw [hpack]
            refine ⟨⟨[], by simp⟩, hT, hnd, ?_,
              by simp [MaterializedView.decodeBlock], ?_⟩
            · rw [hoe]
              exact List.Forall₂.cons ⟨lookupA_mem T u i hlk, rfl⟩
                List.Forall₂.nil
            · intro c ents h
              exact MaterializedView.UpdateBlock.noConfusion h
        | none =>
            have hset : setA T u T.length = T ++ [(u, T.length)] :=
              setA_keys_not_mem T u T.length ((lookupA_none_iff T u).mp hlk)
            have hpack : MaterializedView.packPreviousBucket T eu ov
                = (T ++ [(u, T.length)],
                   MaterializedView.UpdateBlock.single T.length ov) := by
              unfold MaterializedView.packPreviousBucket
              rw [if_pos hs, hsu]
              dsimp only
              rw [hlk]
              dsimp only
              rw [hset]
            rw [hpack]
            refine ⟨⟨[(u, T.length)], rfl⟩, tableOk_append T u hT, ?_, ?_,
              by simp [MaterializedView.decodeBlock], ?_⟩
            · rw [List.map_append]
              refine List.Nodup.append hnd (by simp) ?_
              intro x hx
              simp only [List.map_cons, List.map_nil, List.mem_singleton]
              intro hxe
              rw [hxe] at hx
              exact (lookupA_none_iff T u).mp hlk hx
            · rw [hoe]
              refine List.Forall₂.cons ⟨?_, rfl⟩ List.Forall₂.nil
              exact List.mem_append_right _ (List.mem_singleton.mpr rfl)
            · intro c ents h
              exact MaterializedView.UpdateBlock.noConfusion h
  · have hs2 : eu.single = false := by
      cases h : eu.single
      · rfl
      · exact absurd h hs
    have hoe : MaterializedView.overlappingEntries eu ov
        = eu.multi_users.filterMap (fun p =>
            if p.2 ∩ ov = ∅ then none else some (p.1, p.2 ∩ ov)) := by
      simp [MaterializedView.overlappingEntries, hs2]
    set r0 := eu.multi_users.foldl (MaterializedView.packPrevStep ov)
      (T, -1, []) with hr0
    obtain ⟨⟨Δ, hΔ1⟩, hT2, hnd2, ⟨Δe, he1, he2, he3⟩⟩ :=
      packPrev_inner ov eu.multi_users T (-1) [] r0 hr0 hT hnd
    rw [List.nil_append] at he1
    have hΔene : Δe ≠ [] := by
      intro h
      have hne := oe_ne_nil eu ov hwf.1 hov hsub
      rw [hoe] at hne
      have hlen := he2.length_eq
      rw [h] at hlen
      exact hne (List.length_eq_zero.mp hlen.symm)
    by_cases hc : r0.2.1 = -2
    · have hlen1 : Δe.length = 1 := by
        rw [he3] at hc
        omega
      obtain ⟨q, hq⟩ := List.length_eq_one.mp hlen1
      have hhead : r0.2.2.head? = some q := by
        rw [he1, hq]
        rfl
      have hpack : MaterializedView.packPreviousBucket T eu ov
          = (r0.1, MaterializedView.UpdateBlock.single q.1 q.2) := by
        unfold MaterializedView.packPreviousBucket
        rw [if_neg hs]
        dsimp only
        rw [← hr0, if_pos hc, hhead]
      rw [hpack]
      refine ⟨⟨Δ, hΔ1⟩, hT2, hnd2, ?_,
        by simp [MaterializedView.decodeBlock], ?_⟩
      · have hdec : MaterializedView.decodeBlock
            (MaterializedView.UpdateBlock.single q.1 q.2) = Δe := by
          rw [hq]
          rfl
        rw [hdec, hoe]
        exact he2
      · intro c ents h
        exact MaterializedView.UpdateBlock.noConfusion h
    · have hpack : MaterializedView.packPreviousBucket T eu ov
          = (r0.1, MaterializedView.UpdateBlock.multi r0.2.1 r0.2.2) := by
        unfold MaterializedView.packPreviousBucket
        rw [if_neg hs]
        dsimp only
        rw [← hr0, if_neg hc]
      have hdec : MaterializedView.decodeBlock
          (MaterializedView.UpdateBlock.multi r0.2.1 r0.2.2) = Δe := by
        rw [he1, he3]
        simp only [MaterializedView.decodeBlock]
        have htn : (-(-1 - (Δe.length : Int)) - 1).toNat = Δe.length := by
          omega
        rw [htn, List.take_length]
      rw [hpack]
      refine ⟨⟨Δ, hΔ1⟩, hT2, hnd2, ?_, ?_, ?_⟩
      · rw [hdec, hoe]
        exact he2
      · rw [hdec]
        exact hΔene
      · intro c ents h
        injection h with h1 h2
        subst h1
        subst h2
        constructor
        · rw [he3, he1]
          push_cast
          omega
        · intro hl1
          apply hc
          rw [he3]
          rw [he1] at hl1
          omega

theorem sendCur_scan (mask : FieldMask) :
    ∀ (l : List (Event × EventUsers)) (T0 : List (PhysicalUser × Nat))
      (B0 : List (Event × MaterializedView.UpdateBlock))
      (r : List (PhysicalUser × Nat) × List (Event × MaterializedView.UpdateBlock)),
    r = l.foldl (MaterializedView.sendCurStep mask) (T0, B0) →
    MaterializedView.TableOk T0 → (T0.map Prod.fst).Nodup →
    (∀ pe ∈ l, pe.2.wf) →
    ((l.map fun pe => pe.2.entries.map fun q => q.1.uid).join).Nodup →
    (∀ u ∈ T0.map Prod.fst,
      u.uid ∉ (l.map fun pe => pe.2.entries.map fun q => q.1.uid).join) →
    (∃ Δ, r.1 = T0 ++ Δ ∧ ∀ u ∈ Δ.map Prod.fst,
      u.uid ∈ (l.map fun pe => pe.2.entries.map fun q => q.1.uid).join) ∧
    MaterializedView.TableOk r.1 ∧ (r.1.map Prod.fst).Nodup ∧
    ∃ ΔB, r.2 = B0 ++ ΔB ∧
      List.Forall₂ (MaterializedView.blockMatches r.1 mask)
        (MaterializedView.liveList mask l) ΔB := by
  intro l
  induction l with
  | nil =>
      intro T0 B0 r hr hT hnd _ _ _
      rw [List.foldl_nil] at hr
      subst hr
      exact ⟨⟨[], by simp, by simp⟩, hT, hnd,
        ⟨[], by simp, List.Forall₂.nil⟩⟩
  | cons pe l ih =>
      intro T0 B0 r hr hT hnd hwf hjnd hdisj
      have hjcons : ((pe :: l).map fun pe => pe.2.entries.map fun q => q.1.uid).join
          = (pe.2.entries.map fun q => q.1.uid)
            ++ (l.map fun pe => pe.2.entries.map fun q => q.1.uid).join := by
        simp
      rw [List.foldl_cons] at hr
      by_cases hov : pe.2.user_mask ∩ mask = ∅
      · rw [show MaterializedView.sendCurStep mask (T0, B0) pe = (T0, B0) from by
          unfold MaterializedView.sendCurStep
          dsimp only
          rw [if_pos hov]] at hr
        obtain ⟨⟨Δ, hΔ1, hΔ2⟩, h2, h3, ⟨ΔB, hB1, hB2⟩⟩ :=
          ih T0 B0 r hr hT hnd (fun q hq => hwf q (List.mem_cons_of_mem _ hq))
            (by rw [hjcons] at hjnd; exact hjnd.of_append_right)
            (by
              intro u hu hmem
              exact hdisj u hu (by rw [hjcons]; exact List.mem_append_right _ hmem))
        refine ⟨⟨Δ, hΔ1, ?_⟩, h2, h3, ⟨ΔB, hB1, ?_⟩⟩
        · intro u hu
          rw [hjcons]
          exact List.mem_append_right _ (hΔ2 u hu)
        · rw [liveList_cons, if_pos hov]
          exact hB2
      · have hfr : ∀ u ∈ pe.2.entries.map Prod.fst, u ∉ T0.map Prod.fst := by
          intro u humem hut
          refine hdisj u hut ?_
          rw [hjcons]
          refine List.mem_append_left _ ?_
          obtain ⟨q, hq, hqe⟩ := List.mem_map.mp humem
          exact List.mem_map.mpr ⟨q, hq, by rw [hqe]⟩
        obtain ⟨⟨Δ₁, hp1, hp1k⟩, hpT, hpnd, hpF, hpne, hpenc⟩ :=
          packCurrentBucket_spec T0 pe.2 (pe.2.user_mask ∩ mask) hT hnd
            (hwf pe (List.mem_cons_self _ _)) hov Finset.inter_subset_left hfr
        rw [show MaterializedView.sendCurStep mask (T0, B0) pe
            = ((MaterializedView.packCurrentBucket T0 pe.2
                 (pe.2.user_mask ∩ mask)).1,
               B0 ++ [(pe.1, (MaterializedView.packCurrentBucket T0 pe.2
                 (pe.2.user_mask ∩ mask)).2)]) from by
          unfold MaterializedView.sendCurStep
          dsimp only
          rw [if_neg hov]] at hr
        have hjd : List.Disjoint (pe.2.entries.map fun q => q.1.uid)
            ((l.map fun pe => pe.2.entries.map fun q => q.1.uid).join) := by
          rw [hjcons] at hjnd
          exact List.disjoint_of_nodup_append hjnd
        obtain ⟨⟨Δ₂, h2a, h2b⟩, hT2, hnd2, ⟨ΔB₂, hB2a, hB2b⟩⟩ :=
          ih (MaterializedView.packCurrentBucket T0 pe.2
              (pe.2.user_mask ∩ mask)).1
            (B0 ++ [(pe.1, (MaterializedView.packCurrentBucket T0 pe.2
              (pe.2.user_mask ∩ mask)).2)]) r hr hpT hpnd
            (fun q hq => hwf q (List.mem_cons_of_mem _ hq))
            (by rw [hjcons] at hjnd; exact hjnd.of_append_right)
            (by
              intro u hu hmem
              rw [hp1, List.map_append, List.mem_append] at hu
              rcases hu with hu | hu
              · exact hdisj u hu (by rw [hjcons]; exact List.mem_append_right _ hmem)
              · have hue : u.uid ∈ pe.2.entries.map fun q => q.1.uid := by
                  obtain ⟨q, hq, hqe⟩ := List.mem_map.mp (hp1k u hu)
                  exact List.mem_map.mpr ⟨q, hq, by rw [hqe]⟩
                exact hjd hue hmem)
        refine ⟨⟨Δ₁ ++ Δ₂, ?_, ?_⟩, hT2, hnd2,
          ⟨(pe.1, (MaterializedView.packCurrentBucket T0 pe.2
            (pe.2.user_mask ∩ mask)).2) :: ΔB₂, ?_, ?_⟩⟩
        · rw [h2a, hp1, List.append_assoc]
        · intro u hu
          rw [List.map_append, List.mem_append] at hu
          rw [hjcons]
          rcases hu with hu | hu
          · refine List.mem_append_left _ ?_
            obtain ⟨q, hq, hqe⟩ := List.mem_map.mp (hp1k u hu)
            exact List.mem_map.mpr ⟨q, hq, by rw [hqe]⟩
          · exact List.mem_append_right _ (h2b u hu)
        · rw [hB2a, List.append_assoc]
          rfl
        · rw [liveList_cons, if_neg hov]
          refine List.Forall₂.cons ?_ hB2b
          have hbm : MaterializedView.blockMatches
              (MaterializedView.packCurrentBucket T0 pe.2
                (pe.2.user_mask ∩ mask)).1 mask pe
              (pe.1, (MaterializedView.packCurrentBucket T0 pe.2
                (pe.2.user_mask ∩ mask)).2) :=
            ⟨rfl, hpF, hpne, hpenc⟩
          have := blockMatches_mono _ Δ₂ mask pe _ hbm
          rw [← h2a] at this
          exact this

theorem sendPrev_scan (mask : FieldMask) :
    ∀ (l : List (Event × EventUsers)) (T0 : List (PhysicalUser × Nat))
      (B0 : List (Event × MaterializedView.UpdateBlock))
      (r : List (PhysicalUser × Nat) × List (Event × MaterializedView.UpdateBlock)),
    r = l.foldl (MaterializedView.sendPrevStep mask) (T0, B0) →
    MaterializedView.TableOk T0 → (T0.map Prod.fst).Nodup →
    (∀ pe ∈ l, pe.2.wf) →
    (∃ Δ, r.1 = T0 ++ Δ) ∧
    MaterializedView.TableOk r.1 ∧ (r.1.map Prod.fst).Nodup ∧
    ∃ ΔB, r.2 = B0 ++ ΔB ∧
      List.Forall₂ (MaterializedView.blockMatches r.1 mask)
        (MaterializedView.liveList mask l) ΔB := by
  intro l
  induction l with
  | nil =>
      intro T0 B0 r hr hT hnd _
      rw [List.foldl_nil] at hr
      subst hr
      exact ⟨⟨[], by simp⟩, hT, hnd, ⟨[], by simp, List.Forall₂.nil⟩⟩
  | cons pe l ih =>
      intro T0 B0 r hr hT hnd hwf
      rw [List.foldl_cons] at hr
      by_cases hov : pe.2.user_mask ∩ mask = ∅
      · rw [show MaterializedView.sendPrevStep mask (T0, B0) pe = (T0, B0) from by
          unfold MaterializedView.sendPrevStep
          dsimp only
          rw [if_pos hov]] at hr
        obtain ⟨⟨Δ, hΔ1⟩, h2, h3, ⟨ΔB, hB1, hB2⟩⟩ :=
          ih T0 B0 r hr hT hnd (fun q hq => hwf q (List.mem_cons_of_mem _ hq))
        refine ⟨⟨Δ, hΔ1⟩, h2, h3, ⟨ΔB, hB1, ?_⟩⟩
        rw [liveList_cons, if_pos hov]
        exact hB2
      · obtain ⟨⟨Δ₁, hp1⟩, hpT, hpnd, hpF, hpne, hpenc⟩ :=
          packPreviousBucket_spec T0 pe.2 (pe.2.user_mask ∩ mask) hT hnd
            (hwf pe (List.mem_cons_self _ _)) hov Finset.inter_subset_left
        rw [show MaterializedView.sendPrevStep mask (T0, B0) pe
            = ((MaterializedView.packPreviousBucket T0 pe.2
                 (pe.2.user_mask ∩ mask)).1,
               B0 ++ [(pe.1, (MaterializedView.packPreviousBucket T0 pe.2
                 (pe.2.user_mask ∩ mask)).2)]) from by
          unfold MaterializedView.sendPrevStep
          dsimp only
          rw [if_neg hov]] at hr
        obtain ⟨⟨Δ₂, h2a⟩, hT2, hnd2, ⟨ΔB₂, hB2a, hB2b⟩⟩ :=
          ih (MaterializedView.packPreviousBucket T0 pe.2
              (pe.2.user_mask ∩ mask)).1
            (B0 ++ [(pe.1, (MaterializedView.packPreviousBucket T0 pe.2
              (pe.2.user_mask ∩ mask)).2)]) r hr hpT hpnd
            (fun q hq => hwf q (List.mem_cons_of_mem _ hq))
        refine ⟨⟨Δ₁ ++ Δ₂, by rw [h2a, hp1, List.append_assoc]⟩, hT2, hnd2,
          ⟨(pe.1, (MaterializedView.packPreviousBucket T0 pe.2
            (pe.2.user_mask ∩ mask)).2) :: ΔB₂, ?_, ?_⟩⟩
        · rw [hB2a, List.append_assoc]
          rfl
        · rw [liveList_cons, if_neg hov]
          refine List.Forall₂.cons ?_ hB2b
          have hbm : MaterializedView.blockMatches
              (MaterializedView.packPreviousBucket T0 pe.2
                (pe.2.user_mask ∩ mask)).1 mask pe
              (pe.1, (MaterializedView.packPreviousBucket T0 pe.2
                (pe.2.user_mask ∩ mask)).2) :=
            ⟨rfl, hpF, hpne, hpenc⟩
          have := blockMatches_mono _ Δ₂ mask pe _ hbm
          rw [← h2a] at this
          exact this

theorem send_view_updates_spec (s : MaterializedView.State) (mask : FieldMask)
    (hcw : ∀ pe ∈ s.current_epoch_users, pe.2.wf)
    (hpw : ∀ pe ∈ s.previous_epoch_users, pe.2.wf)
    (hcu : ((s.current_epoch_users.map fun pe =>
      pe.2.entries.map fun q => q.1.uid).join).Nodup) :
    ∃ T, (MaterializedView.send_view_updates s mask).users
        = T.map (fun q => (q.2, q.1)) ∧
      MaterializedView.TableOk T ∧
      List.Forall₂ (MaterializedView.blockMatches T mask)
        (MaterializedView.liveList mask s.current_epoch_users)
        (MaterializedView.send_view_updates s mask).current ∧
      List.Forall₂ (MaterializedView.blockMatches T mask)
        (MaterializedView.liveList mask s.previous_epoch_users)
        (MaterializedView.send_view_updates s mask).previous := by
  obtain ⟨⟨Δ1, hc1, _⟩, hcT, hcnd2, ⟨ΔB1, hB1, hF1⟩⟩ :=
    sendCur_scan mask s.current_epoch_users [] [] _ rfl tableOk_nil
      (by simp) hcw hcu (by simp)
  obtain ⟨⟨Δ2, hp1⟩, hpT, hpnd2, ⟨ΔB2, hB2, hF2⟩⟩ :=
    sendPrev_scan mask s.previous_epoch_users
      (s.current_epoch_users.foldl (MaterializedView.sendCurStep mask)
        ([], [])).1 [] _ rfl hcT hcnd2 hpw
  refine ⟨(s.previous_epoch_users.foldl (MaterializedView.sendPrevStep mask)
      ((s.current_epoch_users.foldl (MaterializedView.sendCurStep mask)
        ([], [])).1, [])).1, rfl, hpT, ?_, ?_⟩
  · have hcur : (MaterializedView.send_view_updates s mask).current
        = (s.current_epoch_users.foldl (MaterializedView.sendCurStep mask)
            ([], [])).2 := rfl
    rw [hcur, hB1, List.nil_append]
    refine hF1.imp ?_
    intro a b hab
    have := blockMatches_mono _ Δ2 mask a b hab
    rw [← hp1] at this
    exact this
  · have hprev : (MaterializedView.send_view_updates s mask).previous
        = (s.previous_epoch_users.foldl (MaterializedView.sendPrevStep mask)
            ((s.current_epoch_users.foldl (MaterializedView.sendCurStep mask)
              ([], [])).1, [])).2 := rfl
    rw [hprev, hB2, List.nil_append]
    exact hF2

theorem add_previous_fold_key_present (e : Event) :
    ∀ (l : List (PhysicalUser × FieldMask)) (st : MaterializedView.State)
      (tbl0 : List (Event × EventUsers)) (b0 : EventUsers),
    st.previous_epoch_users = tbl0 ++ [(e, b0)] → lookupA tbl0 e = none →
    (l.foldl (fun a p => MaterializedView.add_previous_user a p.1 e p.2)
      st).previous_epoch_users
      = tbl0 ++ [(e, l.foldl (fun b p => b.addUser p.1 p.2) b0)] ∧
    (l.foldl (fun a p => MaterializedView.add_previous_user a p.1 e p.2)
      st).current_epoch_users = st.current_epoch_users ∧
    (l.foldl (fun a p => MaterializedView.add_previous_user a p.1 e p.2)
      st).next_uid = st.next_uid ∧
    (l.foldl (fun a p => MaterializedView.add_previous_user a p.1 e p.2)
      st).outstanding_gc_events = st.outstanding_gc_events := by
  intro l
  induction l with
  | nil =>
      intro st tbl0 b0 hst h0
      exact ⟨by rw [List.foldl_nil, List.foldl_nil]; exact hst, rfl, rfl, rfl⟩
  | cons p l ih =>
      intro st tbl0 b0 hst h0
      have hlk : lookupA st.previous_epoch_users e = some b0 := by
        rw [hst]
        exact lookupA_append_self tbl0 e b0 h0
      have hstep : (MaterializedView.add_previous_user st p.1 e
          p.2).previous_epoch_users = tbl0 ++ [(e, b0.addUser p.1 p.2)] := by
        unfold MaterializedView.add_previous_user
        dsimp only
        rw [hlk]
        dsimp only [Option.getD]
        rw [hst]
        exact setA_append_key tbl0 e b0 _ h0
      rw [List.foldl_cons]
      obtain ⟨h1, h2, h3, h4⟩ := ih (MaterializedView.add_previous_user st p.1
        e p.2) tbl0 (b0.addUser p.1 p.2) hstep h0
      exact ⟨by rw [h1, List.foldl_cons], by rw [h2]; rfl,
        by rw [h3]; rfl, by rw [h4]; rfl⟩

theorem add_previous_fold_at_key (e : Event)
    (l : List (PhysicalUser × FieldMask)) (st : MaterializedView.State)
    (h0 : lookupA st.previous_epoch_users e = none) (hne : l ≠ []) :
    (l.foldl (fun a p => MaterializedView.add_previous_user a p.1 e p.2)
      st).previous_epoch_users
      = st.previous_epoch_users ++ [(e, MaterializedView.foldBucket l)] ∧
    (l.foldl (fun a p => MaterializedView.add_previous_user a p.1 e p.2)
      st).current_epoch_users = st.current_epoch_users ∧
    (l.foldl (fun a p => MaterializedView.add_previous_user a p.1 e p.2)
      st).next_uid = st.next_uid ∧
    (l.foldl (fun a p => MaterializedView.add_previous_user a p.1 e p.2)
      st).outstanding_gc_events = st.outstanding_gc_events := by
  cases l with
  | nil => exact absurd rfl hne
  | cons p l =>
      have hstep : (MaterializedView.add_previous_user st p.1 e
          p.2).previous_epoch_users
          = st.previous_epoch_users ++ [(e, emptyEU.addUser p.1 p.2)] := by
        unfold MaterializedView.add_previous_user
        dsimp only
        rw [h0]
        dsimp only [Option.getD]
        exact setA_keys_absent _ e _ ((lookupA_none_iff _ e).mp h0)
      rw [List.foldl_cons]
      obtain ⟨h1, h2, h3, h4⟩ := add_previous_fold_key_present e l
        (MaterializedView.add_previous_user st p.1 e p.2)
        st.previous_epoch_users (emptyEU.addUser p.1 p.2) hstep h0
      refine ⟨?_, by rw [h2]; rfl, by rw [h3]; rfl, by rw [h4]; rfl⟩
      rw [h1]
      rfl


theorem applyBlockWith_as_fold
    (add : MaterializedView.State → PhysicalUser → Event → FieldMask →
      MaterializedView.State)
    (tbl : List (Nat × PhysicalUser)) (base : Nat)
    (s : MaterializedView.State) (e : Event)
    (b : MaterializedView.UpdateBlock) :
    MaterializedView.applyBlockWith add tbl base s e b =
    { (((MaterializedView.decodeBlock b).map fun q =>
        (MaterializedView.resolveUser tbl base q.1, q.2)).foldl
        (fun st p => add st p.1 e p.2) s) with
      outstanding_gc_events := insert e
        ((((MaterializedView.decodeBlock b).map fun q =>
          (MaterializedView.resolveUser tbl base q.1, q.2)).foldl
          (fun st p => add st p.1 e p.2) s).outstanding_gc_events) } := by
  cases b with
  | single i m => rfl
  | multi c ents =>
      simp only [MaterializedView.applyBlockWith, MaterializedView.decodeBlock,
        List.foldl_map]

theorem recv_current_blocks (tbl : List (Nat × PhysicalUser)) (base : Nat) :
    ∀ (B : List (Event × MaterializedView.UpdateBlock))
      (st r : MaterializedView.State),
    r = B.foldl (fun st p => MaterializedView.applyBlockWith
        MaterializedView.add_current_user tbl base st p.1 p.2) st →
    (∀ pb ∈ B, lookupA st.current_epoch_users pb.1 = none) →
    (B.map Prod.fst).Nodup →
    (∀ pb ∈ B, MaterializedView.decodeBlock pb.2 ≠ []) →
    r.current_epoch_users = st.current_epoch_users ++
      B.map (fun pb => (pb.1, MaterializedView.foldBucket
        ((MaterializedView.decodeBlock pb.2).map fun q =>
          (MaterializedView.resolveUser tbl base q.1, q.2)))) ∧
    r.previous_epoch_users = st.previous_epoch_users ∧
    r.next_uid = st.next_uid ∧
    r.outstanding_gc_events
      = B.foldl (fun g pb => insert pb.1 g) st.outstanding_gc_events := by
  intro B
  induction B with
  | nil =>
      intro st r hr _ _ _
      rw [List.foldl_nil] at hr
      subst hr
      exact ⟨by simp, rfl, rfl, rfl⟩
  | cons pb B ih =>
      intro st r hr habs hnd hdec
      rw [List.foldl_cons] at hr
      rw [applyBlockWith_as_fold] at hr
      have hrlne : ((MaterializedView.decodeBlock pb.2).map fun q =>
          (MaterializedView.resolveUser tbl base q.1, q.2)) ≠ [] := by
        intro h
        exact hdec pb (List.mem_cons_self _ _) (List.map_eq_nil.mp h)
      obtain ⟨h1, h2, h3, h4⟩ := add_current_fold_at_key pb.1
        ((MaterializedView.decodeBlock pb.2).map fun q =>
          (MaterializedView.resolveUser tbl base q.1, q.2)) st
        (habs pb (List.mem_cons_self _ _)) hrlne
      obtain ⟨g1, g2, g3, g4⟩ := ih _ r hr
        (by
          intro pb2 hpb2
          dsimp only
          rw [h1, lookupA_append, habs pb2 (List.mem_cons_of_mem _ hpb2)]
          have hne2 : pb.1 ≠ pb2.1 := by
            rw [List.map_cons, List.nodup_cons] at hnd
            intro he
            exact hnd.1 (he ▸ List.mem_map.mpr ⟨pb2, hpb2, rfl⟩)
          simp [lookupA, hne2])
        (by rw [List.map_cons, List.nodup_cons] at hnd; exact hnd.2)
        (fun pb2 hpb2 => hdec pb2 (List.mem_cons_of_mem _ hpb2))
      refine ⟨?_, ?_, ?_, ?_⟩
      · rw [g1]
        dsimp only
        rw [h1, List.map_cons, List.append_assoc]
        rfl
      · rw [g2]
        dsimp only
        rw [h2]
      · rw [g3]
        dsimp only
        rw [h3]
      · rw [g4]
        dsimp only
        rw [h4, List.foldl_cons]

theorem recv_previous_blocks (tbl : List (Nat × PhysicalUser)) (base : Nat) :
    ∀ (B : List (Event × MaterializedView.UpdateBlock))
      (st r : MaterializedView.State),
    r = B.foldl (fun st p => MaterializedView.applyBlockWith
        MaterializedView.add_previous_user tbl base st p.1 p.2) st →
    (∀ pb ∈ B, lookupA st.previous_epoch_users pb.1 = none) →
    (B.map Prod.fst).Nodup →
    (∀ pb ∈ B, MaterializedView.decodeBlock pb.2 ≠ []) →
    r.previous_epoch_users = st.previous_epoch_users ++
      B.map (fun pb => (pb.1, MaterializedView.foldBucket
        ((MaterializedView.decodeBlock pb.2).map fun q =>
          (MaterializedView.resolveUser tbl base q.1, q.2)))) ∧
    r.current_epoch_users = st.current_epoch_users ∧
    r.next_uid = st.next_uid ∧
    r.outstanding_gc_events
      = B.foldl (fun g pb => insert pb.1 g) st.outstanding_gc_events := by
  intro B
  induction B with
  | nil =>
      intro st r hr _ _ _
      rw [List.foldl_nil] at hr
      subst hr
      exact ⟨by simp, rfl, rfl, rfl⟩
  | cons pb B ih =>
      intro st r hr habs hnd hdec
      rw [List.foldl_cons] at hr
      rw [applyBlockWith_as_fold] at hr
      have hrlne : ((MaterializedView.decodeBlock pb.2).map fun q =>
          (MaterializedView.resolveUser tbl base q.1, q.2)) ≠ [] := by
        intro h
        exact hdec pb (List.mem_cons_self _ _) (List.map_eq_nil.mp h)
      obtain ⟨h1, h2, h3, h4⟩ := add_previous_fold_at_key pb.1
        ((MaterializedView.decodeBlock pb.2).map fun q =>
          (MaterializedView.resolveUser tbl base q.1, q.2)) st
        (habs pb (List.mem_cons_self _ _)) hrlne
      obtain ⟨g1, g2, g3, g4⟩ := ih _ r hr
        (by
          intro pb2 hpb2
          dsimp only
          rw [h1, lookupA_append, habs pb2 (List.mem_cons_of_mem _ hpb2)]
          have hne2 : pb.1 ≠ pb2.1 := by
            rw [List.map_cons, List.nodup_cons] at hnd
            intro he
            exact hnd.1 (he ▸ List.mem_map.mpr ⟨pb2, hpb2, rfl⟩)
          simp [lookupA, hne2])
        (by rw [List.map_cons, List.nodup_cons] at hnd; exact hnd.2)
        (fun pb2 hpb2 => hdec pb2 (List.mem_cons_of_mem _ hpb2))
      refine ⟨?_, ?_, ?_, ?_⟩
      · rw [g1]
        dsimp only
        rw [h1, List.map_cons, List.append_assoc]
        rfl
      · rw [g2]
        dsimp only
        rw [h2]
      · rw [g3]
        dsimp only
        rw [h3]
      · rw [g4]
        dsimp only
        rw [h4, List.foldl_cons]

theorem process_update_emptyMV (upd : MaterializedView.ViewUpdate)
    (hcnd : (upd.current.map Prod.fst).Nodup)
    (hpnd : (upd.previous.map Prod.fst).Nodup)
    (hcd : ∀ pb ∈ upd.current, MaterializedView.decodeBlock pb.2 ≠ [])
    (hpd : ∀ pb ∈ upd.previous, MaterializedView.decodeBlock pb.2 ≠ []) :
    (MaterializedView.process_update MaterializedView.emptyMV
      upd).current_epoch_users
      = upd.current.map (fun pb => (pb.1, MaterializedView.foldBucket
          ((MaterializedView.decodeBlock pb.2).map fun q =>
            (MaterializedView.resolveUser upd.users 0 q.1, q.2)))) ∧
    (MaterializedView.process_update MaterializedView.emptyMV
      upd).previous_epoch_users
      = upd.previous.map (fun pb => (pb.1, MaterializedView.foldBucket
          ((MaterializedView.decodeBlock pb.2).map fun q =>
            (MaterializedView.resolveUser upd.users 0 q.1, q.2)))) ∧
    (MaterializedView.process_update MaterializedView.emptyMV
      upd).outstanding_gc_events
      = upd.previous.foldl (fun g pb => insert pb.1 g)
          (upd.current.foldl (fun g pb => insert pb.1 g) ∅) := by
  have heq : MaterializedView.process_update MaterializedView.emptyMV upd
      = upd.previous.foldl
          (fun st p => MaterializedView.applyBlockWith
            MaterializedView.add_previous_user upd.users 0 st p.1 p.2)
          (upd.current.foldl
            (fun st p => MaterializedView.applyBlockWith
              MaterializedView.add_current_user upd.users 0 st p.1 p.2)
            { MaterializedView.emptyMV with
              next_uid := 0 + upd.users.length }) := rfl
  obtain ⟨c1, c2, c3, c4⟩ := recv_current_blocks upd.users 0 upd.current
    { MaterializedView.emptyMV with next_uid := 0 + upd.users.length } _ rfl
    (fun pb _ => rfl) hcnd hcd
  obtain ⟨p1, p2, p3, p4⟩ := recv_previous_blocks upd.users 0 upd.previous
    (upd.current.foldl
      (fun st p => MaterializedView.applyBlockWith
        MaterializedView.add_current_user upd.users 0 st p.1 p.2)
      { MaterializedView.emptyMV with next_uid := 0 + upd.users.length }) _ rfl
    (fun pb _ => by rw [c2]; rfl) hpnd hpd
  rw [heq]
  refine ⟨?_, ?_, ?_⟩
  · rw [p2, c1]
    rfl
  · rw [p1, c2]
    rfl
  · rw [p4, c4]
    rfl

theorem local_current_pass (mask : FieldMask) :
    ∀ (l : List (Event × EventUsers)) (st r : MaterializedView.State),
    r = l.foldl (MaterializedView.localCurStep mask) st →
    (∀ pe ∈ l, pe.2.wf) → (l.map Prod.fst).Nodup →
    (∀ pe ∈ MaterializedView.liveList mask l,
      lookupA st.current_epoch_users pe.1 = none) →
    r.current_epoch_users = st.current_epoch_users ++
      (MaterializedView.liveList mask l).map (fun pe => (pe.1,
        MaterializedView.foldBucket (MaterializedView.overlappingEntries pe.2
          (pe.2.user_mask ∩ mask)))) ∧
    r.previous_epoch_users = st.previous_epoch_users ∧
    r.next_uid = st.next_uid ∧
    r.outstanding_gc_events = (MaterializedView.liveList mask l).foldl
      (fun g pe => insert pe.1 g) st.outstanding_gc_events := by
  intro l
  induction l with
  | nil =>
      intro st r hr _ _ _
      rw [List.foldl_nil] at hr
      subst hr
      exact ⟨by simp [MaterializedView.liveList], rfl, rfl,
        by simp [MaterializedView.liveList]⟩
  | cons pe l ih =>
      intro st r hr hwf hnd habs
      rw [List.foldl_cons] at hr
      by_cases hov : pe.2.user_mask ∩ mask = ∅
      · rw [show MaterializedView.localCurStep mask st pe = st from by
          unfold MaterializedView.localCurStep
          dsimp only
          rw [if_pos hov]] at hr
        have hlive : MaterializedView.liveList mask (pe :: l)
            = MaterializedView.liveList mask l := by
          rw [liveList_cons, if_pos hov]
        obtain ⟨h1, h2, h3, h4⟩ := ih st r hr
          (fun q hq => hwf q (List.mem_cons_of_mem _ hq))
          (by rw [List.map_cons, List.nodup_cons] at hnd; exact hnd.2)
          (by rw [← hlive]; exact habs)
        rw [hlive]
        exact ⟨h1, h2, h3, h4⟩
      · have hlive : MaterializedView.liveList mask (pe :: l)
            = pe :: MaterializedView.liveList mask l := by
          rw [liveList_cons, if_neg hov]
        have hoene := oe_ne_nil pe.2 (pe.2.user_mask ∩ mask)
          (hwf pe (List.mem_cons_self _ _)).1 hov Finset.inter_subset_left
        obtain ⟨h1, h2, h3, h4⟩ := add_current_fold_at_key pe.1
          (MaterializedView.overlappingEntries pe.2 (pe.2.user_mask ∩ mask)) st
          (by
            refine habs pe ?_
            rw [hlive]
            exact List.mem_cons_self _ _) hoene
        rw [show MaterializedView.localCurStep mask st pe
            = { (MaterializedView.overlappingEntries pe.2
                  (pe.2.user_mask ∩ mask)).foldl
                  (fun a p => MaterializedView.add_current_user a p.1 pe.1 p.2)
                  st with
                outstanding_gc_events := insert pe.1
                  ((MaterializedView.overlappingEntries pe.2
                    (pe.2.user_mask ∩ mask)).foldl
                    (fun a p => MaterializedView.add_current_user a p.1 pe.1 p.2)
                    st).outstanding_gc_events } from by
          unfold MaterializedView.localCurStep
          dsimp only
          rw [if_neg hov]] at hr
        obtain ⟨g1, g2, g3, g4⟩ := ih _ r hr
          (fun q hq => hwf q (List.mem_cons_of_mem _ hq))
          (by rw [List.map_cons, List.nodup_cons] at hnd; exact hnd.2)
          (by
            intro pe2 hpe2
            dsimp only
            rw [h1, lookupA_append]
            have hin : pe2 ∈ MaterializedView.liveList mask (pe :: l) := by
              rw [hlive]
              exact List.mem_cons_of_mem _ hpe2
            rw [habs pe2 hin]
            have hne2 : pe.1 ≠ pe2.1 := by
              rw [List.map_cons, List.nodup_cons] at hnd
              intro he
              exact hnd.1 (he ▸ List.mem_map.mpr
                ⟨pe2, (liveList_mem mask l pe2 hpe2).1, rfl⟩)
            simp [lookupA, hne2])
        rw [hlive]
        refine ⟨?_, ?_, ?_, ?_⟩
        · rw [g1]
          dsimp only
          rw [h1, List.map_cons, List.append_assoc]
          rfl
        · rw [g2]
          dsimp only
          rw [h2]
        · rw [g3]
          dsimp only
          rw [h3]
        · rw [g4]
          dsimp only
          rw [h4, List.foldl_cons]

theorem local_previous_pass (mask : FieldMask) :
    ∀ (l : List (Event × EventUsers)) (st r : MaterializedView.State),
    r = l.foldl (MaterializedView.localPrevStep mask) st →
    (∀ pe ∈ l, pe.2.wf) → (l.map Prod.fst).Nodup →
    (∀ pe ∈ MaterializedView.liveList mask l,
      lookupA st.previous_epoch_users pe.1 = none) →
    r.previous_epoch_users = st.previous_epoch_users ++
      (MaterializedView.liveList mask l).map (fun pe => (pe.1,
        MaterializedView.foldBucket (MaterializedView.overlappingEntries pe.2
          (pe.2.user_mask ∩ mask)))) ∧
    r.current_epoch_users = st.current_epoch_users ∧
    r.next_uid = st.next_uid ∧
    r.outstanding_gc_events = (MaterializedView.liveList mask l).foldl
      (fun g pe => insert pe.1 g) st.outstanding_gc_events := by
  intro l
  induction l with
  | nil =>
      intro st r hr _ _ _
      rw [List.foldl_nil] at hr
      subst hr
      exact ⟨by simp [MaterializedView.liveList], rfl, rfl,
        by simp [MaterializedView.liveList]⟩
  | cons pe l ih =>
      intro st r hr hwf hnd habs
      rw [List.foldl_cons] at hr
      by_cases hov : pe.2.user_mask ∩ mask = ∅
      · rw [show MaterializedView.localPrevStep mask st pe = st from by
          unfold MaterializedView.localPrevStep
          dsimp only
          rw [if_pos hov]] at hr
        have hlive : MaterializedView.liveList mask (pe :: l)
            = MaterializedView.liveList mask l := by
          rw [liveList_cons, if_pos hov]
        obtain ⟨h1, h2, h3, h4⟩ := ih st r hr
          (fun q hq => hwf q (List.mem_cons_of_mem _ hq))
          (by rw [List.map_cons, List.nodup_cons] at hnd; exact hnd.2)
          (by rw [← hlive]; exact habs)
        rw [hlive]
        exact ⟨h1, h2, h3, h4⟩
      · have hlive : MaterializedView.liveList mask (pe :: l)
            = pe :: MaterializedView.liveList mask l := by
          rw [liveList_cons, if_neg hov]
        have hoene := oe_ne_nil pe.2 (pe.2.user_mask ∩ mask)
          (hwf pe (List.mem_cons_self _ _)).1 hov Finset.inter_subset_left
        obtain ⟨h1, h2, h3, h4⟩ := add_previous_fold_at_key pe.1
          (MaterializedView.overlappingEntries pe.2 (pe.2.user_mask ∩ mask)) st
          (by
            refine habs pe ?_
            rw [hlive]
            exact List.mem_cons_self _ _) hoene
        rw [show MaterializedView.localPrevStep mask st pe
            = { (MaterializedView.overlappingEntries pe.2
                  (pe.2.user_mask ∩ mask)).foldl
                  (fun a p => MaterializedView.add_previous_user a p.1 pe.1 p.2)
                  st with
                outstanding_gc_events := insert pe.1
                  ((MaterializedView.overlappingEntries pe.2
                    (pe.2.user_mask ∩ mask)).foldl
                    (fun a p => MaterializedView.add_previous_user a p.1 pe.1 p.2)
                    st).outstanding_gc_events } from by
          unfold MaterializedView.localPrevStep
          dsimp only
          rw [if_neg hov]] at hr
        obtain ⟨g1, g2, g3, g4⟩ := ih _ r hr
          (fun q hq => hwf q (List.mem_cons_of_mem _ hq))
          (by rw [List.map_cons, List.nodup_cons] at hnd; exact hnd.2)
          (by
            intro pe2 hpe2
            dsimp only
            rw [h1, lookupA_append]
            have hin : pe2 ∈ MaterializedView.liveList mask (pe :: l) := by
              rw [hlive]
              exact List.mem_cons_of_mem _ hpe2
            rw [habs pe2 hin]
            have hne2 : pe.1 ≠ pe2.1 := by
              rw [List.map_cons, List.nodup_cons] at hnd
              intro he
              exact hnd.1 (he ▸ List.mem_map.mpr
                ⟨pe2, (liveList_mem mask l pe2 hpe2).1, rfl⟩)
            simp [lookupA, hne2])
        rw [hlive]
        refine ⟨?_, ?_, ?_, ?_⟩
        · rw [g1]
          dsimp only
          rw [h1, List.map_cons, List.append_assoc]
          rfl
        · rw [g2]
          dsimp only
          rw [h2]
        · rw [g3]
          dsimp only
          rw [h3]
        · rw [g4]
          dsimp only
          rw [h4, List.foldl_cons]

theorem local_update_apply_spec (s : MaterializedView.State)
    (mask : FieldMask)
    (hcw : ∀ pe ∈ s.current_epoch_users, pe.2.wf)
    (hpw : ∀ pe ∈ s.previous_epoch_users, pe.2.wf)
    (hcnd : (s.current_epoch_users.map Prod.fst).Nodup)
    (hpnd : (s.previous_epoch_users.map Prod.fst).Nodup) :
    (MaterializedView.local_update_apply s mask).current_epoch_users
      = (MaterializedView.liveList mask s.current_epoch_users).map (fun pe =>
          (pe.1, MaterializedView.foldBucket
            (MaterializedView.overlappingEntries pe.2
              (pe.2.user_mask ∩ mask)))) ∧
    (MaterializedView.local_update_apply s mask).previous_epoch_users
      = (MaterializedView.liveList mask s.previous_epoch_users).map (fun pe =>
          (pe.1, MaterializedView.foldBucket
            (MaterializedView.overlappingEntries pe.2
              (pe.2.user_mask ∩ mask)))) ∧
    (MaterializedView.local_update_apply s mask).outstanding_gc_events
      = (MaterializedView.liveList mask s.previous_epoch_users).foldl
          (fun g pe => insert pe.1 g)
          ((MaterializedView.liveList mask s.current_epoch_users).foldl
            (fun g pe => insert pe.1 g) ∅) := by
  have heq : MaterializedView.local_update_apply s mask
      = s.previous_epoch_users.foldl (MaterializedView.localPrevStep mask)
          (s.current_epoch_users.foldl (MaterializedView.localCurStep mask)
            MaterializedView.emptyMV) := rfl
  obtain ⟨c1, c2, c3, c4⟩ := local_current_pass mask s.current_epoch_users
    MaterializedView.emptyMV _ rfl hcw hcnd (fun pe _ => rfl)
  obtain ⟨p1, p2, p3, p4⟩ := local_previous_pass mask s.previous_epoch_users
    (s.current_epoch_users.foldl (MaterializedView.localCurStep mask)
      MaterializedView.emptyMV) _ rfl hpw hpnd
    (fun pe _ => by rw [c2]; rfl)
  rw [heq]
  exact ⟨by rw [p2, c1]; rfl, by rw [p1, c2]; rfl, by rw [p4, c4]; rfl⟩

theorem entries_keys_nodup (eu : EventUsers) (hwf : eu.wf) :
    (eu.entries.map Prod.fst).Nodup := by
  unfold EventUsers.entries
  by_cases hs : eu.single = true
  · rw [if_pos hs]
    cases eu.single_user with
    | none => simp
    | some u => simp
  · rw [if_neg hs]
    exact hwf.2.1

theorem join_nodup_parts {α : Type} (f : α → List Nat) :
    ∀ (l : List α), ((l.map f).join).Nodup → ∀ x ∈ l, (f x).Nodup := by
  intro l
  induction l with
  | nil => intro _ x hx; cases hx
  | cons hd tl ih =>
      intro hnd x hx
      rw [List.map_cons] at hnd
      rw [show (f hd :: List.map f tl).join = f hd ++ (List.map f tl).join
        from rfl] at hnd
      rcases List.mem_cons.mp hx with rfl | hx
      · exact hnd.of_append_left
      · exact ih hnd.of_append_right x hx

theorem blockMatches_fst_eq (T : List (PhysicalUser × Nat))
    (mask : FieldMask) :
    ∀ {l : List (Event × EventUsers)}
      {B : List (Event × MaterializedView.UpdateBlock)},
    List.Forall₂ (MaterializedView.blockMatches T mask) l B →
    B.map Prod.fst = l.map Prod.fst := by
  intro l B h
  induction h with
  | nil => rfl
  | cons hr _ ih =>
      rw [List.map_cons, List.map_cons, ih, hr.1]

theorem pairOk_forall2_record_map (T : List (PhysicalUser × Nat))
    (hT : MaterializedView.TableOk T) (base : Nat) :
    ∀ {dec : List (Nat × FieldMask)} {loc : List (PhysicalUser × FieldMask)},
    List.Forall₂ (MaterializedView.PairOk T) dec loc →
    (dec.map fun q => ((MaterializedView.resolveUser
        (T.map fun q2 => (q2.2, q2.1)) base q.1).record, q.2))
      = loc.map fun p => (p.1.record, p.2) := by
  intro dec loc h
  induction h with
  | nil => rfl
  | cons hr htl ih =>
      rename_i q p dec2 loc2
      rw [List.map_cons, List.map_cons, ih]
      have hres : MaterializedView.resolveUser
          (T.map fun q2 => (q2.2, q2.1)) base q.1
          = { p.1 with uid := base + q.1 } := by
        unfold MaterializedView.resolveUser
        rw [tableOk_swap_lookup T hT p.1 q.1 hr.1]
      rw [hres, hr.2]
      rfl

theorem bucket_roundtrip (T : List (PhysicalUser × Nat))
    (hT : MaterializedView.TableOk T) (base : Nat)
    (dec : List (Nat × FieldMask)) (loc : List (PhysicalUser × FieldMask))
    (hf : List.Forall₂ (MaterializedView.PairOk T) dec loc)
    (hnd : (loc.map Prod.fst).Nodup)
    (hu : (loc.map fun p => p.1.uid).Nodup) :
    (MaterializedView.foldBucket (dec.map fun q =>
      (MaterializedView.resolveUser (T.map fun q2 => (q2.2, q2.1)) base q.1,
       q.2))).recordEntries
      = (MaterializedView.foldBucket loc).recordEntries := by
  have hdecnd : (dec.map Prod.fst).Nodup := pairOk_forall2_nodup T hT hf hnd
  have hrlu : ((dec.map fun q =>
      (MaterializedView.resolveUser (T.map fun q2 => (q2.2, q2.1)) base q.1,
       q.2)).map fun p => p.1.uid).Nodup := by
    rw [List.map_map]
    have hcomp : ((fun p => p.1.uid) ∘ fun (q : Nat × FieldMask) =>
        (MaterializedView.resolveUser (T.map fun q2 => (q2.2, q2.1)) base q.1,
         q.2)) = fun q => base + q.1 := by
      funext q
      exact resolveUser_uid _ base q.1
    rw [hcomp]
    have : (fun (q : Nat × FieldMask) => base + q.1)
        = (fun i => base + i) ∘ Prod.fst := rfl
    rw [this, ← List.map_map]
    exact hdecnd.map (fun a b hab => by omega)
  have hfr1 : ∀ p ∈ (dec.map fun q =>
      (MaterializedView.resolveUser (T.map fun q2 => (q2.2, q2.1)) base q.1,
       q.2)), p.1.uid ∉ emptyEU.uids := by
    intro p _ hmem
    simp [EventUsers.uids, emptyEU, EventUsers.entries] at hmem
  have hfr2 : ∀ p ∈ loc, p.1.uid ∉ emptyEU.uids := by
    intro p _ hmem
    simp [EventUsers.uids, emptyEU, EventUsers.entries] at hmem
  obtain ⟨he1, _⟩ := bucket_build_entries (dec.map fun q =>
      (MaterializedView.resolveUser (T.map fun q2 => (q2.2, q2.1)) base q.1,
       q.2)) emptyEU emptyEU_wf hfr1 hrlu
  obtain ⟨he2, _⟩ := bucket_build_entries loc emptyEU emptyEU_wf hfr2 hu
  unfold MaterializedView.foldBucket EventUsers.recordEntries
  rw [he1, he2]
  have hnil : emptyEU.entries = [] := rfl
  rw [hnil, List.nil_append, List.nil_append, List.map_map]
  have hcomp2 : ((fun p => (p.1.record, p.2)) ∘ fun (q : Nat × FieldMask) =>
      (MaterializedView.resolveUser (T.map fun q2 => (q2.2, q2.1)) base q.1,
       q.2)) = fun q => ((MaterializedView.resolveUser
        (T.map fun q2 => (q2.2, q2.1)) base q.1).record, q.2) := rfl
  rw [hcomp2]
  exact pairOk_forall2_record_map T hT base hf

theorem fold_insert_fst {γ : Type} (L : List (Event × γ)) (g0 : Finset Event) :
    L.foldl (fun g pb => insert pb.1 g) g0
      = (L.map Prod.fst).foldl (fun g e => insert e g) g0 := by
  rw [List.foldl_map]

theorem roundtrip_tables (T : List (PhysicalUser × Nat))
    (hT : MaterializedView.TableOk T) (mask : FieldMask) (base : Nat) :
    ∀ {l : List (Event × EventUsers)}
      {B : List (Event × MaterializedView.UpdateBlock)},
    List.Forall₂ (MaterializedView.blockMatches T mask) l B →
    (∀ pe ∈ l, pe.2.wf) →
    (∀ pe ∈ l, (pe.2.entries.map fun q => q.1.uid).Nodup) →
    B.map (fun pb => (pb.1, (MaterializedView.foldBucket
      ((MaterializedView.decodeBlock pb.2).map fun q =>
        (MaterializedView.resolveUser (T.map fun q2 => (q2.2, q2.1)) base q.1,
         q.2))).recordEntries))
    = l.map (fun pe => (pe.1, (MaterializedView.foldBucket
        (MaterializedView.overlappingEntries pe.2
          (pe.2.user_mask ∩ mask))).recordEntries)) := by
  intro l B h
  induction h with
  | nil => intro _ _; rfl
  | @cons pe pb l2 B2 hr htl ih =>
      intro hwf hund
      rw [List.map_cons, List.map_cons,
        ih (fun q hq => hwf q (List.mem_cons_of_mem _ hq))
          (fun q hq => hund q (List.mem_cons_of_mem _ hq))]
      have hewf : pe.2.wf := hwf pe (List.mem_cons_self _ _)
      have hkeys : ((MaterializedView.overlappingEntries pe.2
          (pe.2.user_mask ∩ mask)).map Prod.fst).Nodup :=
        (entries_keys_nodup pe.2 hewf).sublist
          (oe_keys_sublist pe.2 (pe.2.user_mask ∩ mask))
      have huid : ((MaterializedView.overlappingEntries pe.2
          (pe.2.user_mask ∩ mask)).map fun p => p.1.uid).Nodup := by
        have hrw : ((MaterializedView.overlappingEntries pe.2
            (pe.2.user_mask ∩ mask)).map fun p => p.1.uid)
            = ((MaterializedView.overlappingEntries pe.2
                (pe.2.user_mask ∩ mask)).map Prod.fst).map
                  (fun u => u.uid) := by
          rw [List.map_map]
          rfl
        have hrw2 : (pe.2.entries.map fun q => q.1.uid)
            = (pe.2.entries.map Prod.fst).map (fun u => u.uid) := by
          rw [List.map_map]
          rfl
        rw [hrw]
        have hsub2 := (oe_keys_sublist pe.2 (pe.2.user_mask ∩ mask)).map
          (fun u : PhysicalUser => u.uid)
        have hn2 : ((pe.2.entries.map Prod.fst).map fun u => u.uid).Nodup := by
          rw [← hrw2]
          exact hund pe (List.mem_cons_self _ _)
        exact hn2.sublist hsub2
      rw [hr.1, bucket_roundtrip T hT base _ _ hr.2.1 hkeys huid]

/-! ### Claim theorems -/

/-- Claim C1: on the task path, for every prior user (current-epoch or
previous-epoch per-user analysis) whose mask overlaps the caller's and
which is not cut off by the same-child or disjoint-children rules, the
prior user's event is inserted into the caller's preconditions exactly
when the dependence table applied to (prior usage, caller usage) yields
a true or anti dependence; no-, atomic- and simultaneous-dependence
leave the preconditions unchanged. -/
theorem claim1_dependence_table_gates_preconditions (ctx : ExternalCtx)
    (e : Event) (pu : PhysicalUser) (pm : FieldMask) (usage : RegionUsage)
    (nm : FieldMask) (child : ColorPoint) (acc : MaterializedView.TaskAcc)
    (pre : Finset Event) (hoverlap : ¬pm ∩ nm = ∅)
    (hcut : ∀ cc, child = some cc → pu.child ≠ some cc ∧
       ∀ pc, pu.child = some pc → ctx.are_children_disjoint cc pc = false)
    (hnotin : e ∉ acc.preconditions) (hnotin2 : e ∉ pre) :
    ((ctx.check_dependence_type pu.usage usage = DependenceType.TRUE_DEPENDENCE ∨
      ctx.check_dependence_type pu.usage usage = DependenceType.ANTI_DEPENDENCE) →
      (MaterializedView.find_current_preconditions ctx e pu pm usage nm child
          acc).2.preconditions = insert e acc.preconditions ∧
      (MaterializedView.find_previous_preconditions ctx e pu pm usage nm child
          pre).2 = insert e pre) ∧
    ((ctx.check_dependence_type pu.usage usage = DependenceType.NO_DEPENDENCE ∨
      ctx.check_dependence_type pu.usage usage = DependenceType.ATOMIC_DEPENDENCE ∨
      ctx.check_dependence_type pu.usage usage = DependenceType.SIMULTANEOUS_DEPENDENCE) →
      e ∉ (MaterializedView.find_current_preconditions ctx e pu pm usage nm child
          acc).2.preconditions ∧
      e ∉ (MaterializedView.find_previous_preconditions ctx e pu pm usage nm child
          pre).2 ∧
      (MaterializedView.find_current_preconditions ctx e pu pm usage nm child
          acc).2.preconditions = acc.preconditions ∧
      (MaterializedView.find_previous_preconditions ctx e pu pm usage nm child
          pre).2 = pre) := by
  obtain ⟨hc, hp⟩ := claim1_helper_gate ctx e pu pm usage nm child acc pre
    hoverlap hcut
  constructor
  · intro hdt
    constructor
    · rw [hc]
      rcases hdt with h | h <;> rw [h]
    · rw [hp]
      rcases hdt with h | h <;> rw [h]
  · intro hdt
    have hcc : (MaterializedView.find_current_preconditions ctx e pu pm usage
        nm child acc).2.preconditions = acc.preconditions := by
      rw [hc]
      rcases hdt with h | h | h <;> rw [h]
    have hpp : (MaterializedView.find_previous_preconditions ctx e pu pm usage
        nm child pre).2 = pre := by
      rw [hp]
      rcases hdt with h | h | h <;> rw [h]
    refine ⟨?_, ?_, hcc, hpp⟩
    · rw [hcc]; exact hnotin
    · rw [hpp]; exact hnotin2

/-- Claim C5: on the copy path of a materialized view (both the
current-epoch and the previous-epoch per-user analysis), among prior
users that overlap and are not cut off by the child rules or the
reader/reducer rules, the same-version skip omits the dependency exactly
when the caller is a non-reduce writer (`reading = false`, `redop = 0`)
with field versions supplied and the prior user is a non-reduce
read-only user whose recorded field-version ids match the caller's on
the overlap; in particular a non-read-only (e.g. read-write) prior user
still yields a dependency.  The hypothesis `hvers` is the construction
invariant of `add_local_user` / `add_local_copy_user`: versions are
recorded only for read-only users. -/
theorem claim5_same_version_war_skip (ctx : ExternalCtx) (e : Event)
    (u : PhysicalUser) (um : FieldMask) (redop : Nat) (reading : Bool)
    (cm : FieldMask) (child : ColorPoint) (versions : Option FieldVersions)
    (acc : MaterializedView.CopyAcc) (pre : List (Event × FieldMask))
    (hoverlap : ¬cm ∩ um = ∅)
    (hcut : ∀ cc, child = some cc → u.child ≠ some cc ∧
       ∀ pc, u.child = some pc → ctx.are_children_disjoint cc pc = false)
    (hread : ¬(reading = true ∧ IS_READ_ONLY u.usage = true))
    (hred : ¬(0 < redop ∧ u.usage.redop = redop))
    (hvers : u.versions ≠ none → IS_READ_ONLY u.usage = true)
    (hfresh : lookupA acc.preconditions e = none)
    (hfresh2 : lookupA pre e = none) :
    (((MaterializedView.find_current_copy_preconditions ctx e u um redop
         reading cm child versions acc).preconditions = acc.preconditions ∧
      MaterializedView.find_previous_copy_preconditions ctx e u um redop
         reading cm child versions pre = pre) ↔
      (reading = false ∧ redop = 0 ∧ IS_REDUCE u.usage = false ∧
       IS_READ_ONLY u.usage = true ∧
       ∃ vs, versions = some vs ∧
         same_versions u.versions (cm ∩ um) vs = true)) ∧
    (IS_READ_ONLY u.usage = false →
      (MaterializedView.find_current_copy_preconditions ctx e u um redop
         reading cm child versions acc).preconditions =
        addPre acc.preconditions e (cm ∩ um) ∧
      MaterializedView.find_previous_copy_preconditions ctx e u um redop
         reading cm child versions pre = addPre pre e (um ∩ cm)) := by
  obtain ⟨hskip, hrec⟩ := claim5_helper ctx e u um redop reading cm child
    versions acc pre hoverlap hcut hread hred
  have hvnone : ∀ vs, same_versions u.versions (cm ∩ um) vs = true →
      u.versions ≠ none := by
    intro vs hsv hc
    rw [hc] at hsv
    simp [same_versions] at hsv
  constructor
  · constructor
    · intro hEq
      by_cases hv : ∃ vs, versions = some vs ∧ reading = false ∧ redop = 0 ∧
          IS_REDUCE u.usage = false ∧
          same_versions u.versions (cm ∩ um) vs = true
      · obtain ⟨vs, hvs, hr, hrd, hnr, hsv⟩ := hv
        exact ⟨hr, hrd, hnr, hvers (hvnone vs hsv), vs, hvs, hsv⟩
      · obtain ⟨hc1, _⟩ := hrec hv
        exact absurd (hc1 ▸ hEq.1) (addPre_absent_ne acc.preconditions e _ hfresh)
    · rintro ⟨hr, hrd, hnr, _, vs, hvs, hsv⟩
      exact hskip ⟨vs, hvs, hr, hrd, hnr, hsv⟩
  · intro hro
    refine hrec ?_
    rintro ⟨vs, hvs, hr, hrd, hnr, hsv⟩
    have := hvers (hvnone vs hsv)
    rw [hro] at this
    exact Bool.noConfusion this

/-- Witness for C5 at the spec's scenario 3: a read-only prior user with
versions `{(f0 → v7)}`, and a copy query for a writer with the same
versions over `f0` and `redop = 0`: no dependency is recorded. -/
theorem claim5_witness :
    (¬({0} : FieldMask) ∩ {0} = ∅) ∧
    (MaterializedView.find_current_copy_preconditions trivialCtx 1
        { usage := roExcl, child := none, versions := some [(0, 7)], uid := 0 }
        {0} 0 false {0} none (some [(0, 7)])
        { preconditions := [], observed := ∅, non_dominated := ∅ }).preconditions = [] :=
  ⟨by decide,
   ((claim5_same_version_war_skip trivialCtx 1
      { usage := roExcl, child := none, versions := some [(0, 7)], uid := 0 }
      {0} 0 false {0} none (some [(0, 7)])
      { preconditions := [], observed := ∅, non_dominated := ∅ } []
      (by decide) (fun cc hcc => Option.noConfusion hcc)
      (by decide) (by decide) (fun _ => by decide) (by decide)
      (by decide)).1.mpr
      ⟨rfl, rfl, by decide, by decide, [(0, 7)], rfl, by decide⟩).1⟩

/-- Claim C2: on a reduction view, for both the copy-path query and task
registration: a reading caller's computed preconditions contain exactly
the reducer events whose recorded masks overlap the request mask (and
never a reader-only event), and a reducing caller's exactly the
overlapping reader events; hence overlapping reader-reducer pairs wait,
while reducers never wait on reducers and readers never on readers. -/
theorem claim2_reduction_reader_reducer (r : ReductionView.State)
    (redop : Nat) (copy_mask : FieldMask) (usage : RegionUsage)
    (term : Event) (user_mask : FieldMask)
    (hwf1 : ∀ p ∈ r.reduction_users, p.2.wf)
    (hwf2 : ∀ p ∈ r.reading_users, p.2.wf)
    (hnd1 : (r.reduction_users.map Prod.fst).Nodup)
    (hnd2 : (r.reading_users.map Prod.fst).Nodup) :
    (∀ e, lookupA (ReductionView.find_copy_preconditions 0 r redop true
        copy_mask []) e =
      (lookupA r.reduction_users e).elim none (fun eu =>
        if copy_mask ∩ eu.user_mask = ∅ then none
        else some (copy_mask ∩ eu.user_mask))) ∧
    (∀ e, lookupA (ReductionView.find_copy_preconditions 0 r redop false
        copy_mask []) e =
      (lookupA r.reading_users e).elim none (fun eu =>
        if copy_mask ∩ eu.user_mask = ∅ then none
        else some (copy_mask ∩ eu.user_mask))) ∧
    (IS_READ_ONLY usage = true → ∀ e,
      (e ∈ (ReductionView.add_user 0 r usage term user_mask).1 ↔
       ∃ p ∈ r.reduction_users, p.1 = e ∧ ¬(user_mask ∩ p.2.user_mask = ∅))) ∧
    (IS_READ_ONLY usage = false → ∀ e,
      (e ∈ (ReductionView.add_user 0 r usage term user_mask).1 ↔
       ∃ p ∈ r.reading_users, p.1 = e ∧ ¬(user_mask ∩ p.2.user_mask = ∅))) := by
  have hfc : ∀ (rd : Bool) (tbl : List (Event × EventUsers)),
      (∀ p ∈ tbl, p.2.wf) → (tbl.map Prod.fst).Nodup →
      (ReductionView.find_copy_preconditions 0 r redop rd copy_mask [] =
        (if rd then ReductionView.record_dependences r.reduction_users copy_mask []
         else ReductionView.record_dependences r.reading_users copy_mask [])) := by
    intro rd _ _ _
    simp [ReductionView.find_copy_preconditions]
  refine ⟨?_, ?_, ?_, ?_⟩
  · intro e
    rw [hfc true r.reduction_users hwf1 hnd1, if_pos rfl]
    rw [record_dependences_lookup copy_mask r.reduction_users hwf1 hnd1 [] e]
    cases h : lookupA r.reduction_users e with
    | none => simp
    | some eu =>
        by_cases hov : copy_mask ∩ eu.user_mask = ∅
        · simp [hov]
        · simp [hov]
  · intro e
    rw [hfc false r.reading_users hwf2 hnd2, if_neg (by simp)]
    rw [record_dependences_lookup copy_mask r.reading_users hwf2 hnd2 [] e]
    cases h : lookupA r.reading_users e with
    | none => simp
    | some eu =>
        by_cases hov : copy_mask ∩ eu.user_mask = ∅
        · simp [hov]
        · simp [hov]
  · intro hro e
    have hadd : (ReductionView.add_user 0 r usage term user_mask).1 =
        ReductionView.collect_dependences r.reduction_users user_mask ∅ := by
      have h0 : ¬((0 : Event) ≠ 0) := by simp
      have hnr : ¬¬(IS_READ_ONLY usage = true) := by rw [hro]; simp
      simp only [ReductionView.add_user, if_neg h0, if_neg hnr]
      split_ifs <;> rfl
    rw [hadd, collect_dependences_mem user_mask r.reduction_users hwf1 ∅ e]
    simp
  · intro hro e
    have hadd : (ReductionView.add_user 0 r usage term user_mask).1 =
        ReductionView.collect_dependences r.reading_users user_mask ∅ := by
      have h0 : ¬((0 : Event) ≠ 0) := by simp
      have hnr : ¬(IS_READ_ONLY usage = true) := by rw [hro]; simp
      simp only [ReductionView.add_user, if_neg h0, if_pos hnr]
      split_ifs <;> rfl
    rw [hadd, collect_dependences_mem user_mask r.reading_users hwf2 ∅ e]
    simp

/-- Witness for C2 at the spec's scenario 4: a reduction view with a
reducer on event 1 and a reader on event 2, both on field 0; a reading
copy query's preconditions are characterized by the reducer table. -/
theorem claim2_witness :
    (∀ p ∈ rvFixture.reduction_users, p.2.wf) ∧
    (∀ e, lookupA (ReductionView.find_copy_preconditions 0 rvFixture 0 true
        {0} []) e =
      (lookupA rvFixture.reduction_users e).elim none (fun eu =>
        if ({0} : FieldMask) ∩ eu.user_mask = ∅ then none
        else some (({0} : FieldMask) ∩ eu.user_mask))) :=
  ⟨by simp [rvFixture, singleBucket, EventUsers.wf, EventUsers.maskWf,
      EventUsers.entries],
   (claim2_reduction_reader_reducer rvFixture 0 {0} roExcl 3 {0}
      (by simp [rvFixture, singleBucket, EventUsers.wf, EventUsers.maskWf,
        EventUsers.entries])
      (by simp [rvFixture, singleBucket, EventUsers.wf, EventUsers.maskWf,
        EventUsers.entries])
      (by decide) (by decide)).1⟩

/-- Counterexample for C4 as stated: a state in which the caller
dominates every field after the current-epoch pass (so `non_dominated`
is empty), yet the previous-epoch walk still builds a `filter_previous`
entry for the dominated fields — and the subsequent exclusive phase of
`add_local_user` therefore drops the previous-epoch event — contradicting
"no filter_previous entries are built either". -/
theorem claim4_counterexample :
    (MaterializedView.scanCurrentTask trivialCtx
        [(1, { single := true,
               single_user := some { usage := rwExcl, child := none,
                                     versions := none, uid := 0 },
               multi_users := [], user_mask := {0} })]
        rwExcl 3 none {0} ∅).2.observed ∩
      (({0} : FieldMask) \ (MaterializedView.scanCurrentTask trivialCtx
        [(1, { single := true,
               single_user := some { usage := rwExcl, child := none,
                                     versions := none, uid := 0 },
               multi_users := [], user_mask := {0} })]
        rwExcl 3 none {0} ∅).2.non_dominated) = {0} ∧
    ({0} : FieldMask) \ ({0} : FieldMask) = ∅ ∧
    (MaterializedView.scanPreviousTask trivialCtx
        [(2, { single := true,
               single_user := some { usage := rwExcl, child := none,
                                     versions := none, uid := 1 },
               multi_users := [], user_mask := {0} })]
        rwExcl 3 none ∅ {0} [] {1}).2.1 = [(2, {0})] ∧
    lookupA (MaterializedView.add_local_user trivialCtx
        { current_epoch_users :=
            [(1, { single := true,
                   single_user := some { usage := rwExcl, child := none,
                                         versions := none, uid := 0 },
                   multi_users := [], user_mask := {0} })],
          previous_epoch_users :=
            [(2, { single := true,
                   single_user := some { usage := rwExcl, child := none,
                                         versions := none, uid := 1 },
                   multi_users := [], user_mask := {0} })],
          outstanding_gc_events := {1, 2}, next_uid := 2 }
        rwExcl 3 true none [] {0} ∅).2.2.previous_epoch_users 2 = none := by
  decide

/-- Claim C4 (amended): whenever `non_dominated` is empty after the
current-epoch pass, the previous-epoch *dependence analysis* is skipped:
no preconditions are derived from previous-epoch entries on either the
task path or the copy path.  (The walk itself still runs: it collects
triggered events and, when `dominated` is nonempty, builds the
`filter_previous` entries for the dominated fields.) -/
theorem claim4_amended_previous_analysis_skipped (ctx : ExternalCtx)
    (previous : List (Event × EventUsers)) (usage : RegionUsage)
    (term_event : Event) (child : ColorPoint) (dominated : FieldMask)
    (dead0 : List Event) (pre0 : Finset Event) (redop : Nat) (reading : Bool)
    (versions : Option FieldVersions) (cpre0 : List (Event × FieldMask)) :
    (MaterializedView.scanPreviousTask ctx previous usage term_event child ∅
       dominated dead0 pre0).2.2 = pre0 ∧
    (MaterializedView.scanPreviousCopy ctx previous redop reading child
       versions ∅ dominated dead0 cpre0).2.2 = cpre0 := by
  constructor
  · exact foldl_preserves
      (MaterializedView.prevTaskStep ctx usage term_event child ∅ dominated)
      (fun st => st.2.2 = pre0)
      (fun st a hst =>
        (prevTaskStep_skip_pre ctx usage term_event child dominated st a).trans hst)
      previous _ rfl
  · exact foldl_preserves
      (MaterializedView.prevCopyStep ctx redop reading child versions ∅ dominated)
      (fun st => st.2.2 = cpre0)
      (fun st a hst =>
        (prevCopyStep_skip_pre ctx redop reading child versions dominated st a).trans hst)
      previous _ rfl

/-- Claim C9 (code bug): a complete activate/deactivate and
validate/invalidate cycle on a composite node does NOT leave the
referenced views' counters unchanged.  For a node with one valid view
(id 0) and one reduction view (id 1): `notify_inactive` iterates the
empty range `valid_views.end()..end()`, so view 0 keeps the gc reference
`notify_active` added (count 1, not 0); and `notify_invalid` calls
`add_nested_valid_ref` on the reduction views, so view 1 ends the
valid/invalid cycle with count 2 instead of 0.  The reduction view's gc
reference is correctly removed (count 0). -/
theorem claim9_notify_cycle_leaks :
    (CompositeNode.notify_inactive
       (CompositeNode.Node.mk [(0, ({0} : FieldMask))] [(1, {0})] [])
       (CompositeNode.notify_active
         (CompositeNode.Node.mk [(0, ({0} : FieldMask))] [(1, {0})] [])
         (fun _ => 0)) 0 = 1) ∧
    (CompositeNode.notify_inactive
       (CompositeNode.Node.mk [(0, ({0} : FieldMask))] [(1, {0})] [])
       (CompositeNode.notify_active
         (CompositeNode.Node.mk [(0, ({0} : FieldMask))] [(1, {0})] [])
         (fun _ => 0)) 1 = 0) ∧
    (CompositeNode.notify_invalid
       (CompositeNode.Node.mk [(0, ({0} : FieldMask))] [(1, {0})] [])
       (CompositeNode.notify_valid
         (CompositeNode.Node.mk [(0, ({0} : FieldMask))] [(1, {0})] [])
         (fun _ => 0)) 1 = 2) ∧
    (CompositeNode.notify_invalid
       (CompositeNode.Node.mk [(0, ({0} : FieldMask))] [(1, {0})] [])
       (CompositeNode.notify_valid
         (CompositeNode.Node.mk [(0, ({0} : FieldMask))] [(1, {0})] [])
         (fun _ => 0)) 0 = 1) := by
  refine ⟨?_, ?_, ?_, ?_⟩ <;>
    simp [CompositeNode.notify_active, CompositeNode.notify_inactive,
      CompositeNode.notify_valid, CompositeNode.notify_invalid,
      CompositeNode.notify_active_list, CompositeNode.notify_inactive_list,
      CompositeNode.notify_valid_list, CompositeNode.notify_invalid_list,
      CompositeNode.bump]

/-- Claim C8: `filter_local_users` removes the event's entries from both
tables (epoch tables for the materialized view, reducer/reader tables
for the reduction view) and from `outstanding_gc_events`, leaves every
other entry untouched, and is total: an event that was never recorded
(not in `outstanding_gc_events`) leaves the state unchanged. -/
theorem claim8_filter_local_users_total (s : MaterializedView.State)
    (r : ReductionView.State) (e : Event)
    (h1 : (s.current_epoch_users.map Prod.fst).Nodup)
    (h2 : (s.previous_epoch_users.map Prod.fst).Nodup)
    (h3 : (r.reduction_users.map Prod.fst).Nodup)
    (h4 : (r.reading_users.map Prod.fst).Nodup) :
    (e ∈ s.outstanding_gc_events →
      lookupA (MaterializedView.filter_local_users s e).current_epoch_users e = none ∧
      lookupA (MaterializedView.filter_local_users s e).previous_epoch_users e = none ∧
      e ∉ (MaterializedView.filter_local_users s e).outstanding_gc_events) ∧
    (∀ x, x ≠ e →
      lookupA (MaterializedView.filter_local_users s e).current_epoch_users x =
        lookupA s.current_epoch_users x ∧
      lookupA (MaterializedView.filter_local_users s e).previous_epoch_users x =
        lookupA s.previous_epoch_users x ∧
      (x ∈ (MaterializedView.filter_local_users s e).outstanding_gc_events ↔
        x ∈ s.outstanding_gc_events)) ∧
    (e ∉ s.outstanding_gc_events → MaterializedView.filter_local_users s e = s) ∧
    (e ∈ r.outstanding_gc_events →
      lookupA (ReductionView.filter_local_users r e).reduction_users e = none ∧
      lookupA (ReductionView.filter_local_users r e).reading_users e = none ∧
      e ∉ (ReductionView.filter_local_users r e).outstanding_gc_events) ∧
    (∀ x, x ≠ e →
      lookupA (ReductionView.filter_local_users r e).reduction_users x =
        lookupA r.reduction_users x ∧
      lookupA (ReductionView.filter_local_users r e).reading_users x =
        lookupA r.reading_users x ∧
      (x ∈ (ReductionView.filter_local_users r e).outstanding_gc_events ↔
        x ∈ r.outstanding_gc_events)) ∧
    (e ∉ r.outstanding_gc_events → ReductionView.filter_local_users r e = r) := by
  refine ⟨?_, ?_, ?_, ?_, ?_, ?_⟩
  · intro hmem
    simp only [MaterializedView.filter_local_users, if_pos hmem]
    exact ⟨lookupA_eraseA_self _ e h1, lookupA_eraseA_self _ e h2, by simp⟩
  · intro x hx
    by_cases hmem : e ∈ s.outstanding_gc_events
    · simp only [MaterializedView.filter_local_users, if_pos hmem]
      exact ⟨lookupA_eraseA_ne _ e x hx, lookupA_eraseA_ne _ e x hx,
        by simp [Finset.mem_erase, hx]⟩
    · simp only [MaterializedView.filter_local_users, if_neg hmem]
      exact ⟨trivial, trivial, trivial⟩
  · intro hmem
    simp only [MaterializedView.filter_local_users, if_neg hmem]
  · intro hmem
    simp only [ReductionView.filter_local_users, if_pos hmem]
    exact ⟨lookupA_eraseA_self _ e h3, lookupA_eraseA_self _ e h4, by simp⟩
  · intro x hx
    by_cases hmem : e ∈ r.outstanding_gc_events
    · simp only [ReductionView.filter_local_users, if_pos hmem]
      exact ⟨lookupA_eraseA_ne _ e x hx, lookupA_eraseA_ne _ e x hx,
        by simp [Finset.mem_erase, hx]⟩
    · simp only [ReductionView.filter_local_users, if_neg hmem]
      exact ⟨trivial, trivial, trivial⟩
  · intro hmem
    simp only [ReductionView.filter_local_users, if_neg hmem]

/-- Witness for C8: a view that recorded event 5 in both tables, queried
for event 5 (removed) — instantiating the theorem at a concrete
state. -/
theorem claim8_witness :
    ((([(5, emptyEU)] : List (Event × EventUsers)).map Prod.fst).Nodup) ∧
    (5 ∈ ({5} : Finset Event) →
      lookupA (MaterializedView.filter_local_users
        { current_epoch_users := [(5, emptyEU)],
          previous_epoch_users := [(5, emptyEU)],
          outstanding_gc_events := {5}, next_uid := 0 } 5).current_epoch_users 5 = none ∧
      lookupA (MaterializedView.filter_local_users
        { current_epoch_users := [(5, emptyEU)],
          previous_epoch_users := [(5, emptyEU)],
          outstanding_gc_events := {5}, next_uid := 0 } 5).previous_epoch_users 5 = none ∧
      5 ∉ (MaterializedView.filter_local_users
        { current_epoch_users := [(5, emptyEU)],
          previous_epoch_users := [(5, emptyEU)],
          outstanding_gc_events := {5}, next_uid := 0 } 5).outstanding_gc_events) :=
  ⟨by simp,
   (claim8_filter_local_users_total
     { current_epoch_users := [(5, emptyEU)],
       previous_epoch_users := [(5, emptyEU)],
       outstanding_gc_events := {5}, next_uid := 0 }
     ReductionView.emptyRV 5 (by simp) (by simp)
     (by simp [ReductionView.emptyRV]) (by simp [ReductionView.emptyRV])).1⟩

/-- Witness for C1 at a concrete input: trivial context (the table
always answers true-dependence), two read-write users on field 0. -/
theorem claim1_witness :
    (¬({0} : FieldMask) ∩ {0} = ∅) ∧
    ((trivialCtx.check_dependence_type rwExcl rwExcl = DependenceType.TRUE_DEPENDENCE ∨
      trivialCtx.check_dependence_type rwExcl rwExcl = DependenceType.ANTI_DEPENDENCE) →
      (MaterializedView.find_current_preconditions trivialCtx 1
          { usage := rwExcl, child := none, versions := none, uid := 0 }
          {0} rwExcl {0} none
          { preconditions := ∅, observed := ∅, non_dominated := ∅ }).2.preconditions =
        insert 1 (∅ : Finset Event) ∧
      (MaterializedView.find_previous_preconditions trivialCtx 1
          { usage := rwExcl, child := none, versions := none, uid := 0 }
          {0} rwExcl {0} none ∅).2 = insert 1 (∅ : Finset Event)) := by
  constructor
  · decide
  · exact (claim1_dependence_table_gates_preconditions trivialCtx 1
      { usage := rwExcl, child := none, versions := none, uid := 0 }
      {0} rwExcl {0} none
      { preconditions := ∅, observed := ∅, non_dominated := ∅ } ∅
      (by decide) (by intro cc hcc; exact Option.noConfusion hcc)
      (by decide) (by decide)).1

/-- Claim C10: when the backing manager's use event exists (is not the
null event), every entry point includes it unconditionally, whatever the
epoch tables hold: MaterializedView.add_user and ReductionView.add_user
return it inside the wait set that is merged into the returned event,
and both find_copy_preconditions record it in the precondition map over
the entire requested copy mask. -/
theorem claim10_use_event_unconditional (ctx : ExternalCtx) (ue : Event)
    (s : MaterializedView.State) (r : ReductionView.State)
    (usage rusage : RegionUsage) (term : Event) (user_mask : FieldMask)
    (vi : FieldVersions) (redop : Nat) (reading : Bool)
    (copy_mask : FieldMask) (pre0 rpre0 : List (Event × FieldMask))
    (huse : ue ≠ 0) :
    ue ∈ (MaterializedView.add_user ctx ue s usage term user_mask vi).1 ∧
    copy_mask ⊆ ((lookupA (MaterializedView.find_copy_preconditions ctx ue s
      redop reading copy_mask vi pre0).1 ue).getD ∅) ∧
    ue ∈ (ReductionView.add_user ue r rusage term user_mask).1 ∧
    copy_mask ⊆ ((lookupA (ReductionView.find_copy_preconditions ue r redop
      reading copy_mask rpre0) ue).getD ∅) := by
  refine ⟨?_, ?_, ?_, ?_⟩
  · unfold MaterializedView.add_user
    dsimp only
    rw [if_pos huse]
    exact (add_local_user_pre_mono ctx s usage term true none vi user_mask
      {ue}) (Finset.mem_singleton_self ue)
  · unfold MaterializedView.find_copy_preconditions
    dsimp only
    rw [if_pos huse]
    refine Finset.Subset.trans ?_
      ((find_local_copy_pre_mono ctx s redop reading copy_mask none vi
        (addPre pre0 ue copy_mask)) ue)
    rw [lookupA_addPre_self]
    simpa using Finset.subset_union_right
  · unfold ReductionView.add_user
    dsimp only
    rw [if_pos huse]
    repeat' split
    all_goals try dsimp only
    all_goals
      exact collect_dependences_mono _ _ _ (Finset.mem_singleton_self ue)
  · unfold ReductionView.find_copy_preconditions
    dsimp only
    rw [if_pos huse]
    split
    all_goals
      refine Finset.Subset.trans ?_
        ((record_dependences_pre_mono _ copy_mask (addPre rpre0 ue copy_mask)) ue)
    all_goals rw [lookupA_addPre_self]
    all_goals simpa using Finset.subset_union_right

/-- Witness for C10 at a concrete input: use event 7, empty tables,
read-write task user and a reading copy over field 0. -/
theorem claim10_witness :
    ((7 : Event) ≠ 0) ∧
    (7 ∈ (MaterializedView.add_user trivialCtx 7 MaterializedView.emptyMV
      rwExcl 3 {0} []).1 ∧
    ({0} : FieldMask) ⊆ ((lookupA (MaterializedView.find_copy_preconditions
      trivialCtx 7 MaterializedView.emptyMV 0 true {0} [] []).1 7).getD ∅) ∧
    7 ∈ (ReductionView.add_user 7 ReductionView.emptyRV rwExcl 3 {0}).1 ∧
    ({0} : FieldMask) ⊆ ((lookupA (ReductionView.find_copy_preconditions 7
      ReductionView.emptyRV 0 true {0} []) 7).getD ∅)) :=
  ⟨by decide,
   claim10_use_event_unconditional trivialCtx 7 MaterializedView.emptyMV
     ReductionView.emptyRV rwExcl rwExcl 3 {0} [] 0 true {0} [] []
     (by decide)⟩

/-- Claim C3: in both the task-path and copy-path analyzers the
migration mask is exactly observed ∩ (request_mask \ non_dominated) —
when the previous walk contributes no dead events and no
previous-filter entries, both pipelines end in filter_current_users
applied with exactly that mask — and filter_current_users migrates
every current-epoch user's dominated fields into the previous epoch:
the current bucket keeps exactly its non-dominated fields (and is
erased when none remain), the previous bucket's summary gains the
dominated overlap, and every user of the bucket reappears there with
at least its dominated fields. -/
theorem claim3_dominated_migration (ctx : ExternalCtx)
    (s : MaterializedView.State) (usage : RegionUsage) (base : Bool)
    (child : ColorPoint) (vi : FieldVersions) (user_mask : FieldMask)
    (pre0 : Finset Event) (redop : Nat) (reading : Bool)
    (copy_mask : FieldMask) (cpre0 : List (Event × FieldMask))
    (dominated : FieldMask) (e : Event) (cur : EventUsers)
    (hnodup : (s.current_epoch_users.map Prod.fst).Nodup)
    (hcur : (e, cur) ∈ s.current_epoch_users)
    (hnt : ctx.has_triggered e = false)
    (hcwf : cur.wf)
    (hpwf : ((lookupA s.previous_epoch_users e).getD emptyEU).wf)
    (hov : ¬cur.user_mask ∩ dominated = ∅) :
    (∀ (acc1 : MaterializedView.TaskAcc) (dead2 : List Event)
       (fp2 : List (Event × FieldMask)) (pre2 : Finset Event),
      MaterializedView.scanCurrentTask ctx s.current_epoch_users usage 0 child
        user_mask pre0 = ([], acc1) →
      MaterializedView.scanPreviousTask ctx s.previous_epoch_users usage 0 child
        (user_mask \ (acc1.observed ∩ (user_mask \ acc1.non_dominated)))
        (acc1.observed ∩ (user_mask \ acc1.non_dominated)) [] acc1.preconditions
        = (dead2, fp2, pre2) →
      dead2 = [] → fp2 = [] →
      ¬acc1.observed ∩ (user_mask \ acc1.non_dominated) = ∅ →
      (MaterializedView.add_local_user ctx s usage 0 base child vi user_mask
        pre0).2.2 = MaterializedView.filter_current_users ctx s
          (acc1.observed ∩ (user_mask \ acc1.non_dominated))) ∧
    (∀ (cacc1 : MaterializedView.CopyAcc) (cdead2 : List Event)
       (cfp2 cpre2 : List (Event × FieldMask)),
      MaterializedView.scanCurrentCopy ctx s.current_epoch_users redop reading
        copy_mask child (if child.isSome then none else some vi) cpre0
        = ([], cacc1) →
      MaterializedView.scanPreviousCopy ctx s.previous_epoch_users redop reading
        child (if child.isSome then none else some vi)
        (copy_mask \ (cacc1.observed ∩ (copy_mask \ cacc1.non_dominated)))
        (cacc1.observed ∩ (copy_mask \ cacc1.non_dominated)) []
        cacc1.preconditions = (cdead2, cfp2, cpre2) →
      cdead2 = [] → cfp2 = [] →
      ¬cacc1.observed ∩ (copy_mask \ cacc1.non_dominated) = ∅ →
      (MaterializedView.find_local_copy_preconditions ctx s redop reading
        copy_mask child vi cpre0).2 = MaterializedView.filter_current_users ctx
          s (cacc1.observed ∩ (copy_mask \ cacc1.non_dominated))) ∧
    ((cur.user_mask \ dominated = ∅ →
        lookupA (MaterializedView.filter_current_users ctx s
          dominated).current_epoch_users e = none) ∧
     (¬cur.user_mask \ dominated = ∅ →
        (lookupA (MaterializedView.filter_current_users ctx s
          dominated).current_epoch_users e).map EventUsers.user_mask
          = some (cur.user_mask \ dominated))) ∧
    (∃ pb, lookupA (MaterializedView.filter_current_users ctx s
        dominated).previous_epoch_users e = some pb ∧
      pb.user_mask = ((lookupA s.previous_epoch_users e).getD emptyEU).user_mask
        ∪ (cur.user_mask ∩ dominated) ∧
      ∀ p ∈ cur.entries, ¬p.2 ∩ dominated = ∅ →
        ∃ q ∈ pb.entries, q.1 = p.1 ∧ p.2 ∩ dominated ⊆ q.2) := by
  have hmain := fcu_fold_lookup ctx dominated e cur hnt hov
    s.current_epoch_users [] s.previous_epoch_users hnodup hcur rfl
  have hspec := fcb_spec cur ((lookupA s.previous_epoch_users e).getD emptyEU)
    (cur.user_mask ∩ dominated) hcwf hpwf Finset.inter_subset_left hov
  have hsd : cur.user_mask \ (cur.user_mask ∩ dominated)
      = cur.user_mask \ dominated := by
    ext x
    simp only [Finset.mem_sdiff, Finset.mem_inter]
    tauto
  have hcurlook : lookupA (MaterializedView.filter_current_users ctx s
      dominated).current_epoch_users e
      = (MaterializedView.filterCurrentBucket cur
          ((lookupA s.previous_epoch_users e).getD emptyEU)
          (cur.user_mask ∩ dominated)).2 := by
    unfold MaterializedView.filter_current_users
    exact hmain.1
  have hprevlook : lookupA (MaterializedView.filter_current_users ctx s
      dominated).previous_epoch_users e
      = some (MaterializedView.filterCurrentBucket cur
          ((lookupA s.previous_epoch_users e).getD emptyEU)
          (cur.user_mask ∩ dominated)).1 := by
    unfold MaterializedView.filter_current_users
    exact hmain.2
  refine ⟨?_, ?_, ⟨?_, ?_⟩, ?_⟩
  · intro acc1 dead2 fp2 pre2 h1 h2 hd2 hf2 hdom
    rw [hd2, hf2] at h2
    unfold MaterializedView.add_local_user
    dsimp only
    rw [h1]
    dsimp only
    rw [h2]
    dsimp only
    simp only [List.foldl_nil, ne_eq, not_true_eq_false, Bool.false_eq_true,
      if_false, hdom, not_false_eq_true, if_true]
  · intro cacc1 cdead2 cfp2 cpre2 h1 h2 hd2 hf2 hdom
    rw [hd2, hf2] at h2
    unfold MaterializedView.find_local_copy_preconditions
    dsimp only
    rw [h1]
    dsimp only
    rw [h2]
    dsimp only
    simp only [List.foldl_nil, ne_eq, not_true_eq_false, Bool.false_eq_true,
      if_false, hdom, not_false_eq_true, if_true, false_or, or_false]
  · intro h
    rw [hcurlook]
    exact hspec.2.1.1 (by rw [hsd]; exact h)
  · intro h
    rw [hcurlook]
    have hm := hspec.2.1.2 (by rw [hsd]; exact h)
    rw [hm, hsd]
  · refine ⟨_, hprevlook, hspec.1, ?_⟩
    intro p hp hpd
    have hmw : cur.user_mask = sumMasks cur.entries := hcwf.1
    have hsubp : p.2 ⊆ cur.user_mask := by
      rw [hmw]
      exact mem_sumMasks _ p hp
    have hint : p.2 ∩ (cur.user_mask ∩ dominated) = p.2 ∩ dominated := by
      rw [← Finset.inter_assoc, Finset.inter_eq_left.mpr hsubp]
    obtain ⟨q, hq, hq1, hq2⟩ := hspec.2.2 p hp (by rw [hint]; exact hpd)
    rw [hint] at hq2
    exact ⟨q, hq, hq1, hq2⟩

/-- Witness for C3 at a concrete input: one untriggered current event 5
holding a single read-write user on fields 0 and 1, empty previous
epoch, request mask and dominated mask both field 0. -/
theorem claim3_witness :
    (((([(5, singleBucket
        { usage := rwExcl, child := none, versions := none, uid := 0 }
        ({0, 1} : FieldMask))] : List (Event × EventUsers)).map
          Prod.fst).Nodup) ∧
     ¬(singleBucket
        { usage := rwExcl, child := none, versions := none, uid := 0 }
        ({0, 1} : FieldMask)).user_mask ∩ ({0} : FieldMask) = ∅) ∧
    (¬(singleBucket
        { usage := rwExcl, child := none, versions := none, uid := 0 }
        ({0, 1} : FieldMask)).user_mask \ ({0} : FieldMask) = ∅ →
      (lookupA (MaterializedView.filter_current_users trivialCtx
        { current_epoch_users := [(5, singleBucket
            { usage := rwExcl, child := none, versions := none, uid := 0 }
            ({0, 1} : FieldMask))],
          previous_epoch_users := [], outstanding_gc_events := ∅,
          next_uid := 1 } ({0} : FieldMask)).current_epoch_users 5).map
        EventUsers.user_mask
        = some ((singleBucket
            { usage := rwExcl, child := none, versions := none, uid := 0 }
            ({0, 1} : FieldMask)).user_mask \ ({0} : FieldMask))) ∧
    (∃ pb, lookupA (MaterializedView.filter_current_users trivialCtx
        { current_epoch_users := [(5, singleBucket
            { usage := rwExcl, child := none, versions := none, uid := 0 }
            ({0, 1} : FieldMask))],
          previous_epoch_users := [], outstanding_gc_events := ∅,
          next_uid := 1 } ({0} : FieldMask)).previous_epoch_users 5 = some pb ∧
      pb.user_mask = ((lookupA ([] : List (Event × EventUsers)) 5).getD
          emptyEU).user_mask ∪
        ((singleBucket
            { usage := rwExcl, child := none, versions := none, uid := 0 }
            ({0, 1} : FieldMask)).user_mask ∩ ({0} : FieldMask)) ∧
      ∀ p ∈ (singleBucket
          { usage := rwExcl, child := none, versions := none, uid := 0 }
          ({0, 1} : FieldMask)).entries, ¬p.2 ∩ ({0} : FieldMask) = ∅ →
        ∃ q ∈ pb.entries, q.1 = p.1 ∧ p.2 ∩ ({0} : FieldMask) ⊆ q.2) := by
  have h := claim3_dominated_migration trivialCtx
    { current_epoch_users := [(5, singleBucket
        { usage := rwExcl, child := none, versions := none, uid := 0 }
        ({0, 1} : FieldMask))],
      previous_epoch_users := [], outstanding_gc_events := ∅, next_uid := 1 }
    rwExcl true none [] ({0} : FieldMask) ∅ 0 false ({0} : FieldMask) []
    ({0} : FieldMask) 5
    (singleBucket { usage := rwExcl, child := none, versions := none, uid := 0 }
      ({0, 1} : FieldMask))
    (by simp)
    (by simp)
    rfl
    (by
      refine ⟨rfl, by simp [singleBucket], by simp [singleBucket]⟩)
    (by
      refine ⟨rfl, by simp [emptyEU], by simp [emptyEU]⟩)
    (by decide)
  exact ⟨⟨by simp, by decide⟩, h.2.2.1.2, h.2.2.2⟩

/-- Claim C6: in every materialized-view state reachable by any sequence
of task registrations, copy registrations, copy queries, GC firings and
remote updates, and every reduction-view state reachable by its
operations, every EventUsers bucket of the current-epoch,
previous-epoch, reducer and reader tables has a summary mask equal to
the union of the per-user masks it contains (in the single form, the
single user's stored mask). -/
theorem claim6_summary_mask_invariant (ms : MaterializedView.State)
    (rs : ReductionView.State) (hm : MaterializedView.Reachable ms)
    (hr : ReductionView.Reachable rs) :
    (∀ p ∈ ms.current_epoch_users, p.2.maskWf) ∧
    (∀ p ∈ ms.previous_epoch_users, p.2.maskWf) ∧
    (∀ p ∈ rs.reduction_users, p.2.maskWf) ∧
    (∀ p ∈ rs.reading_users, p.2.maskWf) := by
  have h1 := mv_reachable_wf ms hm
  have h2 := rv_reachable_wf rs hr
  exact ⟨fun p hp => (h1.1 p hp).1.1, fun p hp => (h1.2.1 p hp).1.1,
    fun p hp => (h2.1 p hp).1.1, fun p hp => (h2.2.1 p hp).1.1⟩

/-- Witness for C6 at concrete reachable states: a materialized view
after one task registration and one GC firing, and a reduction view
after one reducing registration. -/
theorem claim6_witness :
    (∀ p ∈ (MaterializedView.filter_local_users (MaterializedView.add_user
        trivialCtx 7 MaterializedView.emptyMV rwExcl 3 {0} []).2.2
        3).current_epoch_users, p.2.maskWf) ∧
    (∀ p ∈ (MaterializedView.filter_local_users (MaterializedView.add_user
        trivialCtx 7 MaterializedView.emptyMV rwExcl 3 {0} []).2.2
        3).previous_epoch_users, p.2.maskWf) ∧
    (∀ p ∈ (ReductionView.add_user 7 ReductionView.emptyRV
        (reduceUsage 5) 3 {0}).2.2.reduction_users, p.2.maskWf) ∧
    (∀ p ∈ (ReductionView.add_user 7 ReductionView.emptyRV
        (reduceUsage 5) 3 {0}).2.2.reading_users, p.2.maskWf) :=
  claim6_summary_mask_invariant _ _
    (MaterializedView.Reachable.gcFire 3
      (MaterializedView.Reachable.addUser trivialCtx 7 rwExcl 3 {0} []
        MaterializedView.Reachable.init))
    (ReductionView.Reachable.addUser 7 (reduceUsage 5) 3 {0}
      ReductionView.Reachable.init)

/-- Claim C7: packing a materialized view's epoch tables restricted to an
update mask (`send_view_updates`) and replaying the message on a fresh
remote view (`process_update`) yields the same current-epoch table,
previous-epoch table and outstanding-collection set — up to equivalence
of user records, allocation identity erased — as applying
`add_current_user` / `add_previous_user` locally with the same users and
restricted masks; and the count encoding holds: every emitted multi-user
block carries count `-(n+1)` for its `n` entries and never exactly one
entry, a one-overlap multi bucket having been sent in single-user form.
Hypotheses: buckets are well-formed with unique table keys, current-epoch
user allocations are globally distinct, and each previous-epoch bucket's
users are distinct allocations (all invariants of reachable states). -/
theorem claim7_update_round_trip (s : MaterializedView.State)
    (mask : FieldMask)
    (hcw : ∀ pe ∈ s.current_epoch_users, pe.2.wf)
    (hpw : ∀ pe ∈ s.previous_epoch_users, pe.2.wf)
    (hcnd : (s.current_epoch_users.map Prod.fst).Nodup)
    (hpnd : (s.previous_epoch_users.map Prod.fst).Nodup)
    (hcu : ((s.current_epoch_users.map fun pe =>
      pe.2.entries.map fun q => q.1.uid).join).Nodup)
    (hpu : ∀ pe ∈ s.previous_epoch_users,
      (pe.2.entries.map fun q => q.1.uid).Nodup) :
    ((MaterializedView.process_update MaterializedView.emptyMV
        (MaterializedView.send_view_updates s mask)).current_epoch_users.map
        fun p => (p.1, p.2.recordEntries))
      = ((MaterializedView.local_update_apply s
          mask).current_epoch_users.map fun p => (p.1, p.2.recordEntries)) ∧
    ((MaterializedView.process_update MaterializedView.emptyMV
        (MaterializedView.send_view_updates s mask)).previous_epoch_users.map
        fun p => (p.1, p.2.recordEntries))
      = ((MaterializedView.local_update_apply s
          mask).previous_epoch_users.map fun p => (p.1, p.2.recordEntries)) ∧
    (MaterializedView.process_update MaterializedView.emptyMV
        (MaterializedView.send_view_updates s mask)).outstanding_gc_events
      = (MaterializedView.local_update_apply s mask).outstanding_gc_events ∧
    ∀ pb ∈ (MaterializedView.send_view_updates s mask).current
        ++ (MaterializedView.send_view_updates s mask).previous,
      ∀ c ents, pb.2 = MaterializedView.UpdateBlock.multi c ents →
        c = -(ents.length + 1) ∧ ents.length ≠ 1 := by
  obtain ⟨T, husers, hTok, hFc, hFp⟩ :=
    send_view_updates_spec s mask hcw hpw hcu
  have hfstc := blockMatches_fst_eq T mask hFc
  have hfstp := blockMatches_fst_eq T mask hFp
  have hcnd2 : ((MaterializedView.send_view_updates s
      mask).current.map Prod.fst).Nodup := by
    rw [hfstc]
    exact hcnd.sublist
      ((liveList_sublist mask s.current_epoch_users).map Prod.fst)
  have hpnd2 : ((MaterializedView.send_view_updates s
      mask).previous.map Prod.fst).Nodup := by
    rw [hfstp]
    exact hpnd.sublist
      ((liveList_sublist mask s.previous_epoch_users).map Prod.fst)
  have hcd : ∀ pb ∈ (MaterializedView.send_view_updates s mask).current,
      MaterializedView.decodeBlock pb.2 ≠ [] := by
    intro pb hpb
    obtain ⟨pe, _, hbm⟩ := forall2_mem_right hFc pb hpb
    exact hbm.2.2.1
  have hpd : ∀ pb ∈ (MaterializedView.send_view_updates s mask).previous,
      MaterializedView.decodeBlock pb.2 ≠ [] := by
    intro pb hpb
    obtain ⟨pe, _, hbm⟩ := forall2_mem_right hFp pb hpb
    exact hbm.2.2.1
  obtain ⟨rc, rp, rg⟩ := process_update_emptyMV
    (MaterializedView.send_view_updates s mask) hcnd2 hpnd2 hcd hpd
  obtain ⟨lc, lp, lg⟩ := local_update_apply_spec s mask hcw hpw hcnd hpnd
  have hwl : ∀ pe ∈ MaterializedView.liveList mask s.current_epoch_users,
      pe.2.wf :=
    fun pe hpe => hcw pe (liveList_mem mask _ pe hpe).1
  have hul : ∀ pe ∈ MaterializedView.liveList mask s.current_epoch_users,
      (pe.2.entries.map fun q => q.1.uid).Nodup :=
    fun pe hpe => join_nodup_parts _ s.current_epoch_users hcu pe
      (liveList_mem mask _ pe hpe).1
  have hwlp : ∀ pe ∈ MaterializedView.liveList mask s.previous_epoch_users,
      pe.2.wf :=
    fun pe hpe => hpw pe (liveList_mem mask _ pe hpe).1
  have hulp : ∀ pe ∈ MaterializedView.liveList mask s.previous_epoch_users,
      (pe.2.entries.map fun q => q.1.uid).Nodup :=
    fun pe hpe => hpu pe (liveList_mem mask _ pe hpe).1
  refine ⟨?_, ?_, ?_, ?_⟩
  · rw [rc, lc, List.map_map, List.map_map, husers]
    exact roundtrip_tables T hTok mask 0 hFc hwl hul
  · rw [rp, lp, List.map_map, List.map_map, husers]
    exact roundtrip_tables T hTok mask 0 hFp hwlp hulp
  · rw [rg, lg, fold_insert_fst, fold_insert_fst, fold_insert_fst,
      fold_insert_fst, hfstc, hfstp]
  · intro pb hpb
    rcases List.mem_append.mp hpb with h | h
    · obtain ⟨pe, _, hbm⟩ := forall2_mem_right hFc pb h
      exact hbm.2.2.2
    · obtain ⟨pe, _, hbm⟩ := forall2_mem_right hFp pb h
      exact hbm.2.2.2

/-- Witness for C7 at a concrete state: the round trip reproduces the
outstanding-collection set of the local reference application. -/
theorem claim7_witness :
    (MaterializedView.process_update MaterializedView.emptyMV
      (MaterializedView.send_view_updates c7s {0})).outstanding_gc_events
    = (MaterializedView.local_update_apply c7s {0}).outstanding_gc_events :=
  (claim7_update_round_trip c7s {0} (by decide) (by decide) (by decide)
    (by decide) (by decide) (by decide)).2.2.1

end Legion
